import Mathlib

/-!
# Holdings valuation engine of `server.js`

A shallow embedding of the valuation core of the investment-club server:
the exchange registry, `mapSymbolForExchange`, `fetchFxRates`, `convertToGBP`,
`fetchPriceGBP`, the handler of `POST /api/holdings/calc` (`valueHoldings`) and the
handler of `POST /api/holdings/defaults` (`refreshDefaults`), and of the client function
`computeEffectiveHoldings` of `App.jsx`.

Modelling conventions.

* Numbers come in two layers. The first layer takes a JavaScript number as an exact
  rational, or `NaN` where `Number(...)` is applied to a value that is not numeric. It
  carries the statements that do not depend on rounding: keys, lookups, caching, time
  stamps, validation. Division by a zero rate, an infinity in JavaScript, is outside this
  layer: statements about the EUR branch of `convertToGBP` assume `usdEur ≠ 0`.
* The second layer, `Float64` and the definitions whose name ends in `64`, takes a
  JavaScript number as an IEEE 754 double: `NaN`, an infinity, or a finite double given by
  the rational it denotes. `toDouble` rounds a rational to the nearest double, a tie going
  to the even neighbour, with gradual underflow and with overflow to an infinity; a numeric
  literal of a request or of a provider answer is rounded by it, and every `+`, `*` and `/`
  rounds its exact result. `Math.round` and `Math.max` are exact. The sign of a zero is not
  tracked; no statement divides by a zero. The statements on rounded amounts, values,
  weights and totals are made in this layer.
* Strings are Lean strings. `toUpperCase` maps the ASCII letters, `trim` strips the
  ECMAScript white space and line terminator characters. A string with a lone surrogate,
  on which `encodeURIComponent` throws, is no Lean string; nothing else in a price batch
  can throw, so the `catch` around the batch has no counterpart.
* The body of `POST /api/holdings/calc` is an optional array whose elements are a record
  or `null` (`postHoldingsCalc`); `valueHoldings` is the handler on an array of records.
* The two module-level caches and the list of requests sent to the quote provider are
  an explicit `State`, threaded through every function.
* The quote provider is an arbitrary `Provider`: its answer may depend on the number of
  requests already issued, so every sequence of answers (failures included) is covered.
* `Promise.all` over the distinct keys is run one key after the other, in the order of
  `stockKeys`. All `Date.now()` readings of one request happen in the synchronous part
  of the handler and are the single parameter `now`.
* `data/exchanges.json` is not part of the sources: the registry `EXCHANGES` is a
  parameter, and `defaultExchanges` is the built-in table of the `catch` branch.
-/

namespace InvestmentClub

/-! ## Numbers -/

/-- Result of `Number(x)`: a finite number or `NaN`. -/
inductive JSNumber where
  | NaN : JSNumber
  | fin (q : ℚ) : JSNumber
deriving DecidableEq

/-- The expression `x || 0` for a number `x`. -/
def JSNumber.orZero : JSNumber → ℚ
  | .NaN => 0
  | .fin q => q

/-- The function `Math.round`: the nearest integer, halves rounded towards plus infinity. -/
def mathRound (x : ℚ) : ℚ := ((Rat.floor (x + 1 / 2) : ℤ) : ℚ)

/-- The function `Math.max` on two finite numbers. -/
def mathMax (a b : ℚ) : ℚ := if a ≤ b then b else a

/-! ## Strings -/

/-- White space and line terminators removed by `String.prototype.trim`. -/
def isJsWhiteSpace (c : Char) : Bool :=
  let n := c.toNat
  n = 0x09 || n = 0x0A || n = 0x0B || n = 0x0C || n = 0x0D || n = 0x20 || n = 0xA0 ||
  n = 0x1680 || (0x2000 ≤ n && n ≤ 0x200A) || n = 0x2028 || n = 0x2029 || n = 0x202F ||
  n = 0x205F || n = 0x3000 || n = 0xFEFF

/-- The method `trim`. -/
def jsTrim (s : String) : String :=
  String.mk ((s.data.dropWhile isJsWhiteSpace).reverse.dropWhile isJsWhiteSpace).reverse

/-- The method `toUpperCase`, on the ASCII letters. -/
def jsToUpperCase (s : String) : String :=
  String.mk (s.data.map Char.toUpper)

/-- The expression `String(x || '').toUpperCase().trim()`. -/
def upperTrim (s : String) : String := jsTrim (jsToUpperCase s)

/-- Pieces of `k.split('||')`, scanning left to right; `cur` is the current piece, reversed. -/
def splitBarsAux : List Char → List Char → List (List Char)
  | [], cur => [cur.reverse]
  | [c], cur => [(c :: cur).reverse]
  | c :: d :: rest2, cur =>
    if c.toNat = 0x7C ∧ d.toNat = 0x7C then cur.reverse :: splitBarsAux rest2 []
    else splitBarsAux (d :: rest2) (c :: cur)

/-- The call `k.split('||')`. -/
def splitBars (k : String) : List String :=
  (splitBarsAux k.data []).map String.mk

/-- Composite key of a (ticker, exchange) pair. -/
def makeKey (ticker exchange : String) : String := ticker ++ "||" ++ exchange

/-! ## Insertion-ordered maps and sets -/

/-- The method `Map.prototype.get`; `none` is `undefined`. -/
def mapGet {α : Type} : List (String × α) → String → Option α
  | [], _ => none
  | (k1, v) :: m, k => if k1 = k then some v else mapGet m k

/-- The method `Map.prototype.has`. -/
def mapHas {α : Type} (m : List (String × α)) (k : String) : Bool := (mapGet m k).isSome

/-- The method `Map.prototype.set`: an existing key keeps its position. -/
def mapSet {α : Type} : List (String × α) → String → α → List (String × α)
  | [], k, v => [(k, v)]
  | (k1, v1) :: m, k, v => if k1 = k then (k, v) :: m else (k1, v1) :: mapSet m k v

/-- The expression `[...new Set(xs)]`: first occurrences, in order. -/
def uniqueKeys (xs : List String) : List String :=
  xs.foldl (fun acc k => if k ∈ acc then acc else acc ++ [k]) []

/-! ## Exchange registry and symbol mapping -/

/-- One record of `EXCHANGES`. -/
structure Exchange where
  code : String
  name : String
  suffix : String
  currency : String
deriving DecidableEq

/-- The built-in table used when `data/exchanges.json` cannot be read. -/
def defaultExchanges : List Exchange :=
  [ { code := "XNAS", name := "NASDAQ", suffix := "", currency := "USD" },
    { code := "XNYS", name := "NYSE", suffix := "", currency := "USD" },
    { code := "XASE", name := "NYSE American", suffix := "", currency := "USD" },
    { code := "ARCX", name := "NYSE Arca", suffix := "", currency := "USD" },
    { code := "XLON", name := "London Stock Exchange", suffix := ".L", currency := "GBX" },
    { code := "XETR", name := "XETRA (Germany)", suffix := ".DE", currency := "EUR" },
    { code := "XFRA", name := "Frankfurt (Germany)", suffix := ".DE", currency := "EUR" },
    { code := "XPAR", name := "Euronext Paris", suffix := ".PA", currency := "EUR" } ]

/-- The lookup `EXCHANGES.find(e => e.code === String(exchangeCode || '').toUpperCase().trim())`. -/
def findExchange (EXCHANGES : List Exchange) (exchangeCode : String) : Option Exchange :=
  EXCHANGES.find? (fun e => decide (e.code = upperTrim exchangeCode))

/-- The function `mapSymbolForExchange`. -/
def mapSymbolForExchange (EXCHANGES : List Exchange) (ticker exchangeCode : String) : String :=
  let t := upperTrim ticker
  match findExchange EXCHANGES exchangeCode with
  | none => t
  | some ex => if t = "BRK.B" then "BRK.B" else t ++ ex.suffix

/-! ## Provider, caches and state -/

/-- A request sent to the quote provider. -/
inductive Request where
  | forexRates : Request
  | forexCandle (symbol : String) : Request
  | quote (symbol : String) : Request
deriving DecidableEq

/-- Answers of the quote provider, reduced to the fields the server reads. The first
argument is the number of requests issued before this one; `none` is a `fetch` or
`json()` that throws.
* `rates n` is the pair `(Number(quote.GBP), Number(quote.EUR))` of `forex/rates`;
* `candle n sym` is `none` inside when `j.c` is not an array, else `Number(j.c[0])`;
* `quote n sym` is `j.c` when it is a number, `none` inside (`null`) otherwise. -/
structure Provider where
  rates : Nat → Option (JSNumber × JSNumber)
  candle : Nat → String → Option (Option JSNumber)
  quote : Nat → String → Option (Option ℚ)

/-- The pair `{ usdGbp, usdEur }`. -/
structure Rates where
  usdGbp : ℚ
  usdEur : ℚ
deriving DecidableEq

/-- The fields `fetchFxRates._cache` and `fetchFxRates._ts`, set together. -/
structure FxEntry where
  val : Rates
  ts : ℤ
deriving DecidableEq

/-- A value `{ price, ts }` of `fetchPriceGBP._cache`. -/
structure PriceEntry where
  price : ℚ
  ts : ℤ
deriving DecidableEq

/-- Process state: both caches and the requests issued so far, oldest first. -/
structure State where
  priceCache : List (String × PriceEntry)
  fxCache : Option FxEntry
  log : List Request
deriving DecidableEq

/-- The state of a fresh process. -/
def State.empty : State := { priceCache := [], fxCache := none, log := [] }

/-- Record one request to the provider. -/
def State.issue (s : State) (r : Request) : State := { s with log := s.log ++ [r] }

/-- The constant `TTL_MS`, fifteen minutes in milliseconds. -/
def TTL_MS : ℤ := 15 * 60 * 1000

/-- The static pair returned when every live source fails. -/
def fallbackRates : Rates := { usdGbp := 78 / 100, usdEur := 92 / 100 }

/-- Store a pair in the FX cache with time stamp `now` and return it. -/
def cacheRates (now : ℤ) (val : Rates) (s : State) : Rates × State :=
  (val, { s with fxCache := some { val := val, ts := now } })

/-- Tier 1 of `fetchFxRates`: the test `usdGbp && usdEur` on the combined payload. -/
def ratesOfPayload (g e : JSNumber) : Option Rates :=
  match g, e with
  | .fin a, .fin b => if a ≠ 0 ∧ b ≠ 0 then some { usdGbp := a, usdEur := b } else none
  | _, _ => none

/-- Tier 2 of `fetchFxRates`: `Array.isArray(j?.c) && Number(j.c[0]) ? Number(j.c[0]) : null`
followed by `x ? (1 / x) : null`. -/
def invertedClose (c : Option JSNumber) : Option ℚ :=
  match c with
  | some (.fin x) => if x ≠ 0 then some (1 / x) else none
  | _ => none

/-- The test `usdGbp && usdEur` of tier 2. -/
def ratesOfCandles (c1 c2 : Option JSNumber) : Option Rates :=
  match invertedClose c1, invertedClose c2 with
  | some a, some b => if a ≠ 0 ∧ b ≠ 0 then some { usdGbp := a, usdEur := b } else none
  | _, _ => none

/-- Tier 2 and tier 3 of `fetchFxRates`, entered after the combined call gave no pair. -/
def fetchFxSpot (P : Provider) (now : ℤ) (s1 : State) : Rates × State :=
  let r1 := P.candle s1.log.length "OANDA:GBP_USD"
  let s2 := s1.issue (.forexCandle "OANDA:GBP_USD")
  match r1 with
  | none => cacheRates now fallbackRates s2
  | some c1 =>
    let r2 := P.candle s2.log.length "OANDA:EUR_USD"
    let s3 := s2.issue (.forexCandle "OANDA:EUR_USD")
    match r2 with
    | none => cacheRates now fallbackRates s3
    | some c2 =>
      match ratesOfCandles c1 c2 with
      | some val => cacheRates now val s3
      | none => cacheRates now fallbackRates s3

/-- The function `fetchFxRates`. -/
def fetchFxRates (P : Provider) (now : ℤ) (s : State) : Rates × State :=
  match s.fxCache.filter (fun c => decide (now - c.ts < TTL_MS)) with
  | some c => (c.val, s)
  | none =>
    let s1 := s.issue .forexRates
    match (P.rates s.log.length).bind (fun p => ratesOfPayload p.1 p.2) with
    | some val => cacheRates now val s1
    | none => fetchFxSpot P now s1

/-- The currency `ex?.currency || 'USD'` of an exchange code. -/
def currencyOf (EXCHANGES : List Exchange) (exchangeCode : String) : String :=
  match findExchange EXCHANGES exchangeCode with
  | some ex => if ex.currency = "" then "USD" else ex.currency
  | none => "USD"

/-- The function `convertToGBP`; `price` is `Number(price)`, the result `none` is `null`. -/
def convertToGBP (EXCHANGES : List Exchange) (price : JSNumber) (exchangeCode : String)
    (rates : Rates) : Option ℚ :=
  match price with
  | .NaN => none
  | .fin p =>
    if p ≤ 0 then none
    else
      let currency := currencyOf EXCHANGES exchangeCode
      if currency = "GBX" then some (mathRound ((p / 100) * 100) / 100)
      else if currency = "USD" then some (mathRound ((p * rates.usdGbp) * 100) / 100)
      else if currency = "EUR" then
        some (mathRound (((p * rates.usdGbp) / rates.usdEur) * 100) / 100)
      else some (mathRound ((p * rates.usdGbp) * 100) / 100)

/-- The coercion `Number(raw)` of `raw`, a number or `null`. -/
def numberOfNullable : Option ℚ → JSNumber
  | none => .fin 0
  | some x => .fin x

/-- The cache miss path of `fetchPriceGBP`. -/
def fetchPriceMiss (EXCHANGES : List Exchange) (P : Provider) (now : ℤ)
    (ticker exchangeCode key : String) (s : State) : Option ℚ × State :=
  let mapped := mapSymbolForExchange EXCHANGES ticker exchangeCode
  let fx := fetchFxRates P now s
  let rates := fx.1
  let s1 := fx.2
  let resp := P.quote s1.log.length mapped
  let s2 := s1.issue (.quote mapped)
  match resp with
  | none => (none, s2)
  | some raw =>
    match convertToGBP EXCHANGES (numberOfNullable raw) exchangeCode rates with
    | some gbp =>
      if gbp ≠ 0 ∧ gbp > 0 then
        (some gbp, { s2 with priceCache := mapSet s2.priceCache key { price := gbp, ts := now } })
      else (none, s2)
    | none => (none, s2)

/-- The function `fetchPriceGBP`. -/
def fetchPriceGBP (EXCHANGES : List Exchange) (P : Provider) (now : ℤ)
    (ticker exchangeCode : String) (s : State) : Option ℚ × State :=
  let key := makeKey (upperTrim ticker) (upperTrim exchangeCode)
  match mapGet s.priceCache key with
  | some cached =>
    if cached.price > 0 ∧ now - cached.ts < TTL_MS then (some cached.price, s)
    else fetchPriceMiss EXCHANGES P now ticker exchangeCode key s
  | none => fetchPriceMiss EXCHANGES P now ticker exchangeCode key s

/-! ## The handler of `POST /api/holdings/calc` -/

/-- One element of `req.body.holdings`, as the handler reads it: `name`, `ticker` and
`exchange` are `String(h.x || '')`, `shares` is `Number(h.shares)`, `value` is `none`
when `h.value === undefined` and `Number(h.value)` otherwise, `defaultPrice` is the
field when `typeof h.defaultPrice === 'number'`. -/
structure HoldingInput where
  name : String
  ticker : String
  shares : JSNumber
  exchange : String
  value : Option JSNumber
  defaultPrice : Option ℚ
deriving DecidableEq

/-- An element of `normalized`. -/
structure Normalized where
  name : String
  ticker : String
  shares : ℚ
  exchange : String
  value : Option JSNumber
  defaultPrice : Option ℚ
deriving DecidableEq

/-- An element of `results` and of `withWeights`; `none` is `null`. -/
structure ResultRow where
  name : String
  ticker : String
  shares : ℚ
  value : Option ℚ
  weight : ℚ
  pricePerShare : Option ℚ
  exchange : String
deriving DecidableEq

/-- Response of the handler: status 400 with an error text, or status 200. -/
inductive Reply where
  | badRequest (error : String) : Reply
  | ok (holdings : List ResultRow) (total : ℚ) : Reply
deriving DecidableEq

/-- The callback of `holdings.map` that builds `normalized`. -/
def normalize (h : HoldingInput) : Normalized :=
  { name := jsTrim h.name
    ticker := upperTrim h.ticker
    shares := h.shares.orZero
    exchange := upperTrim h.exchange
    value := h.value
    defaultPrice := h.defaultPrice }

/-- The list `stockKeys`. -/
def stockKeys (normalized : List Normalized) : List String :=
  uniqueKeys ((normalized.filter (fun h => decide (h.ticker ≠ "" ∧ h.ticker ≠ "CASH"))).map
    (fun h => makeKey h.ticker h.exchange))

/-- The calls `fetchPriceGBP(t, ex)` for `[t, ex] = k.split('||')`, one key after the other. -/
def fetchAll (EXCHANGES : List Exchange) (P : Provider) (now : ℤ) :
    List String → State → List (Option ℚ) × State
  | [], s => ([], s)
  | k :: ks, s =>
    let parts := splitBars k
    let r := fetchPriceGBP EXCHANGES P now (parts.getD 0 "") (parts.getD 1 "") s
    let rs := fetchAll EXCHANGES P now ks r.2
    (r.1 :: rs.1, rs.2)

/-- The loop `responses.forEach` that fills `priceMap`. -/
def fillPriceMap : List String → List (Option ℚ) → List (String × Option ℚ) →
    List (String × Option ℚ)
  | k :: ks, p :: ps, m =>
    fillPriceMap ks ps
      (mapSet m k (match p with
        | some x => if x > 0 then some x else none
        | none => none))
  | _, _, m => m

/-- The `price` of an equity holding:
`priceMap.has(key) ? priceMap.get(key) : priceMap.get(ticker + '||') || (defaultPrice or null)`. -/
def resolvePrice (priceMap : List (String × Option ℚ)) (h : Normalized) : Option ℚ :=
  let key := makeKey h.ticker h.exchange
  if mapHas priceMap key then (mapGet priceMap key).join
  else
    match (mapGet priceMap (makeKey h.ticker "")).join with
    | some p => if p ≠ 0 then some p else h.defaultPrice
    | none => h.defaultPrice

/-- The row pushed to `results` for a holding that has a name and a ticker. -/
def resultRow (priceMap : List (String × Option ℚ)) (h : Normalized) : ResultRow :=
  if h.ticker = "CASH" then
    let cashInput : JSNumber :=
      match h.value with
      | some v => v
      | none => .fin h.shares
    let value : ℚ :=
      match cashInput with
      | .fin x => mathMax 0 (mathRound x)
      | .NaN => 0
    { name := h.name, ticker := h.ticker, shares := 0, value := some value, weight := 0,
      pricePerShare := some 1, exchange := "" }
  else
    let price := resolvePrice priceMap h
    let value := price.map (fun p => mathMax 0 (mathRound (p * h.shares)))
    { name := h.name, ticker := h.ticker, shares := h.shares, value := value, weight := 0,
      pricePerShare := price, exchange := h.exchange }

/-- The loop `for (const h of normalized)`: it stops with status 400 at the first
holding without a name or a ticker. -/
def buildResults (priceMap : List (String × Option ℚ)) :
    List Normalized → Except String (List ResultRow)
  | [] => .ok []
  | h :: rest =>
    if h.name = "" ∨ h.ticker = "" then .error "Each holding must include name and ticker"
    else
      match buildResults priceMap rest with
      | .error e => .error e
      | .ok rows => .ok (resultRow priceMap h :: rows)

/-- The reducer of `total`. -/
def totalOf (results : List ResultRow) : ℚ :=
  results.foldl (fun acc h => acc + (match h.value with
    | some v => v
    | none => 0)) 0

/-- The callback of `results.map` that builds `withWeights`. -/
def withWeight (total : ℚ) (h : ResultRow) : ResultRow :=
  { h with weight :=
      match h.value with
      | some v => if total > 0 then mathRound ((v / total) * 1000) / 10 else 0
      | none => 0 }

/-- The state after the price batch of the handler. -/
def stateAfterBatch (EXCHANGES : List Exchange) (P : Provider) (now : ℤ) (s : State)
    (holdings : List HoldingInput) : State :=
  (fetchAll EXCHANGES P now (stockKeys (holdings.map normalize)) s).2

/-- The map `priceMap` of the handler once the price batch has been merged. -/
def priceMapOf (EXCHANGES : List Exchange) (P : Provider) (now : ℤ) (s : State)
    (holdings : List HoldingInput) : List (String × Option ℚ) :=
  let keys := stockKeys (holdings.map normalize)
  fillPriceMap keys (fetchAll EXCHANGES P now keys s).1 []

/-- The handler of `POST /api/holdings/calc` on the array `holdings`. -/
def valueHoldings (EXCHANGES : List Exchange) (P : Provider) (now : ℤ) (s : State)
    (holdings : List HoldingInput) : Reply × State :=
  if holdings.length = 0 then (.badRequest "Holdings array is required", s)
  else
    let normalized := holdings.map normalize
    let priceMap := priceMapOf EXCHANGES P now s holdings
    match buildResults priceMap normalized with
    | .error e => (.badRequest e, stateAfterBatch EXCHANGES P now s holdings)
    | .ok results =>
      let total := totalOf results
      (.ok (results.map (withWeight total)) total, stateAfterBatch EXCHANGES P now s holdings)

/-- Response of the handler with its `catch` branch: status 500, or one of the answers
with status 400 or 200. -/
inductive HttpReply where
  | serverError : HttpReply
  | reply (r : Reply) : HttpReply
deriving DecidableEq

/-- The handler on the request body: `holdings` is `req.body.holdings` when that is an
array (`some`), and the empty array otherwise; an element of the array is `none` when it
is `null`. Reading `h.name` of `null` throws inside `holdings.map`, before any lookup is
made, and the `catch` branch answers with status 500. -/
def postHoldingsCalc (EXCHANGES : List Exchange) (P : Provider) (now : ℤ) (s : State)
    (body : Option (List (Option HoldingInput))) : HttpReply × State :=
  let holdings := body.getD []
  if holdings.length = 0 then (.reply (.badRequest "Holdings array is required"), s)
  else if holdings.all Option.isSome then
    ((.reply (valueHoldings EXCHANGES P now s (holdings.filterMap id)).1),
      (valueHoldings EXCHANGES P now s (holdings.filterMap id)).2)
  else (.serverError, s)

/-- The response of the handler as a function of `priceMap`. -/
def replyOf (priceMap : List (String × Option ℚ)) (holdings : List HoldingInput) : Reply :=
  if holdings.length = 0 then .badRequest "Holdings array is required"
  else
    match buildResults priceMap (holdings.map normalize) with
    | .error e => .badRequest e
    | .ok results => .ok (results.map (withWeight (totalOf results))) (totalOf results)

/-! ## Sample providers and requests -/

/-- A provider that is down: every request fails. -/
def downProvider : Provider :=
  { rates := fun _ => none, candle := fun _ _ => none, quote := fun _ _ => none }

/-- A provider whose combined rates are GBP 0.8 and EUR 0.9 per USD and that quotes
AAPL at 200; every other request fails. -/
def sampleProvider : Provider :=
  { rates := fun _ => some (.fin (8 / 10), .fin (9 / 10))
    candle := fun _ _ => none
    quote := fun _ sym => if sym = "AAPL" then some (some 200) else none }

/-- The request `[Apple/AAPL/10 shares/XNAS, Cash/CASH/500 shares]`. -/
def appleAndCash : List HoldingInput :=
  [ { name := "Apple", ticker := "AAPL", shares := .fin 10, exchange := "XNAS",
      value := none, defaultPrice := none },
    { name := "Cash", ticker := "CASH", shares := .fin 500, exchange := "",
      value := none, defaultPrice := none } ]

/-- The rows answered for `appleAndCash` by `sampleProvider`. -/
def appleAndCashRows : List ResultRow :=
  [ { name := "Apple", ticker := "AAPL", shares := 10, value := some 1600,
      weight := 762 / 10, pricePerShare := some 160, exchange := "XNAS" },
    { name := "Cash", ticker := "CASH", shares := 0, value := some 500,
      weight := 238 / 10, pricePerShare := some 1, exchange := "" } ]

/-- One equity holding with `defaultPrice: 42`. -/
def acmeWithDefault : List HoldingInput :=
  [ { name := "Acme", ticker := "ACME", shares := .fin 10, exchange := "XNAS",
      value := none, defaultPrice := some 42 } ]

/-- Six cash holdings of 1 each. -/
def sixCash : List HoldingInput :=
  List.replicate 6 { name := "Cash", ticker := "CASH", shares := .fin 1, exchange := "",
                     value := none, defaultPrice := none }

/-- One equity holding without a name. -/
def namelessApple : List HoldingInput :=
  [ { name := "", ticker := "AAPL", shares := .fin 10, exchange := "",
      value := none, defaultPrice := none } ]

/-- One cash holding without a name. -/
def namelessCash : List HoldingInput :=
  [ { name := "", ticker := "CASH", shares := .fin 500, exchange := "",
      value := none, defaultPrice := none } ]

/-! ## Price lookups of the batch -/

/-- The destructuring `[t, ex] = k.split('||')`, a missing piece read as `''`. -/
def lookupArgs (k : String) : String × String :=
  ((splitBars k).getD 0 "", (splitBars k).getD 1 "")

/-- The arguments `(t, ex)` of the calls `fetchPriceGBP(t, ex)` of the batch, in order. -/
def priceLookups (holdings : List HoldingInput) : List (String × String) :=
  (stockKeys (holdings.map normalize)).map lookupArgs

/-- The calls `fetchPriceGBP(t, ex)` over a list of argument pairs, one after the other. -/
def fetchPairs (EXCHANGES : List Exchange) (P : Provider) (now : ℤ) :
    List (String × String) → State → List (Option ℚ) × State
  | [], s => ([], s)
  | a :: as, s =>
    let r := fetchPriceGBP EXCHANGES P now a.1 a.2 s
    let rs := fetchPairs EXCHANGES P now as r.2
    (r.1 :: rs.1, rs.2)

/-- Whether a string contains the character `|`. -/
def hasBar (s : String) : Bool := s.data.any (fun c => decide (c.toNat = 0x7C))

/-- First occurrences of a list, in order: an element is kept when it is not among the
elements `seen` before it. -/
def firstOccurrencesAux {α : Type} [DecidableEq α] : List α → List α → List α
  | _, [] => []
  | seen, x :: xs =>
    if x ∈ seen then firstOccurrencesAux seen xs
    else x :: firstOccurrencesAux (seen ++ [x]) xs

/-- The distinct elements of a list, ordered by first occurrence. -/
def firstOccurrences {α : Type} [DecidableEq α] (xs : List α) : List α :=
  firstOccurrencesAux [] xs

/-- The normalised (ticker, exchange) pairs of the holdings that have a non-empty ticker
other than `CASH`, in input order. -/
def equityPairs (holdings : List HoldingInput) : List (String × String) :=
  ((holdings.map normalize).filter (fun h => decide (h.ticker ≠ "" ∧ h.ticker ≠ "CASH"))).map
    (fun h => (h.ticker, h.exchange))

/-- Rounding to two decimals, half up: `round2(x) = floor(100 * x + 1/2) / 100`. -/
def round2 (x : ℚ) : ℚ := ((Rat.floor (100 * x + 1 / 2) : ℤ) : ℚ) / 100

/-- Whether the call at time `now` finds a fresh pair in the FX cache. -/
def fxFresh (now : ℤ) (s : State) : Prop :=
  ∃ c, s.fxCache = some c ∧ now - c.ts < TTL_MS

/-- One equity holding whose ticker contains the separator `||`. -/
def barTicker : List HoldingInput :=
  [ { name := "Pipe", ticker := "A||B", shares := .fin 1, exchange := "C",
      value := none, defaultPrice := none } ]

/-- One holding without a ticker. -/
def noTicker : List HoldingInput :=
  [ { name := "Ghost", ticker := "", shares := .fin 1, exchange := "XNAS",
      value := none, defaultPrice := none } ]

/-- A provider whose combined rates carry a negative GBP rate. -/
def negativeRatesProvider : Provider :=
  { rates := fun _ => some (.fin (-78 / 100), .fin (92 / 100))
    candle := fun _ _ => none
    quote := fun _ _ => none }

/-- A provider whose combined call fails and whose candle closes are -1.25 and 1.1. -/
def negativeSpotProvider : Provider :=
  { rates := fun _ => none
    candle := fun _ sym => if sym = "OANDA:GBP_USD" then some (some (.fin (-5 / 4)))
                           else some (some (.fin (11 / 10)))
    quote := fun _ _ => none }

/-- A provider whose combined call fails and whose candle closes are 1.25 and 1.1. -/
def spotProvider : Provider :=
  { rates := fun _ => none
    candle := fun _ sym => if sym = "OANDA:GBP_USD" then some (some (.fin (5 / 4)))
                           else some (some (.fin (11 / 10)))
    quote := fun _ _ => none }

/-- A state whose FX cache holds the pair (0.8, 0.9) fetched at time 0. -/
def cachedFxState : State :=
  { priceCache := [], fxCache := some { val := { usdGbp := 8 / 10, usdEur := 9 / 10 }, ts := 0 },
    log := [.forexRates] }

/-! ## Price cache bookkeeping -/

/-- Whether a request is a quote request. -/
def isQuote : Request → Bool
  | .quote _ => true
  | _ => false

/-- Number of quote requests in a request log. -/
def quoteCount (log : List Request) : Nat := (log.filter isQuote).length

/-- The cache key of `fetchPriceGBP(ticker, exchangeCode)`. -/
def priceKey (ticker exchangeCode : String) : String :=
  makeKey (upperTrim ticker) (upperTrim exchangeCode)

/-- Whether the call at time `now` finds a usable entry for `key` in the price cache. -/
def priceFresh (now : ℤ) (key : String) (s : State) : Prop :=
  ∃ c, mapGet s.priceCache key = some c ∧ 0 < c.price ∧ now - c.ts < TTL_MS

/-- A price strictly greater than 0 that is a whole number of hundredths. -/
def PriceOk (q : ℚ) : Prop := 0 < q ∧ ∃ n : ℤ, q = (n : ℚ) / 100

/-- Both components of the cached FX pair, if any, are non-zero. -/
def fxOk (s : State) : Prop :=
  ∀ c, s.fxCache = some c → c.val.usdGbp ≠ 0 ∧ c.val.usdEur ≠ 0

/-- States reachable from the fresh process state by calls of `fetchFxRates` and of
`fetchPriceGBP`. -/
inductive FxReachable (EXCHANGES : List Exchange) : State → Prop where
  | init : FxReachable EXCHANGES State.empty
  | rates (s : State) (P : Provider) (now : ℤ) (h : FxReachable EXCHANGES s) :
      FxReachable EXCHANGES (fetchFxRates P now s).2
  | price (s : State) (P : Provider) (now : ℤ) (ticker exchangeCode : String)
      (h : FxReachable EXCHANGES s) :
      FxReachable EXCHANGES (fetchPriceGBP EXCHANGES P now ticker exchangeCode s).2

/-! ## The handler of `POST /api/holdings/defaults` -/

/-- The property `defaultPrice` of a stored holding: absent, a number, or a value that
is not a number (kept as its JSON text). -/
inductive DefaultPriceField where
  | absent : DefaultPriceField
  | number (q : ℚ) : DefaultPriceField
  | other (json : String) : DefaultPriceField
deriving DecidableEq

/-- One element of the stored holdings: `ticker` and `exchange` are `String(h.ticker || '')`
and `String(h.exchange || '')`, `others` are all remaining properties (name, shares and
any extra one) with their JSON text. -/
structure StoredHolding where
  ticker : String
  exchange : String
  defaultPrice : DefaultPriceField
  others : List (String × String)
deriving DecidableEq

/-- The list `keys` of the defaults handler; tickers and exchanges are upper-cased, not
trimmed. -/
def defaultsKeys (current : List StoredHolding) : List String :=
  uniqueKeys ((current.filter (fun h =>
      decide (jsToUpperCase h.ticker ≠ "" ∧ jsToUpperCase h.ticker ≠ "CASH"))).map
    (fun h => makeKey (jsToUpperCase h.ticker) (jsToUpperCase h.exchange)))

/-- The value `fetched`:
`prices.has(key) ? prices.get(key) : prices.get(t + '||') || null`. -/
def fetchedFor (prices : List (String × Option ℚ)) (h : StoredHolding) : Option ℚ :=
  let t := jsToUpperCase h.ticker
  let key := makeKey t (jsToUpperCase h.exchange)
  if mapHas prices key then (mapGet prices key).join
  else
    match (mapGet prices (makeKey t "")).join with
    | some p => if p ≠ 0 then some p else none
    | none => none

/-- The expression `typeof h.defaultPrice === 'number' ? h.defaultPrice : undefined`. -/
def numericDefault (h : StoredHolding) : Option ℚ :=
  match h.defaultPrice with
  | .number q => some q
  | _ => none

/-- The callback of `current.map` that builds `updated`. -/
def updateDefault (prices : List (String × Option ℚ)) (h : StoredHolding) : StoredHolding :=
  if jsToUpperCase h.ticker = "CASH" then { h with defaultPrice := .number 1 }
  else
    let dp : Option ℚ :=
      match fetchedFor prices h with
      | some p => if p > 0 then some p else numericDefault h
      | none => numericDefault h
    match dp with
    | some d => { h with defaultPrice := .number d }
    | none => h

/-- The list `updated` as a function of the responses of the price batch. -/
def refreshDefaultsWith (responses : List (Option ℚ)) (current : List StoredHolding) :
    List StoredHolding :=
  current.map (updateDefault (fillPriceMap (defaultsKeys current) responses []))

/-- The handler of `POST /api/holdings/defaults` for a valid admin token: the list written
back to the store, and the state after the price batch. -/
def refreshDefaults (EXCHANGES : List Exchange) (P : Provider) (now : ℤ) (s : State)
    (current : List StoredHolding) : List StoredHolding × State :=
  let batch := fetchAll EXCHANGES P now (defaultsKeys current) s
  (refreshDefaultsWith batch.1 current, batch.2)

/-- The defaults handler when every lookup `fetchPriceGBP(t, ex)` answers `oracle t ex`. -/
def refreshUnderOracle (oracle : String → String → Option ℚ) (current : List StoredHolding) :
    List StoredHolding :=
  refreshDefaultsWith
    ((defaultsKeys current).map (fun k => oracle (lookupArgs k).1 (lookupArgs k).2)) current

/-! ## The client function `computeEffectiveHoldings` -/

/-- The method `toLowerCase`, on the ASCII letters. -/
def jsToLowerCase (s : String) : String := String.mk (s.data.map Char.toLower)

/-- Whether the characters `pat` start the characters `s`. -/
def startsWithChars : List Char → List Char → Bool
  | _, [] => true
  | [], _ :: _ => false
  | c :: s, p :: ps => decide (c = p) && startsWithChars s ps

/-- The method `includes` on character lists. -/
def includesChars : List Char → List Char → Bool
  | [], pat => pat.isEmpty
  | c :: s, pat => startsWithChars (c :: s) pat || includesChars s pat

/-- The test `String(h.name || '').toLowerCase().includes('cash')`. -/
def nameHasCash (name : String) : Bool :=
  includesChars (jsToLowerCase name).data "cash".data

/-- An element of `base`: `ticker` is `String(b.ticker || '')`, `shares` is
`Number(b.shares)`, `defaultPrice` is the field when it is a number. -/
structure BaseHolding where
  ticker : String
  shares : JSNumber
  defaultPrice : Option ℚ
deriving DecidableEq

/-- An element of `calc`: `name` and `ticker` are `String(h.x || '')`, `shares` is
`Number(h.shares)`, `value` and `pricePerShare` are the fields when they are numbers. -/
structure CalcHolding where
  name : String
  ticker : String
  shares : JSNumber
  value : Option ℚ
  pricePerShare : Option ℚ
deriving DecidableEq

/-- The map `baseMap`: a later holding replaces an earlier one with the same key. -/
def baseMapOf (base : List BaseHolding) : List (String × BaseHolding) :=
  base.foldl (fun m b => mapSet m (upperTrim b.ticker) b) []

/-! ## More sample providers and inputs -/

/-- A provider with combined rates (0.8, 0.9) whose quote requests fail until two
requests have been issued and answer 200 afterwards. -/
def recoveringProvider : Provider :=
  { rates := fun _ => some (.fin (8 / 10), .fin (9 / 10))
    candle := fun _ _ => none
    quote := fun n _ => if n < 2 then none else some (some 200) }

/-- A provider with combined rates (0.8, 0.9) that quotes VOD.L at 0.4 pence. -/
def pennyProvider : Provider :=
  { rates := fun _ => some (.fin (8 / 10), .fin (9 / 10))
    candle := fun _ _ => none
    quote := fun _ sym => if sym = "VOD.L" then some (some (2 / 5)) else none }

/-- Three stored holdings: Apple without default price, cash with a null default price,
Acme with default price 42. -/
def storedHoldings : List StoredHolding :=
  [ { ticker := "AAPL", exchange := "XNAS", defaultPrice := .absent,
      others := [("name", "\"Apple\""), ("shares", "10")] },
    { ticker := "CASH", exchange := "", defaultPrice := .other "null",
      others := [("name", "\"Cash\""), ("shares", "500")] },
    { ticker := "ACME", exchange := "XNAS", defaultPrice := .number 42,
      others := [("name", "\"Acme\""), ("shares", "3"), ("note", "\"watch\"")] } ]

/-- The list written for `storedHoldings` when only AAPL gets a live price, 160. -/
def storedHoldingsRefreshed : List StoredHolding :=
  [ { ticker := "AAPL", exchange := "XNAS", defaultPrice := .number 160,
      others := [("name", "\"Apple\""), ("shares", "10")] },
    { ticker := "CASH", exchange := "", defaultPrice := .number 1,
      others := [("name", "\"Cash\""), ("shares", "500")] },
    { ticker := "ACME", exchange := "XNAS", defaultPrice := .number 42,
      others := [("name", "\"Acme\""), ("shares", "3"), ("note", "\"watch\"")] } ]

/-- A price oracle that knows AAPL only. -/
def appleOracle : String → String → Option ℚ :=
  fun t _ => if t = "AAPL" then some 160 else none

/-- A base list: a cash pot held under the ticker GBP, and Acme with default price 42. -/
def sampleBase : List BaseHolding :=
  [ { ticker := "gbp", shares := .fin 250, defaultPrice := none },
    { ticker := "ACME", shares := .fin 3, defaultPrice := some 42 } ]

/-- Server results: a holding named "Petty Cash" priced by the server, and Acme without
value or price. -/
def sampleCalc : List CalcHolding :=
  [ { name := "Petty Cash", ticker := "GBP", shares := .fin 4, value := some 999,
      pricePerShare := some 3 },
    { name := "Acme", ticker := "ACME", shares := .fin 3, value := none,
      pricePerShare := none } ]

/-! ## IEEE 754 double precision numbers -/

/-- A JavaScript number as an IEEE 754 double: `NaN`, an infinity, or a finite value, given
by the rational it denotes. The sign of a zero is not tracked. -/
inductive Float64 where
  | NaN : Float64
  | posInf : Float64
  | negInf : Float64
  | fin (q : ℚ) : Float64
deriving DecidableEq

/-- Two to the power `e`. -/
def pow2 (e : ℤ) : ℚ :=
  if 0 ≤ e then ((2 ^ e.toNat : ℕ) : ℚ) else 1 / ((2 ^ (-e).toNat : ℕ) : ℚ)

/-- Floor of the binary logarithm of a positive natural number, by at most `fuel` halvings. -/
def log2Fuel : ℕ → ℕ → ℕ
  | 0, _ => 0
  | fuel + 1, n => if n < 2 then 0 else log2Fuel fuel (n / 2) + 1

/-- Floor of the binary logarithm of a positive natural number. -/
def natLog2 (n : ℕ) : ℕ := log2Fuel n n

/-- Floor of the binary logarithm of a positive rational. -/
def log2Floor (q : ℚ) : ℤ :=
  let c : ℤ := (natLog2 q.num.natAbs : ℤ) - (natLog2 q.den : ℤ)
  if q < pow2 c then c - 1 else c

/-- Binary exponent of the spacing of the doubles around a positive rational: 52 below
its binary logarithm, and -1074 in the subnormal range. -/
def ulpExp (q : ℚ) : ℤ := max (log2Floor q - 52) (-1074)

/-- The nearest integer, a half going to the even neighbour. -/
def roundHalfEven (y : ℚ) : ℤ :=
  let f := Rat.floor y
  let d := y - (f : ℚ)
  if d < 1 / 2 then f
  else if 1 / 2 < d then f + 1
  else if f % 2 = 0 then f else f + 1

/-- The nearest multiple of `2 ^ e`, a half going to the even multiple. -/
def gridRound (e : ℤ) (q : ℚ) : ℚ := (roundHalfEven (q / pow2 e) : ℚ) * pow2 e

/-- The double nearest to a non-negative rational; from `2 ^ 1024 - 2 ^ 970` on the result
is `Infinity`. -/
def roundPos (q : ℚ) : Float64 :=
  if q = 0 then .fin 0
  else if pow2 1024 ≤ gridRound (ulpExp q) q then .posInf
  else .fin (gridRound (ulpExp q) q)

/-- Unary minus. -/
def Float64.neg : Float64 → Float64
  | .NaN => .NaN
  | .posInf => .negInf
  | .negInf => .posInf
  | .fin q => .fin (-q)

/-- The double nearest to a rational (round to nearest, ties to even): the value of a
numeric literal, and the rounding step of every arithmetic operation. -/
def toDouble (q : ℚ) : Float64 :=
  if q < 0 then (roundPos (-q)).neg else roundPos q

/-- The function `Number.isFinite` on a number. -/
def Float64.isFinite : Float64 → Bool
  | .fin _ => true
  | _ => false

/-- Truthiness of a number: neither `NaN` nor zero. -/
def Float64.truthy : Float64 → Bool
  | .NaN => false
  | .fin q => decide (q ≠ 0)
  | _ => true

/-- The comparison `x > 0`. -/
def Float64.gtZero : Float64 → Bool
  | .posInf => true
  | .fin q => decide (0 < q)
  | _ => false

/-- The comparison `x <= 0`. -/
def Float64.leZero : Float64 → Bool
  | .negInf => true
  | .fin q => decide (q ≤ 0)
  | _ => false

/-- The operator `+` on numbers. -/
def Float64.add : Float64 → Float64 → Float64
  | .fin a, .fin b => toDouble (a + b)
  | .NaN, _ => .NaN
  | _, .NaN => .NaN
  | .posInf, .negInf => .NaN
  | .negInf, .posInf => .NaN
  | .posInf, _ => .posInf
  | .negInf, _ => .negInf
  | .fin _, .posInf => .posInf
  | .fin _, .negInf => .negInf

/-- The operator `*` on numbers. -/
def Float64.mul : Float64 → Float64 → Float64
  | .fin a, .fin b => toDouble (a * b)
  | .NaN, _ => .NaN
  | _, .NaN => .NaN
  | .posInf, .posInf => .posInf
  | .posInf, .negInf => .negInf
  | .negInf, .posInf => .negInf
  | .negInf, .negInf => .posInf
  | .posInf, .fin b => if b = 0 then .NaN else if 0 < b then .posInf else .negInf
  | .negInf, .fin b => if b = 0 then .NaN else if 0 < b then .negInf else .posInf
  | .fin a, .posInf => if a = 0 then .NaN else if 0 < a then .posInf else .negInf
  | .fin a, .negInf => if a = 0 then .NaN else if 0 < a then .negInf else .posInf

/-- The operator `/` on numbers; a zero divisor is taken as `+0`. -/
def Float64.div : Float64 → Float64 → Float64
  | .fin a, .fin b =>
    if b = 0 then (if a = 0 then .NaN else if 0 < a then .posInf else .negInf)
    else toDouble (a / b)
  | .NaN, _ => .NaN
  | _, .NaN => .NaN
  | .fin _, .posInf => .fin 0
  | .fin _, .negInf => .fin 0
  | .posInf, .fin b => if 0 ≤ b then .posInf else .negInf
  | .negInf, .fin b => if 0 ≤ b then .negInf else .posInf
  | .posInf, .posInf => .NaN
  | .posInf, .negInf => .NaN
  | .negInf, .posInf => .NaN
  | .negInf, .negInf => .NaN

/-- The function `Math.round` on a number: exact on a finite double, the identity on
`NaN` and the infinities. -/
def mathRound64 : Float64 → Float64
  | .fin q => .fin (mathRound q)
  | x => x

/-- The function `Math.max` on two numbers. -/
def mathMax64 : Float64 → Float64 → Float64
  | .NaN, _ => .NaN
  | _, .NaN => .NaN
  | .posInf, _ => .posInf
  | _, .posInf => .posInf
  | .negInf, b => b
  | a, .negInf => a
  | .fin a, .fin b => .fin (mathMax a b)

/-- The double of a `Number(...)` result whose finite value is written out exactly. -/
def ofJSNumber : JSNumber → Float64
  | .NaN => .NaN
  | .fin q => toDouble q

/-- The expression `x || 0` for a number `x`. -/
def Float64.orZero (x : Float64) : Float64 := if x.truthy then x else .fin 0

/-- A rational that is the value of a finite double. -/
def IsDouble (q : ℚ) : Prop := toDouble q = .fin q

/-! ## The valuation core in double precision

The definitions of this section follow the same source lines as their namesakes above, with
every number an IEEE 754 double: a numeric literal of a request or of a provider answer is
rounded by `toDouble`, and every `+`, `*` and `/` rounds its exact result. -/

/-- The pair `{ usdGbp, usdEur }`. -/
structure Rates64 where
  usdGbp : Float64
  usdEur : Float64
deriving DecidableEq

/-- The fields `fetchFxRates._cache` and `fetchFxRates._ts`, set together. -/
structure FxEntry64 where
  val : Rates64
  ts : ℤ
deriving DecidableEq

/-- A value `{ price, ts }` of `fetchPriceGBP._cache`. -/
structure PriceEntry64 where
  price : Float64
  ts : ℤ
deriving DecidableEq

/-- Process state: both caches and the requests issued so far, oldest first. -/
structure State64 where
  priceCache : List (String × PriceEntry64)
  fxCache : Option FxEntry64
  log : List Request
deriving DecidableEq

/-- The state of a fresh process. -/
def State64.empty : State64 := { priceCache := [], fxCache := none, log := [] }

/-- Record one request to the provider. -/
def State64.issue (s : State64) (r : Request) : State64 := { s with log := s.log ++ [r] }

/-- The static pair `{ usdGbp: 0.78, usdEur: 0.92 }`. -/
def fallbackRates64 : Rates64 := { usdGbp := toDouble (78 / 100), usdEur := toDouble (92 / 100) }

/-- Store a pair in the FX cache with time stamp `now` and return it. -/
def cacheRates64 (now : ℤ) (val : Rates64) (s : State64) : Rates64 × State64 :=
  (val, { s with fxCache := some { val := val, ts := now } })

/-- Tier 1 of `fetchFxRates`: the test `usdGbp && usdEur` on the combined payload. -/
def ratesOfPayload64 (g e : JSNumber) : Option Rates64 :=
  if (ofJSNumber g).truthy && (ofJSNumber e).truthy then
    some { usdGbp := ofJSNumber g, usdEur := ofJSNumber e }
  else none

/-- Tier 2 of `fetchFxRates`: `Array.isArray(j?.c) && Number(j.c[0]) ? Number(j.c[0]) : null`
followed by `x ? (1 / x) : null`. -/
def invertedClose64 (c : Option JSNumber) : Option Float64 :=
  match c with
  | some x => if (ofJSNumber x).truthy then some ((Float64.fin 1).div (ofJSNumber x)) else none
  | none => none

/-- The test `usdGbp && usdEur` of tier 2. -/
def ratesOfCandles64 (c1 c2 : Option JSNumber) : Option Rates64 :=
  match invertedClose64 c1, invertedClose64 c2 with
  | some a, some b => if a.truthy && b.truthy then some { usdGbp := a, usdEur := b } else none
  | _, _ => none

/-- Tier 2 and tier 3 of `fetchFxRates`, entered after the combined call gave no pair. -/
def fetchFxSpot64 (P : Provider) (now : ℤ) (s1 : State64) : Rates64 × State64 :=
  let r1 := P.candle s1.log.length "OANDA:GBP_USD"
  let s2 := s1.issue (.forexCandle "OANDA:GBP_USD")
  match r1 with
  | none => cacheRates64 now fallbackRates64 s2
  | some c1 =>
    let r2 := P.candle s2.log.length "OANDA:EUR_USD"
    let s3 := s2.issue (.forexCandle "OANDA:EUR_USD")
    match r2 with
    | none => cacheRates64 now fallbackRates64 s3
    | some c2 =>
      match ratesOfCandles64 c1 c2 with
      | some val => cacheRates64 now val s3
      | none => cacheRates64 now fallbackRates64 s3

/-- The function `fetchFxRates`. -/
def fetchFxRates64 (P : Provider) (now : ℤ) (s : State64) : Rates64 × State64 :=
  match s.fxCache.filter (fun c => decide (now - c.ts < TTL_MS)) with
  | some c => (c.val, s)
  | none =>
    let s1 := s.issue .forexRates
    match (P.rates s.log.length).bind (fun p => ratesOfPayload64 p.1 p.2) with
    | some val => cacheRates64 now val s1
    | none => fetchFxSpot64 P now s1

/-- The function `convertToGBP` on `p = Number(price)`; the result `none` is `null`. -/
def convertToGBP64 (EXCHANGES : List Exchange) (p : Float64) (exchangeCode : String)
    (rates : Rates64) : Option Float64 :=
  if !p.isFinite || p.leZero then none
  else
    let currency := currencyOf EXCHANGES exchangeCode
    if currency = "GBX" then
      some ((mathRound64 ((p.div (.fin 100)).mul (.fin 100))).div (.fin 100))
    else if currency = "USD" then
      some ((mathRound64 ((p.mul rates.usdGbp).mul (.fin 100))).div (.fin 100))
    else if currency = "EUR" then
      some ((mathRound64 (((p.mul rates.usdGbp).div rates.usdEur).mul (.fin 100))).div (.fin 100))
    else some ((mathRound64 ((p.mul rates.usdGbp).mul (.fin 100))).div (.fin 100))

/-- The coercion `Number(raw)` of `raw`, a number or `null`. -/
def numberOfNullable64 : Option ℚ → Float64
  | none => .fin 0
  | some x => toDouble x

/-- The cache miss path of `fetchPriceGBP`. -/
def fetchPriceMiss64 (EXCHANGES : List Exchange) (P : Provider) (now : ℤ)
    (ticker exchangeCode key : String) (s : State64) : Option Float64 × State64 :=
  let mapped := mapSymbolForExchange EXCHANGES ticker exchangeCode
  let fx := fetchFxRates64 P now s
  let rates := fx.1
  let s1 := fx.2
  let resp := P.quote s1.log.length mapped
  let s2 := s1.issue (.quote mapped)
  match resp with
  | none => (none, s2)
  | some raw =>
    match convertToGBP64 EXCHANGES (numberOfNullable64 raw) exchangeCode rates with
    | some gbp =>
      if gbp.truthy && gbp.gtZero then
        (some gbp, { s2 with priceCache := mapSet s2.priceCache key { price := gbp, ts := now } })
      else (none, s2)
    | none => (none, s2)

/-- The function `fetchPriceGBP`. -/
def fetchPriceGBP64 (EXCHANGES : List Exchange) (P : Provider) (now : ℤ)
    (ticker exchangeCode : String) (s : State64) : Option Float64 × State64 :=
  let key := makeKey (upperTrim ticker) (upperTrim exchangeCode)
  match mapGet s.priceCache key with
  | some cached =>
    if cached.price.gtZero ∧ now - cached.ts < TTL_MS then (some cached.price, s)
    else fetchPriceMiss64 EXCHANGES P now ticker exchangeCode key s
  | none => fetchPriceMiss64 EXCHANGES P now ticker exchangeCode key s

/-- An element of `normalized`. -/
structure Normalized64 where
  name : String
  ticker : String
  shares : Float64
  exchange : String
  value : Option Float64
  defaultPrice : Option Float64
deriving DecidableEq

/-- An element of `results` and of `withWeights`; `none` is `null`. A number that is `NaN`
or an infinity is printed as `null` by `res.json`. -/
structure ResultRow64 where
  name : String
  ticker : String
  shares : Float64
  value : Option Float64
  weight : Float64
  pricePerShare : Option Float64
  exchange : String
deriving DecidableEq

/-- Response of the handler: status 400 with an error text, or status 200. -/
inductive Reply64 where
  | badRequest (error : String) : Reply64
  | ok (holdings : List ResultRow64) (total : Float64) : Reply64
deriving DecidableEq

/-- The callback of `holdings.map` that builds `normalized`. -/
def normalize64 (h : HoldingInput) : Normalized64 :=
  { name := jsTrim h.name
    ticker := upperTrim h.ticker
    shares := (ofJSNumber h.shares).orZero
    exchange := upperTrim h.exchange
    value := h.value.map ofJSNumber
    defaultPrice := h.defaultPrice.map toDouble }

/-- The list `stockKeys`. -/
def stockKeys64 (normalized : List Normalized64) : List String :=
  uniqueKeys ((normalized.filter (fun h => decide (h.ticker ≠ "" ∧ h.ticker ≠ "CASH"))).map
    (fun h => makeKey h.ticker h.exchange))

/-- The calls `fetchPriceGBP(t, ex)` for `[t, ex] = k.split('||')`, one key after the other. -/
def fetchAll64 (EXCHANGES : List Exchange) (P : Provider) (now : ℤ) :
    List String → State64 → List (Option Float64) × State64
  | [], s => ([], s)
  | k :: ks, s =>
    let parts := splitBars k
    let r := fetchPriceGBP64 EXCHANGES P now (parts.getD 0 "") (parts.getD 1 "") s
    let rs := fetchAll64 EXCHANGES P now ks r.2
    (r.1 :: rs.1, rs.2)

/-- The loop `responses.forEach` that fills `priceMap`. -/
def fillPriceMap64 : List String → List (Option Float64) → List (String × Option Float64) →
    List (String × Option Float64)
  | k :: ks, p :: ps, m =>
    fillPriceMap64 ks ps
      (mapSet m k (match p with
        | some x => if x.gtZero then some x else none
        | none => none))
  | _, _, m => m

/-- The `price` of an equity holding:
`priceMap.has(key) ? priceMap.get(key) : priceMap.get(ticker + '||') || (defaultPrice or null)`. -/
def resolvePrice64 (priceMap : List (String × Option Float64)) (h : Normalized64) :
    Option Float64 :=
  let key := makeKey h.ticker h.exchange
  if mapHas priceMap key then (mapGet priceMap key).join
  else
    match (mapGet priceMap (makeKey h.ticker "")).join with
    | some p => if p.truthy then some p else h.defaultPrice
    | none => h.defaultPrice

/-- The row pushed to `results` for a holding that has a name and a ticker. -/
def resultRow64 (priceMap : List (String × Option Float64)) (h : Normalized64) : ResultRow64 :=
  if h.ticker = "CASH" then
    let cashInput : Float64 :=
      match h.value with
      | some v => v
      | none => h.shares
    let value : Float64 :=
      if cashInput.isFinite then mathMax64 (.fin 0) (mathRound64 cashInput) else .fin 0
    { name := h.name, ticker := h.ticker, shares := .fin 0, value := some value, weight := .fin 0,
      pricePerShare := some (.fin 1), exchange := "" }
  else
    let price := resolvePrice64 priceMap h
    let value := price.map (fun p => mathMax64 (.fin 0) (mathRound64 (p.mul h.shares)))
    { name := h.name, ticker := h.ticker, shares := h.shares, value := value, weight := .fin 0,
      pricePerShare := price, exchange := h.exchange }

/-- The loop `for (const h of normalized)`: it stops with status 400 at the first
holding without a name or a ticker. -/
def buildResults64 (priceMap : List (String × Option Float64)) :
    List Normalized64 → Except String (List ResultRow64)
  | [] => .ok []
  | h :: rest =>
    if h.name = "" ∨ h.ticker = "" then .error "Each holding must include name and ticker"
    else
      match buildResults64 priceMap rest with
      | .error e => .error e
      | .ok rows => .ok (resultRow64 priceMap h :: rows)

/-- Value of a row in the sum of `total`: `typeof h.value === 'number' ? h.value : 0`. -/
def valueOrZero64 (h : ResultRow64) : Float64 :=
  match h.value with
  | some v => v
  | none => .fin 0

/-- The reducer of `total`: the values are added in row order, starting from 0. -/
def totalOf64 (results : List ResultRow64) : Float64 :=
  results.foldl (fun acc h => acc.add (valueOrZero64 h)) (.fin 0)

/-- The callback of `results.map` that builds `withWeights`. -/
def withWeight64 (total : Float64) (h : ResultRow64) : ResultRow64 :=
  { h with weight :=
      match h.value with
      | some v =>
        if total.gtZero then (mathRound64 ((v.div total).mul (.fin 1000))).div (.fin 10)
        else .fin 0
      | none => .fin 0 }

/-- The state after the price batch of the handler. -/
def stateAfterBatch64 (EXCHANGES : List Exchange) (P : Provider) (now : ℤ) (s : State64)
    (holdings : List HoldingInput) : State64 :=
  (fetchAll64 EXCHANGES P now (stockKeys64 (holdings.map normalize64)) s).2

/-- The map `priceMap` of the handler once the price batch has been merged. -/
def priceMapOf64 (EXCHANGES : List Exchange) (P : Provider) (now : ℤ) (s : State64)
    (holdings : List HoldingInput) : List (String × Option Float64) :=
  let keys := stockKeys64 (holdings.map normalize64)
  fillPriceMap64 keys (fetchAll64 EXCHANGES P now keys s).1 []

/-- The handler of `POST /api/holdings/calc` on the array `holdings`. -/
def valueHoldings64 (EXCHANGES : List Exchange) (P : Provider) (now : ℤ) (s : State64)
    (holdings : List HoldingInput) : Reply64 × State64 :=
  if holdings.length = 0 then (.badRequest "Holdings array is required", s)
  else
    let normalized := holdings.map normalize64
    let priceMap := priceMapOf64 EXCHANGES P now s holdings
    match buildResults64 priceMap normalized with
    | .error e => (.badRequest e, stateAfterBatch64 EXCHANGES P now s holdings)
    | .ok results =>
      let total := totalOf64 results
      (.ok (results.map (withWeight64 total)) total,
        stateAfterBatch64 EXCHANGES P now s holdings)

/-- A price strictly greater than 0 that is `Infinity` or the double nearest to a whole
number of hundredths. -/
def PriceOk64 (p : Float64) : Prop :=
  p.gtZero = true ∧ (p = .posInf ∨ ∃ n : ℤ, p = toDouble ((n : ℚ) / 100))

/-- States reachable from an empty price cache by calls of `fetchPriceGBP`, whatever the
provider answers, the clock shows and the arguments are. -/
inductive Reachable64 (EXCHANGES : List Exchange) : State64 → Prop where
  | init (s : State64) (h : s.priceCache = []) : Reachable64 EXCHANGES s
  | step (s : State64) (P : Provider) (now : ℤ) (ticker exchangeCode : String)
      (h : Reachable64 EXCHANGES s) :
      Reachable64 EXCHANGES (fetchPriceGBP64 EXCHANGES P now ticker exchangeCode s).2

/-- A provider with combined rates (0.8, 0.9) that quotes BIG at 1e307. -/
def overflowProvider : Provider :=
  { rates := fun _ => some (.fin 0.8, .fin 0.9)
    candle := fun _ _ => none
    quote := fun _ sym => if sym = "BIG" then some (some 1e307) else none }

/-- A number that is `NaN`, `Infinity`, or a non-negative finite double. -/
def IsValue64 (v : Float64) : Prop :=
  v = .NaN ∨ v = .posInf ∨ ∃ q : ℚ, 0 ≤ q ∧ v = .fin q ∧ IsDouble q

/-- Two cash holdings of 201 and 199. -/
def cash201and199 : List HoldingInput :=
  [ { name := "Pot A", ticker := "CASH", shares := .fin 201, exchange := "",
      value := none, defaultPrice := none },
    { name := "Pot B", ticker := "CASH", shares := .fin 199, exchange := "",
      value := none, defaultPrice := none } ]

/-- The rows answered for `cash201and199`. -/
def cash201and199Rows : List ResultRow64 :=
  [ { name := "Pot A", ticker := "CASH", shares := .fin 0, value := some (.fin 201),
      weight := toDouble 50.2, pricePerShare := some (.fin 1), exchange := "" },
    { name := "Pot B", ticker := "CASH", shares := .fin 0, value := some (.fin 199),
      weight := toDouble 49.8, pricePerShare := some (.fin 1), exchange := "" } ]

/-- Two cash holdings of 9007199254740992 (2 ^ 53) and 1. -/
def cashBeyondSafe : List HoldingInput :=
  [ { name := "Pot A", ticker := "CASH", shares := .fin 9007199254740992, exchange := "",
      value := none, defaultPrice := none },
    { name := "Pot B", ticker := "CASH", shares := .fin 1, exchange := "",
      value := none, defaultPrice := none } ]

/-- The rows answered for `cashBeyondSafe`. -/
def cashBeyondSafeRows : List ResultRow64 :=
  [ { name := "Pot A", ticker := "CASH", shares := .fin 0,
      value := some (.fin 9007199254740992), weight := .fin 100,
      pricePerShare := some (.fin 1), exchange := "" },
    { name := "Pot B", ticker := "CASH", shares := .fin 0, value := some (.fin 1),
      weight := .fin 0, pricePerShare := some (.fin 1), exchange := "" } ]

/-- The request `[Apple/AAPL/1e308 shares/XNAS, Cash/CASH/500 shares]`. -/
def hugeAppleAndCash : List HoldingInput :=
  [ { name := "Apple", ticker := "AAPL", shares := .fin 1e308, exchange := "XNAS",
      value := none, defaultPrice := none },
    { name := "Cash", ticker := "CASH", shares := .fin 500, exchange := "",
      value := none, defaultPrice := none } ]

/-- The rows answered for `hugeAppleAndCash` by `sampleProvider`. -/
def hugeAppleAndCashRows : List ResultRow64 :=
  [ { name := "Apple", ticker := "AAPL", shares := toDouble 1e308, value := some .posInf,
      weight := .NaN, pricePerShare := some (.fin 160), exchange := "XNAS" },
    { name := "Cash", ticker := "CASH", shares := .fin 0, value := some (.fin 500),
      weight := .fin 0, pricePerShare := some (.fin 1), exchange := "" } ]

/-- The rows answered for `sixCash` in double precision. -/
def sixCashRows64 : List ResultRow64 :=
  List.replicate 6 { name := "Cash", ticker := "CASH", shares := .fin 0, value := some (.fin 1),
                     weight := toDouble 16.7, pricePerShare := some (.fin 1), exchange := "" }

/-- Two cash holdings of 1e308 each. -/
def cashOverflow : List HoldingInput :=
  [ { name := "Pot A", ticker := "CASH", shares := .fin 1e308, exchange := "",
      value := none, defaultPrice := none },
    { name := "Pot B", ticker := "CASH", shares := .fin 1e308, exchange := "",
      value := none, defaultPrice := none } ]

/-- The rows answered for `cashOverflow`. -/
def cashOverflowRows : List ResultRow64 :=
  [ { name := "Pot A", ticker := "CASH", shares := .fin 0, value := some (toDouble 1e308),
      weight := .fin 0, pricePerShare := some (.fin 1), exchange := "" },
    { name := "Pot B", ticker := "CASH", shares := .fin 0, value := some (toDouble 1e308),
      weight := .fin 0, pricePerShare := some (.fin 1), exchange := "" } ]

/-- The answer of the call that a batch of lookups over `pairs` makes for the pair `a`,
each call starting in the state the previous one left; `none` when the batch has no call
for that pair. -/
def batchAnswer {σ α : Type} (fetch : String → String → σ → α × σ) :
    List (String × String) → σ → String × String → Option α
  | [], _, _ => none
  | b :: bs, s, a =>
    if b = a then some (fetch b.1 b.2 s).1
    else batchAnswer fetch bs (fetch b.1 b.2 s).2 a

/-- A provider with combined rates (0.8, 0.9) that quotes LLOY.L at 29 pence and VOD.L at
30 pence. -/
def penceProvider : Provider :=
  { rates := fun _ => some (.fin 0.8, .fin 0.9)
    candle := fun _ _ => none
    quote := fun _ sym => if sym = "LLOY.L" then some (some 29)
                          else if sym = "VOD.L" then some (some 30) else none }

/-- The request `[Lloyds/LLOY/50 shares/XLON, Vodafone/VOD/5 shares/XLON]`. -/
def pennyShares : List HoldingInput :=
  [ { name := "Lloyds", ticker := "LLOY", shares := .fin 50, exchange := "XLON",
      value := none, defaultPrice := none },
    { name := "Vodafone", ticker := "VOD", shares := .fin 5, exchange := "XLON",
      value := none, defaultPrice := none } ]

/-- The rows answered for `pennyShares` by `penceProvider`. -/
def pennySharesRows : List ResultRow64 :=
  [ { name := "Lloyds", ticker := "LLOY", shares := .fin 50, value := some (.fin 14),
      weight := toDouble 87.5, pricePerShare := some (toDouble 0.29), exchange := "XLON" },
    { name := "Vodafone", ticker := "VOD", shares := .fin 5, value := some (.fin 2),
      weight := toDouble 12.5, pricePerShare := some (toDouble 0.3), exchange := "XLON" } ]

/-- A provider with combined rates (0.8, 0.9) that quotes the symbol A at 200. -/
def symbolAProvider : Provider :=
  { rates := fun _ => some (.fin 0.8, .fin 0.9)
    candle := fun _ _ => none
    quote := fun _ sym => if sym = "A" then some (some 200) else none }

/-! ## The client function `computeEffectiveHoldings` in double precision -/

/-- An element of the result of `computeEffectiveHoldings`. -/
structure EffectiveHolding64 where
  name : String
  ticker : String
  shares : Float64
  pricePerShare : Option Float64
  value : Option Float64
deriving DecidableEq

/-- The callback of `calc.map` in `computeEffectiveHoldings`; the numbers of `base` and
`calc` are the doubles of their literals. -/
def effectiveHolding64 (baseMap : List (String × BaseHolding)) (h : CalcHolding) :
    EffectiveHolding64 :=
  let t := upperTrim h.ticker
  let b := mapGet baseMap t
  let isCash : Bool := decide (t = "CASH") || nameHasCash h.name
  let price0 : Option Float64 :=
    match h.pricePerShare with
    | some p => some (toDouble p)
    | none => b.bind (fun x => x.defaultPrice.map toDouble)
  let shares : Float64 := mathRound64 (ofJSNumber h.shares).orZero
  if isCash then
    { name := h.name, ticker := t, shares := shares, pricePerShare := some (.fin 1),
      value := some (mathRound64 (match b with
        | some x => (ofJSNumber x.shares).orZero
        | none => .fin 0)) }
  else
    match h.value, price0 with
    | none, some p =>
      { name := h.name, ticker := t, shares := shares, pricePerShare := some p,
        value := some (mathRound64 (p.mul (ofJSNumber h.shares).orZero)) }
    | v, pr =>
      { name := h.name, ticker := t, shares := shares, pricePerShare := pr,
        value := v.map toDouble }

/-- The client function `computeEffectiveHoldings(base, calc)`; the second argument is
the state `calcHoldings`. -/
def computeEffectiveHoldings64 (base : List BaseHolding) (calcHoldings : List CalcHolding) :
    List EffectiveHolding64 :=
  calcHoldings.map (effectiveHolding64 (baseMapOf base))

/-- Server results without values: Lloyds at 0.29 with 50 shares, Vodafone at 0.3 with 5. -/
def pennyCalc : List CalcHolding :=
  [ { name := "Lloyds", ticker := "LLOY", shares := .fin 50, value := none,
      pricePerShare := some 0.29 },
    { name := "Vodafone", ticker := "VOD", shares := .fin 5, value := none,
      pricePerShare := some 0.3 } ]

/-- One stored holding whose ticker contains the separator `||`. -/
def barStored : List StoredHolding :=
  [ { ticker := "A||B", exchange := "C", defaultPrice := .absent,
      others := [("name", "\"Pipe\""), ("shares", "1")] } ]

/-! ## Auxiliary lemmas -/

theorem mathRound_eq_floor (x : ℚ) : mathRound x = ((⌊x + 1 / 2⌋ : ℤ) : ℚ) := by
  unfold mathRound
  rw [Rat.floor_def', Rat.floor_def]

theorem mathRound_le (x : ℚ) : mathRound x ≤ x + 1 / 2 := by
  rw [mathRound_eq_floor]
  exact Int.floor_le _

theorem mathRound_gt (x : ℚ) : x - 1 / 2 < mathRound x := by
  rw [mathRound_eq_floor]
  have := Int.lt_floor_add_one (x + 1 / 2)
  linarith

theorem mathRound_nonneg {x : ℚ} (hx : 0 ≤ x) : 0 ≤ mathRound x := by
  rw [mathRound_eq_floor]
  have : (0 : ℤ) ≤ ⌊x + 1 / 2⌋ := Int.floor_nonneg.mpr (by linarith)
  exact_mod_cast this

theorem mathRound_le_of_le_int {x : ℚ} (n : ℤ) (hx : x ≤ n) : mathRound x ≤ n := by
  rw [mathRound_eq_floor]
  have : ⌊x + 1 / 2⌋ < n + 1 := by
    rw [Int.floor_lt]
    push_cast
    linarith
  have h2 : ⌊x + 1 / 2⌋ ≤ n := by omega
  exact_mod_cast h2

theorem mathMax_nonneg (x : ℚ) : 0 ≤ mathMax 0 x := by
  unfold mathMax
  split_ifs with h
  · exact h
  · exact le_refl _

theorem mapGet_mapSet {α : Type} (m : List (String × α)) (k k2 : String) (v : α) :
    mapGet (mapSet m k v) k2 = if k = k2 then some v else mapGet m k2 := by
  induction m with
  | nil => simp [mapSet, mapGet]
  | cons e m ih =>
    obtain ⟨k1, v1⟩ := e
    by_cases h1 : k1 = k
    · subst h1
      by_cases h2 : k1 = k2 <;> simp [mapSet, mapGet, h2]
    · by_cases h2 : k1 = k2
      · subst h2
        have h3 : ¬ k = k1 := fun h => h1 h.symm
        simp [mapSet, mapGet, h1, h3]
      · simp [mapSet, mapGet, h1, h2, ih]

theorem mapHas_mapSet {α : Type} (m : List (String × α)) (k k2 : String) (v : α) :
    mapHas (mapSet m k v) k2 = (decide (k = k2) || mapHas m k2) := by
  unfold mapHas
  rw [mapGet_mapSet]
  by_cases h : k = k2 <;> simp [h]

theorem fetchAll_length (EXCHANGES : List Exchange) (P : Provider) (now : ℤ)
    (ks : List String) (s : State) : (fetchAll EXCHANGES P now ks s).1.length = ks.length := by
  induction ks generalizing s with
  | nil => rfl
  | cons k ks ih => simp [fetchAll, ih]

theorem fillPriceMap_has_of_has (ks : List String) (ps : List (Option ℚ))
    (m : List (String × Option ℚ)) (k : String) (h : mapHas m k = true) :
    mapHas (fillPriceMap ks ps m) k = true := by
  induction ks generalizing ps m with
  | nil => cases ps <;> simpa [fillPriceMap] using h
  | cons k1 ks ih =>
    cases ps with
    | nil => simpa [fillPriceMap] using h
    | cons p ps =>
      simp only [fillPriceMap]
      apply ih
      rw [mapHas_mapSet, h]
      simp

theorem fillPriceMap_has_of_mem (ks : List String) (ps : List (Option ℚ))
    (m : List (String × Option ℚ)) (k : String) (hlen : ps.length = ks.length)
    (hk : k ∈ ks) : mapHas (fillPriceMap ks ps m) k = true := by
  induction ks generalizing ps m with
  | nil => cases hk
  | cons k1 ks ih =>
    cases ps with
    | nil => simp at hlen
    | cons p ps =>
      simp only [fillPriceMap]
      rcases List.mem_cons.mp hk with h | h
      · subst h
        apply fillPriceMap_has_of_has
        rw [mapHas_mapSet]
        simp
      · exact ih ps _ (by simpa using hlen) h

theorem uniqueKeys_foldl_mem (xs acc : List String) (k : String) :
    k ∈ xs.foldl (fun acc k => if k ∈ acc then acc else acc ++ [k]) acc ↔ k ∈ acc ∨ k ∈ xs := by
  induction xs generalizing acc with
  | nil => simp
  | cons x xs ih =>
    simp only [List.foldl_cons, List.mem_cons]
    rw [ih]
    by_cases hx : x ∈ acc
    · simp only [hx, if_true]
      constructor
      · rintro (h | h)
        · exact Or.inl h
        · exact Or.inr (Or.inr h)
      · rintro (h | h | h)
        · exact Or.inl h
        · exact Or.inl (h ▸ hx)
        · exact Or.inr h
    · simp only [hx, if_false, List.mem_append, List.mem_singleton]
      tauto

theorem mem_uniqueKeys (xs : List String) (k : String) : k ∈ uniqueKeys xs ↔ k ∈ xs := by
  unfold uniqueKeys
  rw [uniqueKeys_foldl_mem]
  simp

theorem key_mem_stockKeys (ns : List Normalized) (h : Normalized) (hm : h ∈ ns)
    (h1 : h.ticker ≠ "") (h2 : h.ticker ≠ "CASH") :
    makeKey h.ticker h.exchange ∈ stockKeys ns := by
  unfold stockKeys
  rw [mem_uniqueKeys]
  apply List.mem_map.mpr
  refine ⟨h, ?_, rfl⟩
  apply List.mem_filter.mpr
  exact ⟨hm, by simp [h1, h2]⟩

theorem buildResults_of_valid (pm : List (String × Option ℚ)) (ns : List Normalized)
    (hv : ∀ n ∈ ns, n.name ≠ "" ∧ n.ticker ≠ "") :
    buildResults pm ns = .ok (ns.map (resultRow pm)) := by
  induction ns with
  | nil => rfl
  | cons n ns ih =>
    have hn := hv n (List.mem_cons_self _ _)
    have ih2 := ih (fun m hm => hv m (List.mem_cons_of_mem _ hm))
    simp [buildResults, hn.1, hn.2, ih2]

theorem buildResults_ok (pm : List (String × Option ℚ)) (ns : List Normalized)
    (rows : List ResultRow) (h : buildResults pm ns = .ok rows) :
    (∀ n ∈ ns, n.name ≠ "" ∧ n.ticker ≠ "") ∧ rows = ns.map (resultRow pm) := by
  induction ns generalizing rows with
  | nil =>
    simp only [buildResults, Except.ok.injEq] at h
    subst h
    simp
  | cons n ns ih =>
    simp only [buildResults] at h
    split_ifs at h with hbad
    cases hrest : buildResults pm ns with
    | error e => simp [hrest] at h
    | ok rs =>
      simp only [hrest, Except.ok.injEq] at h
      obtain ⟨hv, hrs⟩ := ih rs hrest
      push_neg at hbad
      subst h
      refine ⟨?_, by simp [hrs]⟩
      intro m hm
      rcases List.mem_cons.mp hm with rfl | hm2
      · exact hbad
      · exact hv m hm2

theorem valueHoldings_ok (EXCHANGES : List Exchange) (P : Provider) (now : ℤ) (s : State)
    (hs : List HoldingInput) (rows : List ResultRow) (total : ℚ)
    (h : (valueHoldings EXCHANGES P now s hs).1 = .ok rows total) :
    hs ≠ [] ∧ (∀ n ∈ hs.map normalize, n.name ≠ "" ∧ n.ticker ≠ "") ∧
    total = totalOf ((hs.map normalize).map (resultRow (priceMapOf EXCHANGES P now s hs))) ∧
    rows = ((hs.map normalize).map (resultRow (priceMapOf EXCHANGES P now s hs))).map
      (withWeight total) := by
  unfold valueHoldings at h
  split_ifs at h with hlen
  have hne : hs ≠ [] := fun h0 => hlen (by simp [h0])
  cases hb : buildResults (priceMapOf EXCHANGES P now s hs) (hs.map normalize) with
  | error e => simp [hb] at h
  | ok rs =>
    simp only [hb, Reply.ok.injEq] at h
    obtain ⟨hv, hrs⟩ := buildResults_ok _ _ _ hb
    obtain ⟨h1, h2⟩ := h
    subst hrs
    exact ⟨hne, hv, h2.symm, by rw [← h1, h2]⟩

theorem valueHoldings_of_valid (EXCHANGES : List Exchange) (P : Provider) (now : ℤ) (s : State)
    (hs : List HoldingInput) (hne : hs ≠ [])
    (hv : ∀ n ∈ hs.map normalize, n.name ≠ "" ∧ n.ticker ≠ "") :
    (valueHoldings EXCHANGES P now s hs).1 =
      .ok (((hs.map normalize).map (resultRow (priceMapOf EXCHANGES P now s hs))).map
          (withWeight (totalOf ((hs.map normalize).map
            (resultRow (priceMapOf EXCHANGES P now s hs))))))
        (totalOf ((hs.map normalize).map (resultRow (priceMapOf EXCHANGES P now s hs)))) := by
  unfold valueHoldings
  have hlen : ¬ hs.length = 0 := fun h0 => hne (List.length_eq_zero.mp h0)
  simp only [hlen, if_false]
  rw [buildResults_of_valid _ _ hv]

theorem resultRow_name (pm : List (String × Option ℚ)) (n : Normalized) :
    (resultRow pm n).name = n.name := by
  unfold resultRow
  split_ifs <;> rfl

theorem resultRow_ticker (pm : List (String × Option ℚ)) (n : Normalized) :
    (resultRow pm n).ticker = n.ticker := by
  unfold resultRow
  split_ifs <;> rfl

theorem withWeight_resultRow_name (t : ℚ) (pm : List (String × Option ℚ)) (n : Normalized) :
    (withWeight t (resultRow pm n)).name = n.name := resultRow_name pm n

theorem withWeight_resultRow_ticker (t : ℚ) (pm : List (String × Option ℚ)) (n : Normalized) :
    (withWeight t (resultRow pm n)).ticker = n.ticker := resultRow_ticker pm n

theorem rows_getElem (EXCHANGES : List Exchange) (P : Provider) (now : ℤ) (s : State)
    (hs : List HoldingInput) (rows : List ResultRow) (total : ℚ)
    (hok : (valueHoldings EXCHANGES P now s hs).1 = .ok rows total)
    (i : Nat) (hi : HoldingInput) (hget : hs[i]? = some hi) :
    rows[i]? = some (withWeight total
      (resultRow (priceMapOf EXCHANGES P now s hs) (normalize hi))) := by
  obtain ⟨_, _, _, hrows⟩ := valueHoldings_ok _ _ _ _ _ _ _ hok
  rw [hrows]
  simp [List.getElem?_map, hget]

theorem valueHoldings_fst (EXCHANGES : List Exchange) (P : Provider) (now : ℤ) (s : State)
    (hs : List HoldingInput) :
    (valueHoldings EXCHANGES P now s hs).1 = replyOf (priceMapOf EXCHANGES P now s hs) hs := by
  unfold valueHoldings replyOf
  split_ifs
  · rfl
  · cases hb : buildResults (priceMapOf EXCHANGES P now s hs) (hs.map normalize) <;> simp [hb]

theorem stockKeys_nil_of_no_equity (ns : List Normalized)
    (h : ∀ n ∈ ns, n.ticker = "" ∨ n.ticker = "CASH") : stockKeys ns = [] := by
  unfold stockKeys
  have hf : ns.filter (fun h => decide (h.ticker ≠ "" ∧ h.ticker ≠ "CASH")) = [] := by
    apply List.filter_eq_nil_iff.mpr
    intro n hn
    rcases h n hn with h1 | h1 <;> simp [h1]
  rw [hf]
  rfl

theorem valueHoldings_snd (EXCHANGES : List Exchange) (P : Provider) (now : ℤ) (s : State)
    (hs : List HoldingInput) :
    (valueHoldings EXCHANGES P now s hs).2
      = if hs.length = 0 then s else stateAfterBatch EXCHANGES P now s hs := by
  unfold valueHoldings
  split_ifs
  · rfl
  · cases hb : buildResults (priceMapOf EXCHANGES P now s hs) (hs.map normalize) <;> simp [hb]

theorem convertToGBP_apple (r : Rates) (hr : r.usdGbp = 8 / 10) :
    convertToGBP defaultExchanges (numberOfNullable (some 200)) "XNAS" r = some 160 := by
  have hc : currencyOf defaultExchanges "XNAS" = "USD" := by decide!
  have hne : ("USD" : String) ≠ "GBX" := by decide
  have hround : mathRound ((200 * (8 / 10 : ℚ)) * 100) / 100 = 160 := by decide!
  unfold convertToGBP numberOfNullable
  simp only [hc, hr, hne, if_false, if_true]
  rw [if_neg (by norm_num), hround]

theorem fetchPriceGBP_apple (P : Provider) (now : ℤ) (s : State) (hs0 : s.priceCache = [])
    (hfx : (fetchFxRates P now s).1.usdGbp = 8 / 10)
    (hq : ∀ n, P.quote n "AAPL" = some (some 200)) :
    (fetchPriceGBP defaultExchanges P now "AAPL" "XNAS" s).1 = some 160 := by
  have hm : mapSymbolForExchange defaultExchanges "AAPL" "XNAS" = "AAPL" := by decide!
  have hpos : ((160 : ℚ) ≠ 0 ∧ (160 : ℚ) > 0) := by norm_num
  have hget : ∀ k, mapGet s.priceCache k = (none : Option PriceEntry) := by
    intro k
    rw [hs0]
    rfl
  unfold fetchPriceGBP
  simp only [hget]
  unfold fetchPriceMiss
  simp only [hm, hq]
  rw [convertToGBP_apple _ hfx]
  simp only []
  rw [if_pos hpos]

theorem priceMapOf_apple (P : Provider) (now : ℤ) (s : State) (hs0 : s.priceCache = [])
    (hfx : (fetchFxRates P now s).1.usdGbp = 8 / 10)
    (hq : ∀ n, P.quote n "AAPL" = some (some 200)) :
    priceMapOf defaultExchanges P now s appleAndCash = [("AAPL||XNAS", some 160)] := by
  have hkeys : stockKeys (appleAndCash.map normalize) = ["AAPL||XNAS"] := by decide!
  have hsplit : splitBars "AAPL||XNAS" = ["AAPL", "XNAS"] := by decide!
  have hfill : fillPriceMap ["AAPL||XNAS"] [some (160 : ℚ)] [] = [("AAPL||XNAS", some 160)] := by
    decide!
  have hbatch : (fetchAll defaultExchanges P now ["AAPL||XNAS"] s).1
      = [(fetchPriceGBP defaultExchanges P now "AAPL" "XNAS" s).1] := by
    simp only [fetchAll, hsplit, List.getD_cons_zero, List.getD_cons_succ]
  show fillPriceMap (stockKeys (appleAndCash.map normalize))
    (fetchAll defaultExchanges P now (stockKeys (appleAndCash.map normalize)) s).1 [] = _
  rw [hkeys, hbatch, fetchPriceGBP_apple P now s hs0 hfx hq, hfill]

theorem splitBarsAux_step (c d : Char) (rest cur : List Char) (hc : c.toNat ≠ 0x7C) :
    splitBarsAux (c :: d :: rest) cur = splitBarsAux (d :: rest) (c :: cur) := by
  rw [splitBarsAux, if_neg (fun h => hc h.1)]

theorem splitBarsAux_bars (e cur : List Char) :
    splitBarsAux (Char.ofNat 0x7C :: Char.ofNat 0x7C :: e) cur
      = cur.reverse :: splitBarsAux e [] := by
  rw [splitBarsAux, if_pos ⟨by decide, by decide⟩]

theorem splitBarsAux_noBar (e cur : List Char) (he : ∀ c ∈ e, c.toNat ≠ 0x7C) :
    splitBarsAux e cur = [cur.reverse ++ e] := by
  induction e generalizing cur with
  | nil => simp [splitBarsAux]
  | cons c rest ih =>
    cases rest with
    | nil => simp [splitBarsAux]
    | cons d rest2 =>
      have hc : c.toNat ≠ 0x7C := he c (List.mem_cons_self _ _)
      have hrest : ∀ x ∈ d :: rest2, x.toNat ≠ 0x7C := fun x hx => he x (List.mem_cons_of_mem _ hx)
      rw [splitBarsAux_step c d rest2 cur hc, ih (c :: cur) hrest]
      simp

theorem splitBarsAux_key (t e cur : List Char) (ht : ∀ c ∈ t, c.toNat ≠ 0x7C) :
    splitBarsAux (t ++ Char.ofNat 0x7C :: Char.ofNat 0x7C :: e) cur
      = (cur.reverse ++ t) :: splitBarsAux e [] := by
  induction t generalizing cur with
  | nil =>
    rw [List.nil_append, splitBarsAux_bars]
    simp
  | cons c rest ih =>
    have hc : c.toNat ≠ 0x7C := ht c (List.mem_cons_self _ _)
    have hrest : ∀ x ∈ rest, x.toNat ≠ 0x7C := fun x hx => ht x (List.mem_cons_of_mem _ hx)
    have h0 := ih (c :: cur) hrest
    cases rest with
    | nil =>
      rw [List.nil_append] at h0
      rw [List.cons_append, List.nil_append, splitBarsAux_step c _ _ cur hc, h0]
      simp
    | cons d rest2 =>
      rw [List.cons_append] at h0
      rw [List.cons_append, List.cons_append, splitBarsAux_step c d _ cur hc, h0]
      simp

theorem hasBar_false_iff (s : String) :
    hasBar s = false ↔ ∀ c ∈ s.data, c.toNat ≠ 0x7C := by
  unfold hasBar
  simp [List.any_eq_false]

theorem makeKey_data (t e : String) :
    (makeKey t e).data = t.data ++ Char.ofNat 0x7C :: Char.ofNat 0x7C :: e.data := by
  unfold makeKey
  have hb : ("||" : String).data = [Char.ofNat 0x7C, Char.ofNat 0x7C] := by decide
  simp [String.data_append, hb]

theorem splitBars_makeKey (t e : String) (ht : hasBar t = false) (he : hasBar e = false) :
    splitBars (makeKey t e) = [t, e] := by
  unfold splitBars
  rw [makeKey_data, splitBarsAux_key _ _ _ ((hasBar_false_iff t).mp ht),
    splitBarsAux_noBar _ _ ((hasBar_false_iff e).mp he)]
  simp

theorem lookupArgs_makeKey (t e : String) (ht : hasBar t = false) (he : hasBar e = false) :
    lookupArgs (makeKey t e) = (t, e) := by
  unfold lookupArgs
  rw [splitBars_makeKey t e ht he]
  rfl

theorem foldl_unique_eq (xs acc : List String) :
    xs.foldl (fun acc k => if k ∈ acc then acc else acc ++ [k]) acc
      = acc ++ firstOccurrencesAux acc xs := by
  induction xs generalizing acc with
  | nil => simp [firstOccurrencesAux]
  | cons x xs ih =>
    simp only [List.foldl_cons, firstOccurrencesAux]
    by_cases hx : x ∈ acc
    · simp only [hx, if_true]
      exact ih acc
    · simp only [hx, if_false]
      rw [ih (acc ++ [x])]
      simp

theorem uniqueKeys_eq_firstOccurrences (xs : List String) :
    uniqueKeys xs = firstOccurrences xs := by
  unfold uniqueKeys firstOccurrences
  rw [foldl_unique_eq]
  simp

theorem firstOccurrencesAux_map {α β : Type} [DecidableEq α] [DecidableEq β] (f : α → β)
    (seen xs : List α)
    (hinj : ∀ a ∈ seen ++ xs, ∀ b ∈ seen ++ xs, f a = f b → a = b) :
    firstOccurrencesAux (seen.map f) (xs.map f) = (firstOccurrencesAux seen xs).map f := by
  induction xs generalizing seen with
  | nil => simp [firstOccurrencesAux]
  | cons x xs ih =>
    have hmem : f x ∈ seen.map f ↔ x ∈ seen := by
      constructor
      · intro h
        obtain ⟨y, hy, hfy⟩ := List.mem_map.mp h
        have : y = x := hinj y (by simp [hy]) x (by simp) hfy
        exact this ▸ hy
      · intro h
        exact List.mem_map.mpr ⟨x, h, rfl⟩
    have hinj2 : ∀ a ∈ (seen ++ [x]) ++ xs, ∀ b ∈ (seen ++ [x]) ++ xs, f a = f b → a = b := by
      intro a ha b hb
      exact hinj a (by simpa using ha) b (by simpa using hb)
    have hinj1 : ∀ a ∈ seen ++ xs, ∀ b ∈ seen ++ xs, f a = f b → a = b := by
      intro a ha b hb
      refine hinj a ?_ b ?_
      · rcases List.mem_append.mp ha with h | h
        · simp [h]
        · simp [h]
      · rcases List.mem_append.mp hb with h | h
        · simp [h]
        · simp [h]
    simp only [List.map_cons, firstOccurrencesAux]
    by_cases hx : x ∈ seen
    · simp only [hmem.mpr hx, hx, if_true]
      exact ih seen hinj1
    · have hfx : ¬ f x ∈ seen.map f := fun h => hx (hmem.mp h)
      simp only [hfx, hx, if_false, List.map_cons]
      have := ih (seen ++ [x]) hinj2
      simp only [List.map_append, List.map_cons, List.map_nil] at this
      rw [this]

theorem mem_firstOccurrencesAux {α : Type} [DecidableEq α] (seen xs : List α) (a : α) :
    a ∈ firstOccurrencesAux seen xs ↔ a ∈ xs ∧ a ∉ seen := by
  induction xs generalizing seen with
  | nil => simp [firstOccurrencesAux]
  | cons x xs ih =>
    simp only [firstOccurrencesAux]
    by_cases hx : x ∈ seen
    · simp only [hx, if_true, ih, List.mem_cons]
      constructor
      · rintro ⟨h1, h2⟩
        exact ⟨Or.inr h1, h2⟩
      · rintro ⟨h1 | h1, h2⟩
        · exact absurd (h1 ▸ hx) h2
        · exact ⟨h1, h2⟩
    · simp only [hx, if_false, List.mem_cons, ih, List.mem_append, List.mem_singleton]
      constructor
      · rintro (h | ⟨h1, h2⟩)
        · exact ⟨Or.inl h, h ▸ hx⟩
        · exact ⟨Or.inr h1, fun h => h2 (Or.inl h)⟩
      · rintro ⟨h1 | h1, h2⟩
        · exact Or.inl h1
        · by_cases hax : a = x
          · exact Or.inl hax
          · exact Or.inr ⟨h1, fun h => h.elim h2 (fun h3 => hax (by simpa using h3))⟩

theorem nodup_firstOccurrencesAux {α : Type} [DecidableEq α] (seen xs : List α) :
    (firstOccurrencesAux seen xs).Nodup := by
  induction xs generalizing seen with
  | nil => simp [firstOccurrencesAux]
  | cons x xs ih =>
    simp only [firstOccurrencesAux]
    by_cases hx : x ∈ seen
    · simp only [hx, if_true]
      exact ih seen
    · simp only [hx, if_false]
      refine List.nodup_cons.mpr ⟨?_, ih _⟩
      intro h
      have := ((mem_firstOccurrencesAux (seen ++ [x]) xs x).mp h).2
      exact this (by simp)

theorem mem_firstOccurrences {α : Type} [DecidableEq α] (xs : List α) (a : α) :
    a ∈ firstOccurrences xs ↔ a ∈ xs := by
  unfold firstOccurrences
  rw [mem_firstOccurrencesAux]
  simp

theorem fetchAll_eq_fetchPairs (EXCHANGES : List Exchange) (P : Provider) (now : ℤ)
    (ks : List String) (s : State) :
    fetchAll EXCHANGES P now ks s = fetchPairs EXCHANGES P now (ks.map lookupArgs) s := by
  induction ks generalizing s with
  | nil => rfl
  | cons k ks ih =>
    simp only [fetchAll, List.map_cons, fetchPairs, lookupArgs]
    rw [ih]

theorem stockKeys_eq_map_equityPairs (hs : List HoldingInput) :
    stockKeys (hs.map normalize)
      = uniqueKeys ((equityPairs hs).map (fun p => makeKey p.1 p.2)) := by
  unfold stockKeys equityPairs
  rw [List.map_map]
  rfl

theorem equityPairs_noBar (hs : List HoldingInput)
    (hbar : ∀ h ∈ hs, hasBar (upperTrim h.ticker) = false ∧ hasBar (upperTrim h.exchange) = false)
    (p : String × String) (hp : p ∈ equityPairs hs) :
    hasBar p.1 = false ∧ hasBar p.2 = false := by
  unfold equityPairs at hp
  obtain ⟨n, hn, rfl⟩ := List.mem_map.mp hp
  obtain ⟨h, hh, rfl⟩ := List.mem_map.mp (List.mem_filter.mp hn).1
  exact hbar h hh

theorem mathRound_mul_hundred (x : ℚ) : mathRound (x * 100) / 100 = round2 x := by
  unfold mathRound round2
  rw [mul_comm x 100]

theorem currencyOf_of_find (EXCHANGES : List Exchange) (code : String) (e : Exchange)
    (hfind : findExchange EXCHANGES code = some e) (hne : e.currency ≠ "") :
    currencyOf EXCHANGES code = e.currency := by
  unfold currencyOf
  simp [hfind, hne]

theorem currencyOf_of_not_found (EXCHANGES : List Exchange) (code : String)
    (hfind : findExchange EXCHANGES code = none) : currencyOf EXCHANGES code = "USD" := by
  unfold currencyOf
  simp [hfind]

theorem convertToGBP_pos (EXCHANGES : List Exchange) (p : ℚ) (code : String) (rates : Rates)
    (hp : 0 < p) :
    convertToGBP EXCHANGES (.fin p) code rates =
      if currencyOf EXCHANGES code = "GBX" then some (round2 (p / 100))
      else if currencyOf EXCHANGES code = "EUR" then
        some (round2 ((p * rates.usdGbp) / rates.usdEur))
      else some (round2 (p * rates.usdGbp)) := by
  unfold convertToGBP
  simp only [not_le.mpr hp, if_false, mathRound_mul_hundred]
  by_cases h1 : currencyOf EXCHANGES code = "GBX"
  · simp [h1]
  · by_cases h2 : currencyOf EXCHANGES code = "USD"
    · have h3 : ¬ currencyOf EXCHANGES code = "EUR" := by
        rw [h2]
        decide
      simp [h1, h2, h3]
    · by_cases h3 : currencyOf EXCHANGES code = "EUR" <;> simp [h1, h2, h3]

theorem findExchange_self (EXCHANGES : List Exchange) (e : Exchange) (he : e ∈ EXCHANGES)
    (hnorm : upperTrim e.code = e.code)
    (huniq : ∀ e2 ∈ EXCHANGES, e2.code = e.code → e2 = e) :
    findExchange EXCHANGES e.code = some e := by
  unfold findExchange
  rw [hnorm]
  induction EXCHANGES with
  | nil => cases he
  | cons x xs ih =>
    by_cases hx : x.code = e.code
    · have : x = e := huniq x (List.mem_cons_self _ _) hx
      simp [List.find?_cons, hx, this]
    · have he2 : e ∈ xs := by
        rcases List.mem_cons.mp he with h | h
        · exact absurd (h ▸ rfl) hx
        · exact h
      simp only [List.find?_cons, hx, decide_False]
      exact ih he2 (fun e2 h2 => huniq e2 (List.mem_cons_of_mem _ h2))

theorem fxFilter_eq_none_iff (now : ℤ) (s : State) :
    s.fxCache.filter (fun c => decide (now - c.ts < TTL_MS)) = none ↔ ¬ fxFresh now s := by
  unfold fxFresh
  cases h : s.fxCache with
  | none => simp
  | some c =>
    by_cases hc : now - c.ts < TTL_MS
    · simp [Option.filter, hc]
    · simp [Option.filter, hc]

theorem fetchFxRates_hit (P : Provider) (now : ℤ) (s : State) (c : FxEntry)
    (hc : s.fxCache = some c) (hfresh : now - c.ts < TTL_MS) :
    fetchFxRates P now s = (c.val, s) := by
  unfold fetchFxRates
  simp [hc, Option.filter, hfresh]

theorem fetchFxRates_miss (P : Provider) (now : ℤ) (s : State) (hmiss : ¬ fxFresh now s) :
    fetchFxRates P now s =
      match (P.rates s.log.length).bind (fun p => ratesOfPayload p.1 p.2) with
      | some val => cacheRates now val (s.issue .forexRates)
      | none => fetchFxSpot P now (s.issue .forexRates) := by
  unfold fetchFxRates
  rw [(fxFilter_eq_none_iff now s).mpr hmiss]

theorem issue_log_length (s : State) (r : Request) :
    (s.issue r).log.length = s.log.length + 1 := by
  simp [State.issue]

theorem fetchFxSpot_cache (P : Provider) (now : ℤ) (s1 : State) :
    (fetchFxSpot P now s1).2.fxCache = some { val := (fetchFxSpot P now s1).1, ts := now } ∧
    (fetchFxSpot P now s1).2.priceCache = s1.priceCache ∧
    ∃ more, (fetchFxSpot P now s1).2.log = s1.log ++ more := by
  unfold fetchFxSpot
  cases h1 : P.candle s1.log.length "OANDA:GBP_USD" with
  | none => exact ⟨rfl, rfl, _, rfl⟩
  | some c1 =>
    cases h2 : P.candle (s1.issue (.forexCandle "OANDA:GBP_USD")).log.length "OANDA:EUR_USD" with
    | none =>
      simp only [h2]
      exact ⟨rfl, rfl, [.forexCandle "OANDA:GBP_USD", .forexCandle "OANDA:EUR_USD"],
        by simp [cacheRates, State.issue]⟩
    | some c2 =>
      simp only [h2]
      cases h3 : ratesOfCandles c1 c2 with
      | none => exact ⟨rfl, rfl, [.forexCandle "OANDA:GBP_USD", .forexCandle "OANDA:EUR_USD"],
        by simp [cacheRates, State.issue]⟩
      | some val => exact ⟨rfl, rfl, [.forexCandle "OANDA:GBP_USD", .forexCandle "OANDA:EUR_USD"],
        by simp [cacheRates, State.issue]⟩

theorem fetchFxRates_miss_cache (P : Provider) (now : ℤ) (s : State) (hmiss : ¬ fxFresh now s) :
    (fetchFxRates P now s).2.fxCache = some { val := (fetchFxRates P now s).1, ts := now } ∧
    (fetchFxRates P now s).2.priceCache = s.priceCache ∧
    ∃ more, (fetchFxRates P now s).2.log = s.log ++ .forexRates :: more := by
  rw [fetchFxRates_miss P now s hmiss]
  cases h1 : (P.rates s.log.length).bind (fun p => ratesOfPayload p.1 p.2) with
  | some val => exact ⟨rfl, rfl, [], rfl⟩
  | none =>
    obtain ⟨ha, hb, more, hc⟩ := fetchFxSpot_cache P now (s.issue .forexRates)
    refine ⟨ha, hb, more, ?_⟩
    simp only [hc]
    simp [State.issue]

theorem fetchFxSpot_fallback (P : Provider) (now : ℤ) (s1 : State)
    (h2 : ∀ c, P.candle s1.log.length "OANDA:GBP_USD" = some c → invertedClose c = none) :
    (fetchFxSpot P now s1).1 = fallbackRates := by
  unfold fetchFxSpot
  cases h1 : P.candle s1.log.length "OANDA:GBP_USD" with
  | none => rfl
  | some c1 =>
    have hc1 := h2 c1 h1
    cases h3 : P.candle (s1.issue (.forexCandle "OANDA:GBP_USD")).log.length "OANDA:EUR_USD" with
    | none =>
      simp only [h3]
      rfl
    | some c2 =>
      have hr : ratesOfCandles c1 c2 = none := by
        unfold ratesOfCandles
        rw [hc1]
      simp only [h3, hr]
      rfl

theorem quoteCount_append (a b : List Request) :
    quoteCount (a ++ b) = quoteCount a + quoteCount b := by
  simp [quoteCount]

theorem fetchFxSpot_quoteCount (P : Provider) (now : ℤ) (s1 : State) :
    quoteCount (fetchFxSpot P now s1).2.log = quoteCount s1.log := by
  unfold fetchFxSpot
  cases h1 : P.candle s1.log.length "OANDA:GBP_USD" with
  | none => simp [cacheRates, State.issue, quoteCount_append, quoteCount, isQuote]
  | some c1 =>
    cases h2 : P.candle (s1.issue (.forexCandle "OANDA:GBP_USD")).log.length "OANDA:EUR_USD" with
    | none =>
      simp only [h2]
      simp [cacheRates, State.issue, quoteCount_append, quoteCount, isQuote]
    | some c2 =>
      simp only [h2]
      cases h3 : ratesOfCandles c1 c2 <;>
        simp [cacheRates, State.issue, quoteCount_append, quoteCount, isQuote]

theorem fetchFxRates_quoteCount (P : Provider) (now : ℤ) (s : State) :
    quoteCount (fetchFxRates P now s).2.log = quoteCount s.log := by
  by_cases hfresh : fxFresh now s
  · obtain ⟨c, hc, hlt⟩ := hfresh
    rw [fetchFxRates_hit P now s c hc hlt]
  · rw [fetchFxRates_miss P now s hfresh]
    cases h1 : (P.rates s.log.length).bind (fun p => ratesOfPayload p.1 p.2) with
    | some val => simp [cacheRates, State.issue, quoteCount_append, quoteCount, isQuote]
    | none =>
      simp only []
      rw [fetchFxSpot_quoteCount]
      simp [State.issue, quoteCount_append, quoteCount, isQuote]

theorem fetchFxRates_priceCache (P : Provider) (now : ℤ) (s : State) :
    (fetchFxRates P now s).2.priceCache = s.priceCache := by
  by_cases hfresh : fxFresh now s
  · obtain ⟨c, hc, hlt⟩ := hfresh
    rw [fetchFxRates_hit P now s c hc hlt]
  · exact (fetchFxRates_miss_cache P now s hfresh).2.1

theorem fetchPriceGBP_hit (EXCHANGES : List Exchange) (P : Provider) (now : ℤ)
    (ticker exchangeCode : String) (s : State) (c : PriceEntry)
    (hc : mapGet s.priceCache (priceKey ticker exchangeCode) = some c)
    (hpos : 0 < c.price) (hlt : now - c.ts < TTL_MS) :
    fetchPriceGBP EXCHANGES P now ticker exchangeCode s = (some c.price, s) := by
  unfold fetchPriceGBP
  unfold priceKey at hc
  simp only [hc]
  rw [if_pos ⟨hpos, hlt⟩]

theorem fetchPriceGBP_miss (EXCHANGES : List Exchange) (P : Provider) (now : ℤ)
    (ticker exchangeCode : String) (s : State)
    (hmiss : ¬ priceFresh now (priceKey ticker exchangeCode) s) :
    fetchPriceGBP EXCHANGES P now ticker exchangeCode s
      = fetchPriceMiss EXCHANGES P now ticker exchangeCode (priceKey ticker exchangeCode) s := by
  unfold fetchPriceGBP
  unfold priceFresh priceKey at hmiss
  unfold priceKey
  cases hc : mapGet s.priceCache (makeKey (upperTrim ticker) (upperTrim exchangeCode)) with
  | none => simp only [hc]
  | some c =>
    simp only [hc]
    rw [if_neg]
    rintro ⟨h1, h2⟩
    exact hmiss ⟨c, hc, h1, h2⟩

theorem fetchPriceMiss_log (EXCHANGES : List Exchange) (P : Provider) (now : ℤ)
    (ticker exchangeCode key : String) (s : State) :
    (fetchPriceMiss EXCHANGES P now ticker exchangeCode key s).2.log
      = (fetchFxRates P now s).2.log ++ [.quote (mapSymbolForExchange EXCHANGES ticker exchangeCode)] ∧
    (fetchPriceMiss EXCHANGES P now ticker exchangeCode key s).2.fxCache
      = (fetchFxRates P now s).2.fxCache := by
  unfold fetchPriceMiss
  simp only []
  cases h1 : P.quote (fetchFxRates P now s).2.log.length
      (mapSymbolForExchange EXCHANGES ticker exchangeCode) with
  | none => exact ⟨rfl, rfl⟩
  | some raw =>
    simp only []
    cases h2 : convertToGBP EXCHANGES (numberOfNullable raw) exchangeCode
        (fetchFxRates P now s).1 with
    | none => exact ⟨rfl, rfl⟩
    | some gbp =>
      simp only []
      split_ifs <;> exact ⟨rfl, rfl⟩

theorem fetchPriceMiss_quoteCount (EXCHANGES : List Exchange) (P : Provider) (now : ℤ)
    (ticker exchangeCode key : String) (s : State) :
    quoteCount (fetchPriceMiss EXCHANGES P now ticker exchangeCode key s).2.log
      = quoteCount s.log + 1 := by
  rw [(fetchPriceMiss_log EXCHANGES P now ticker exchangeCode key s).1, quoteCount_append,
    fetchFxRates_quoteCount]
  rfl

theorem convertToGBP_hundredths (EXCHANGES : List Exchange) (price : JSNumber) (code : String)
    (rates : Rates) (g : ℚ) (h : convertToGBP EXCHANGES price code rates = some g) :
    ∃ n : ℤ, g = (n : ℚ) / 100 := by
  cases price with
  | NaN => simp [convertToGBP] at h
  | fin p =>
    by_cases hp : 0 < p
    · rw [convertToGBP_pos _ _ _ _ hp] at h
      unfold round2 at h
      split_ifs at h <;> exact ⟨_, (Option.some.inj h).symm⟩
    · simp [convertToGBP, not_lt.mp hp] at h

theorem fetchPriceMiss_some (EXCHANGES : List Exchange) (P : Provider) (now : ℤ)
    (ticker exchangeCode key : String) (s : State) (p : ℚ)
    (h : (fetchPriceMiss EXCHANGES P now ticker exchangeCode key s).1 = some p) :
    PriceOk p ∧
    (fetchPriceMiss EXCHANGES P now ticker exchangeCode key s).2.priceCache
      = mapSet s.priceCache key { price := p, ts := now } := by
  unfold fetchPriceMiss at h ⊢
  simp only [] at h ⊢
  cases h1 : P.quote (fetchFxRates P now s).2.log.length
      (mapSymbolForExchange EXCHANGES ticker exchangeCode) with
  | none => simp [h1] at h
  | some raw =>
    simp only [h1] at h ⊢
    cases h2 : convertToGBP EXCHANGES (numberOfNullable raw) exchangeCode
        (fetchFxRates P now s).1 with
    | none => simp [h2] at h
    | some gbp =>
      simp only [h2] at h ⊢
      by_cases hg : gbp ≠ 0 ∧ gbp > 0
      · rw [if_pos hg] at h ⊢
        have hp : gbp = p := Option.some.inj h
        subst hp
        refine ⟨⟨hg.2, convertToGBP_hundredths _ _ _ _ _ h2⟩, ?_⟩
        simp [State.issue, fetchFxRates_priceCache]
      · rw [if_neg hg] at h
        cases h

theorem fetchPriceMiss_none (EXCHANGES : List Exchange) (P : Provider) (now : ℤ)
    (ticker exchangeCode key : String) (s : State)
    (h : (fetchPriceMiss EXCHANGES P now ticker exchangeCode key s).1 = none) :
    (fetchPriceMiss EXCHANGES P now ticker exchangeCode key s).2.priceCache = s.priceCache := by
  unfold fetchPriceMiss at h ⊢
  simp only [] at h ⊢
  cases h1 : P.quote (fetchFxRates P now s).2.log.length
      (mapSymbolForExchange EXCHANGES ticker exchangeCode) with
  | none => simp [State.issue, fetchFxRates_priceCache]
  | some raw =>
    simp only [h1] at h ⊢
    cases h2 : convertToGBP EXCHANGES (numberOfNullable raw) exchangeCode
        (fetchFxRates P now s).1 with
    | none => simp [State.issue, fetchFxRates_priceCache]
    | some gbp =>
      simp only [h2] at h ⊢
      by_cases hg : gbp ≠ 0 ∧ gbp > 0
      · rw [if_pos hg] at h
        cases h
      · rw [if_neg hg]
        simp [State.issue, fetchFxRates_priceCache]

theorem fetchPriceMiss_fail (EXCHANGES : List Exchange) (P : Provider) (now : ℤ)
    (ticker exchangeCode key : String) (s : State)
    (hfail : P.quote (fetchFxRates P now s).2.log.length
        (mapSymbolForExchange EXCHANGES ticker exchangeCode) = none ∨
      ∃ raw, P.quote (fetchFxRates P now s).2.log.length
          (mapSymbolForExchange EXCHANGES ticker exchangeCode) = some raw ∧
        (convertToGBP EXCHANGES (numberOfNullable raw) exchangeCode (fetchFxRates P now s).1
            = none ∨
          ∃ g, convertToGBP EXCHANGES (numberOfNullable raw) exchangeCode
              (fetchFxRates P now s).1 = some g ∧ g ≤ 0)) :
    (fetchPriceMiss EXCHANGES P now ticker exchangeCode key s).1 = none := by
  unfold fetchPriceMiss
  simp only []
  rcases hfail with h1 | ⟨raw, h1, h2 | ⟨g, h2, hg⟩⟩
  · simp only [h1]
  · simp only [h1, h2]
  · simp only [h1, h2]
    rw [if_neg]
    rintro ⟨_, hpos⟩
    exact absurd hpos (not_lt.mpr hg)

theorem priceFresh_mono (now now2 : ℤ) (key : String) (s s2 : State)
    (hcache : s2.priceCache = s.priceCache) (hle : now ≤ now2)
    (hmiss : ¬ priceFresh now key s) : ¬ priceFresh now2 key s2 := by
  rintro ⟨c, hc, hpos, hlt⟩
  rw [hcache] at hc
  exact hmiss ⟨c, hc, hpos, by linarith⟩

theorem mem_mapSet {α : Type} (m : List (String × α)) (k : String) (v : α)
    (x : String × α) (hx : x ∈ mapSet m k v) : x ∈ m ∨ x = (k, v) := by
  induction m with
  | nil =>
    simp only [mapSet, List.mem_singleton] at hx
    exact Or.inr hx
  | cons e m ih =>
    obtain ⟨k1, v1⟩ := e
    simp only [mapSet] at hx
    split_ifs at hx with h
    · rcases List.mem_cons.mp hx with h1 | h1
      · exact Or.inr h1
      · exact Or.inl (List.mem_cons_of_mem _ h1)
    · rcases List.mem_cons.mp hx with h1 | h1
      · exact Or.inl (h1 ▸ List.mem_cons_self _ _)
      · rcases ih h1 with h2 | h2
        · exact Or.inl (List.mem_cons_of_mem _ h2)
        · exact Or.inr h2

theorem mapGet_mem {α : Type} (m : List (String × α)) (k : String) (v : α)
    (h : mapGet m k = some v) : (k, v) ∈ m := by
  induction m with
  | nil => simp [mapGet] at h
  | cons e m ih =>
    obtain ⟨k1, v1⟩ := e
    simp only [mapGet] at h
    split_ifs at h with hk
    · cases h
      subst hk
      exact List.mem_cons_self _ _
    · exact List.mem_cons_of_mem _ (ih h)

theorem ratesOfPayload_nonzero (g e : JSNumber) (val : Rates)
    (h : ratesOfPayload g e = some val) : val.usdGbp ≠ 0 ∧ val.usdEur ≠ 0 := by
  unfold ratesOfPayload at h
  cases g with
  | NaN => simp at h
  | fin a =>
    cases e with
    | NaN => simp at h
    | fin b =>
      simp only [] at h
      split_ifs at h with hab
      cases h
      exact hab

theorem ratesOfCandles_nonzero (c1 c2 : Option JSNumber) (val : Rates)
    (h : ratesOfCandles c1 c2 = some val) : val.usdGbp ≠ 0 ∧ val.usdEur ≠ 0 := by
  unfold ratesOfCandles at h
  cases h1 : invertedClose c1 with
  | none => simp [h1] at h
  | some a =>
    cases h2 : invertedClose c2 with
    | none => simp [h1, h2] at h
    | some b =>
      simp only [h1, h2] at h
      split_ifs at h with hab
      cases h
      exact hab

theorem fallbackRates_nonzero : fallbackRates.usdGbp ≠ 0 ∧ fallbackRates.usdEur ≠ 0 := by
  decide!

theorem fetchFxSpot_nonzero (P : Provider) (now : ℤ) (s1 : State) :
    (fetchFxSpot P now s1).1.usdGbp ≠ 0 ∧ (fetchFxSpot P now s1).1.usdEur ≠ 0 := by
  unfold fetchFxSpot
  cases h1 : P.candle s1.log.length "OANDA:GBP_USD" with
  | none => exact fallbackRates_nonzero
  | some c1 =>
    cases h2 : P.candle (s1.issue (.forexCandle "OANDA:GBP_USD")).log.length "OANDA:EUR_USD" with
    | none =>
      simp only [h2]
      exact fallbackRates_nonzero
    | some c2 =>
      simp only [h2]
      cases h3 : ratesOfCandles c1 c2 with
      | none => exact fallbackRates_nonzero
      | some val => exact ratesOfCandles_nonzero c1 c2 val h3

theorem fetchFxRates_nonzero (P : Provider) (now : ℤ) (s : State) (hok : fxOk s) :
    ((fetchFxRates P now s).1.usdGbp ≠ 0 ∧ (fetchFxRates P now s).1.usdEur ≠ 0) ∧
    fxOk (fetchFxRates P now s).2 := by
  by_cases hfresh : fxFresh now s
  · obtain ⟨c, hc, hlt⟩ := hfresh
    rw [fetchFxRates_hit P now s c hc hlt]
    exact ⟨hok c hc, hok⟩
  · have hcache := (fetchFxRates_miss_cache P now s hfresh).1
    have hval : (fetchFxRates P now s).1.usdGbp ≠ 0 ∧ (fetchFxRates P now s).1.usdEur ≠ 0 := by
      rw [fetchFxRates_miss P now s hfresh]
      cases h1 : (P.rates s.log.length).bind (fun p => ratesOfPayload p.1 p.2) with
      | some val =>
        cases hr : P.rates s.log.length with
        | none => simp [hr] at h1
        | some pr =>
          simp only [hr, Option.some_bind] at h1
          exact ratesOfPayload_nonzero _ _ val h1
      | none => exact fetchFxSpot_nonzero P now _
    refine ⟨hval, ?_⟩
    intro c hc
    rw [hcache] at hc
    cases hc
    exact hval

theorem fetchPriceGBP_fxOk (EXCHANGES : List Exchange) (P : Provider) (now : ℤ)
    (ticker exchangeCode : String) (s : State) (hok : fxOk s) :
    fxOk (fetchPriceGBP EXCHANGES P now ticker exchangeCode s).2 := by
  by_cases hfresh : priceFresh now (priceKey ticker exchangeCode) s
  · obtain ⟨c, hc, hpos, hlt⟩ := hfresh
    rw [fetchPriceGBP_hit EXCHANGES P now ticker exchangeCode s c hc hpos hlt]
    exact hok
  · rw [fetchPriceGBP_miss EXCHANGES P now ticker exchangeCode s hfresh]
    intro c hc
    rw [(fetchPriceMiss_log EXCHANGES P now ticker exchangeCode _ s).2] at hc
    exact (fetchFxRates_nonzero P now s hok).2 c hc

theorem updateDefault_fields (prices : List (String × Option ℚ)) (h : StoredHolding) :
    (updateDefault prices h).ticker = h.ticker ∧
    (updateDefault prices h).exchange = h.exchange ∧
    (updateDefault prices h).others = h.others := by
  unfold updateDefault
  split_ifs
  · exact ⟨rfl, rfl, rfl⟩
  · simp only []
    split <;> exact ⟨rfl, rfl, rfl⟩

theorem fetchedFor_congr (prices : List (String × Option ℚ)) (h h2 : StoredHolding)
    (ht : h2.ticker = h.ticker) (he : h2.exchange = h.exchange) :
    fetchedFor prices h2 = fetchedFor prices h := by
  unfold fetchedFor
  rw [ht, he]

theorem defaultsKeys_congr (l : List StoredHolding) (g : StoredHolding → StoredHolding)
    (hg : ∀ h, (g h).ticker = h.ticker ∧ (g h).exchange = h.exchange) :
    defaultsKeys (l.map g) = defaultsKeys l := by
  unfold defaultsKeys
  congr 1
  induction l with
  | nil => rfl
  | cons h l ih =>
    simp only [List.map_cons, List.filter_cons, (hg h).1, (hg h).2]
    split_ifs
    · simp only [List.map_cons, (hg h).1, (hg h).2, ih]
    · exact ih

theorem numericDefault_number (h : StoredHolding) (d : ℚ) (hd : numericDefault h = some d) :
    h.defaultPrice = .number d := by
  unfold numericDefault at hd
  cases hp : h.defaultPrice with
  | absent => simp [hp] at hd
  | number q =>
    simp only [hp, Option.some.injEq] at hd
    rw [hd]
  | other j => simp [hp] at hd

theorem updateDefault_no_price (prices : List (String × Option ℚ)) (h : StoredHolding)
    (ht : jsToUpperCase h.ticker ≠ "CASH") (hf : fetchedFor prices h = none) :
    updateDefault prices h = h := by
  unfold updateDefault
  simp only [ht, if_false, hf]
  cases hd : numericDefault h with
  | none => rfl
  | some d =>
    simp only []
    have := numericDefault_number h d hd
    cases h
    simp only at this
    simp [this]

theorem updateDefault_price (prices : List (String × Option ℚ)) (h : StoredHolding) (p : ℚ)
    (ht : jsToUpperCase h.ticker ≠ "CASH") (hf : fetchedFor prices h = some p) (hp : 0 < p) :
    updateDefault prices h = { h with defaultPrice := .number p } := by
  unfold updateDefault
  simp only [ht, if_false, hf, gt_iff_lt, hp, if_true]

theorem updateDefault_idem (prices : List (String × Option ℚ)) (h : StoredHolding) :
    updateDefault prices (updateDefault prices h) = updateDefault prices h := by
  obtain ⟨h1, h2, _⟩ := updateDefault_fields prices h
  by_cases ht : jsToUpperCase h.ticker = "CASH"
  · have hu : updateDefault prices h = { h with defaultPrice := .number 1 } := by
      unfold updateDefault
      simp only [ht, if_true]
    rw [hu]
    unfold updateDefault
    simp only [ht, if_true]
  · have ht2 : jsToUpperCase (updateDefault prices h).ticker ≠ "CASH" := by
      rw [h1]
      exact ht
    have hff := fetchedFor_congr prices h (updateDefault prices h) h1 h2
    cases hf : fetchedFor prices h with
    | none =>
      rw [updateDefault_no_price prices h ht hf]
      exact updateDefault_no_price prices h ht hf
    | some p =>
      by_cases hp : 0 < p
      · rw [updateDefault_price prices _ p ht2 (hff.trans hf) hp,
          updateDefault_price prices h p ht hf hp]
      · have hu : updateDefault prices h = h := by
          unfold updateDefault
          simp only [ht, if_false, hf, gt_iff_lt, hp]
          cases hd : numericDefault h with
          | none => rfl
          | some d =>
            simp only []
            have := numericDefault_number h d hd
            cases h
            simp only at this
            simp [this]
        rw [hu, hu]

theorem fillPriceMap_has_sub (ks : List String) (ps : List (Option ℚ))
    (m : List (String × Option ℚ)) (k : String)
    (h : mapHas (fillPriceMap ks ps m) k = true) : k ∈ ks ∨ mapHas m k = true := by
  induction ks generalizing ps m with
  | nil =>
    cases ps <;> exact Or.inr (by simpa [fillPriceMap] using h)
  | cons k1 ks ih =>
    cases ps with
    | nil => exact Or.inr (by simpa [fillPriceMap] using h)
    | cons p ps =>
      simp only [fillPriceMap] at h
      rcases ih ps _ h with h1 | h1
      · exact Or.inl (List.mem_cons_of_mem _ h1)
      · rw [mapHas_mapSet] at h1
        by_cases hk : k1 = k
        · exact Or.inl (hk ▸ List.mem_cons_self _ _)
        · simp only [hk, decide_False, Bool.false_or] at h1
          exact Or.inr h1

theorem fillPriceMap_pos (ks : List String) (ps : List (Option ℚ))
    (m : List (String × Option ℚ))
    (hm : ∀ k p, mapGet m k = some (some p) → 0 < p) :
    ∀ k p, mapGet (fillPriceMap ks ps m) k = some (some p) → 0 < p := by
  induction ks generalizing ps m with
  | nil =>
    cases ps <;> simpa [fillPriceMap] using hm
  | cons k1 ks ih =>
    cases ps with
    | nil => simpa [fillPriceMap] using hm
    | cons r ps =>
      simp only [fillPriceMap]
      apply ih
      intro k p hk
      rw [mapGet_mapSet] at hk
      split_ifs at hk with h1
      · cases r with
        | none => simp at hk
        | some x =>
          simp only [Option.some.injEq] at hk
          split_ifs at hk with hx
          · cases hk
            exact hx
      · exact hm k p hk

theorem makeKey_ne_bars (t e : String) (ht : t ≠ "") : makeKey t e ≠ makeKey "" "" := by
  intro h
  have h1 := congrArg String.data h
  rw [makeKey_data, makeKey_data] at h1
  have h2 := congrArg List.length h1
  have h0 : ("" : String).data = [] := rfl
  simp only [h0, List.length_append, List.length_cons, List.length_nil] at h2
  have h3 : t.data = [] := List.eq_nil_of_length_eq_zero (by omega)
  apply ht
  cases t
  simp only at h3
  rw [h3]

theorem mem_defaultsKeys (current : List StoredHolding) (k : String)
    (hk : k ∈ defaultsKeys current) : ∃ t e, t ≠ "" ∧ k = makeKey t e := by
  unfold defaultsKeys at hk
  rw [mem_uniqueKeys] at hk
  obtain ⟨h, hh, rfl⟩ := List.mem_map.mp hk
  have := (List.mem_filter.mp hh).2
  simp only [decide_eq_true_eq] at this
  exact ⟨_, _, this.1, rfl⟩

theorem key_mem_defaultsKeys (current : List StoredHolding) (h : StoredHolding)
    (hm : h ∈ current) (h1 : jsToUpperCase h.ticker ≠ "")
    (h2 : jsToUpperCase h.ticker ≠ "CASH") :
    makeKey (jsToUpperCase h.ticker) (jsToUpperCase h.exchange) ∈ defaultsKeys current := by
  unfold defaultsKeys
  rw [mem_uniqueKeys]
  apply List.mem_map.mpr
  refine ⟨h, ?_, rfl⟩
  apply List.mem_filter.mpr
  exact ⟨hm, by simp [h1, h2]⟩

theorem fetchedFor_eq_join (current : List StoredHolding) (responses : List (Option ℚ))
    (hlen : responses.length = (defaultsKeys current).length)
    (h : StoredHolding) (hm : h ∈ current) (ht : jsToUpperCase h.ticker ≠ "CASH") :
    fetchedFor (fillPriceMap (defaultsKeys current) responses []) h
      = (mapGet (fillPriceMap (defaultsKeys current) responses [])
          (makeKey (jsToUpperCase h.ticker) (jsToUpperCase h.exchange))).join := by
  unfold fetchedFor
  simp only []
  by_cases hhas : mapHas (fillPriceMap (defaultsKeys current) responses [])
      (makeKey (jsToUpperCase h.ticker) (jsToUpperCase h.exchange)) = true
  · rw [if_pos hhas]
  · rw [if_neg hhas]
    have hempty : jsToUpperCase h.ticker = "" := by
      by_contra hne
      exact hhas (fillPriceMap_has_of_mem _ _ _ _ hlen (key_mem_defaultsKeys current h hm hne ht))
    have hnone1 : mapGet (fillPriceMap (defaultsKeys current) responses [])
        (makeKey (jsToUpperCase h.ticker) (jsToUpperCase h.exchange)) = none := by
      unfold mapHas at hhas
      cases hg : mapGet (fillPriceMap (defaultsKeys current) responses [])
          (makeKey (jsToUpperCase h.ticker) (jsToUpperCase h.exchange)) with
      | none => rfl
      | some v => simp [hg] at hhas
    have hnone2 : mapGet (fillPriceMap (defaultsKeys current) responses [])
        (makeKey (jsToUpperCase h.ticker) "") = none := by
      cases hg : mapGet (fillPriceMap (defaultsKeys current) responses [])
          (makeKey (jsToUpperCase h.ticker) "") with
      | none => rfl
      | some v =>
        exfalso
        have hh : mapHas (fillPriceMap (defaultsKeys current) responses [])
            (makeKey (jsToUpperCase h.ticker) "") = true := by
          unfold mapHas
          rw [hg]
          rfl
        rcases fillPriceMap_has_sub _ _ _ _ hh with h1 | h1
        · obtain ⟨t, e, htne, hkey⟩ := mem_defaultsKeys current _ h1
          rw [hempty] at hkey
          exact makeKey_ne_bars t e htne hkey.symm
        · simp [mapHas, mapGet] at h1
    rw [hnone1, hnone2]
    rfl

theorem refreshDefaultsWith_getElem (responses : List (Option ℚ))
    (current : List StoredHolding) (i : Nat) (h : StoredHolding) (hget : current[i]? = some h) :
    (refreshDefaultsWith responses current)[i]?
      = some (updateDefault (fillPriceMap (defaultsKeys current) responses []) h) := by
  unfold refreshDefaultsWith
  simp [List.getElem?_map, hget]

theorem foldl_mapSet_get_none (base : List BaseHolding) (m : List (String × BaseHolding))
    (t : String) :
    mapGet (base.foldl (fun m b => mapSet m (upperTrim b.ticker) b) m) t = none ↔
      (∀ b ∈ base, upperTrim b.ticker ≠ t) ∧ mapGet m t = none := by
  induction base generalizing m with
  | nil => simp
  | cons b base ih =>
    simp only [List.foldl_cons]
    rw [ih, mapGet_mapSet]
    by_cases hb : upperTrim b.ticker = t
    · simp [hb]
    · simp [hb]

theorem foldl_mapSet_get_some (base : List BaseHolding) (m : List (String × BaseHolding))
    (t : String) (x : BaseHolding)
    (h : mapGet (base.foldl (fun m b => mapSet m (upperTrim b.ticker) b) m) t = some x) :
    (x ∈ base ∧ upperTrim x.ticker = t) ∨ mapGet m t = some x := by
  induction base generalizing m with
  | nil => exact Or.inr h
  | cons b base ih =>
    simp only [List.foldl_cons] at h
    rcases ih _ h with ⟨h1, h2⟩ | h1
    · exact Or.inl ⟨List.mem_cons_of_mem _ h1, h2⟩
    · rw [mapGet_mapSet] at h1
      split_ifs at h1 with hb
      · cases h1
        exact Or.inl ⟨List.mem_cons_self _ _, hb⟩
      · exact Or.inr h1

theorem mathRound_zero : mathRound 0 = 0 := by decide!

/-! ### Double precision rounding -/

theorem pow2_eq (e : ℤ) : pow2 e = (2 : ℚ) ^ e := by
  unfold pow2
  split_ifs with h
  · have he : e = (e.toNat : ℤ) := (Int.toNat_of_nonneg h).symm
    conv_rhs => rw [he]
    rw [zpow_natCast]
    push_cast
    rfl
  · have hn : 0 ≤ -e := by omega
    have he : e = -((-e).toNat : ℤ) := by rw [Int.toNat_of_nonneg hn]; ring
    conv_rhs => rw [he]
    rw [zpow_neg, zpow_natCast]
    push_cast
    rw [one_div]

theorem pow2_pos (e : ℤ) : 0 < pow2 e := by
  rw [pow2_eq]
  exact zpow_pos (by norm_num) e

theorem pow2_add (a b : ℤ) : pow2 (a + b) = pow2 a * pow2 b := by
  rw [pow2_eq, pow2_eq, pow2_eq]
  exact zpow_add₀ (by norm_num) a b

theorem pow2_le {a b : ℤ} (h : a ≤ b) : pow2 a ≤ pow2 b := by
  rw [pow2_eq, pow2_eq]
  exact zpow_le_zpow_right₀ (by norm_num) h

theorem pow2_lt {a b : ℤ} (h : a < b) : pow2 a < pow2 b := by
  rw [pow2_eq, pow2_eq]
  exact zpow_lt_zpow_right₀ (by norm_num) h

theorem pow2_lt_iff {a b : ℤ} : pow2 a < pow2 b ↔ a < b := by
  rw [pow2_eq, pow2_eq]
  exact zpow_lt_zpow_iff_right₀ (by norm_num)

theorem pow2_natCast (n : ℕ) : pow2 (n : ℤ) = ((2 ^ n : ℕ) : ℚ) := by
  rw [pow2_eq, zpow_natCast]
  push_cast
  rfl

theorem pow2_zero : pow2 0 = 1 := by
  rw [pow2_eq]
  simp

theorem pow2_succ (a : ℤ) : pow2 (a + 1) = 2 * pow2 a := by
  rw [pow2_add, pow2_eq 1]
  simp
  ring

theorem log2Fuel_spec : ∀ (fuel n : ℕ), 0 < n → n ≤ fuel →
    2 ^ log2Fuel fuel n ≤ n ∧ n < 2 ^ (log2Fuel fuel n + 1)
  | 0, n, h0, h1 => by omega
  | fuel + 1, n, h0, h1 => by
    unfold log2Fuel
    split_ifs with h2
    · constructor
      · simpa using h0
      · simpa using h2
    · have h3 : 0 < n / 2 := Nat.div_pos (by omega) (by norm_num)
      have h4 : n / 2 ≤ fuel := by omega
      obtain ⟨ha, hb⟩ := log2Fuel_spec fuel (n / 2) h3 h4
      constructor
      · rw [pow_succ]
        omega
      · rw [pow_succ]
        omega

theorem natLog2_spec (n : ℕ) (h : 0 < n) : 2 ^ natLog2 n ≤ n ∧ n < 2 ^ (natLog2 n + 1) :=
  log2Fuel_spec n n h le_rfl

theorem log2Floor_spec (q : ℚ) (hq : 0 < q) :
    pow2 (log2Floor q) ≤ q ∧ q < pow2 (log2Floor q + 1) := by
  have hnum : 0 < q.num := Rat.num_pos.mpr hq
  have hden : 0 < q.den := q.den_pos
  have hna : 0 < q.num.natAbs := Int.natAbs_pos.mpr (ne_of_gt hnum)
  obtain ⟨a1, a2⟩ := natLog2_spec q.num.natAbs hna
  obtain ⟨b1, b2⟩ := natLog2_spec q.den hden
  have hqa : q = (q.num.natAbs : ℚ) / (q.den : ℚ) := by
    have h1 : ((q.num.natAbs : ℤ) : ℚ) = (q.num : ℚ) := by
      rw [Int.natAbs_of_nonneg (le_of_lt hnum)]
    have h2 : ((q.num.natAbs : ℕ) : ℚ) = ((q.num.natAbs : ℤ) : ℚ) := (Int.cast_natCast _).symm
    rw [h2, h1]
    exact (Rat.num_div_den q).symm
  have hdq : (0 : ℚ) < (q.den : ℚ) := by exact_mod_cast hden
  have A1 : pow2 (natLog2 q.num.natAbs : ℤ) ≤ (q.num.natAbs : ℚ) := by
    rw [pow2_natCast]; exact_mod_cast a1
  have A2 : (q.num.natAbs : ℚ) < pow2 ((natLog2 q.num.natAbs : ℤ) + 1) := by
    have : ((natLog2 q.num.natAbs : ℤ) + 1) = ((natLog2 q.num.natAbs + 1 : ℕ) : ℤ) := by
      push_cast; rfl
    rw [this, pow2_natCast]; exact_mod_cast a2
  have B1 : pow2 (natLog2 q.den : ℤ) ≤ (q.den : ℚ) := by
    rw [pow2_natCast]; exact_mod_cast b1
  have B2 : (q.den : ℚ) < pow2 ((natLog2 q.den : ℤ) + 1) := by
    have : ((natLog2 q.den : ℤ) + 1) = ((natLog2 q.den + 1 : ℕ) : ℤ) := by
      push_cast; rfl
    rw [this, pow2_natCast]; exact_mod_cast b2
  set la : ℤ := (natLog2 q.num.natAbs : ℤ) with hla
  set lb : ℤ := (natLog2 q.den : ℤ) with hlb
  -- q < 2 ^ (la - lb + 1) and 2 ^ (la - lb - 1) < q
  have hup : q < pow2 (la - lb + 1) := by
    have e1 : pow2 (la + 1) = pow2 (la - lb + 1) * pow2 lb := by
      rw [← pow2_add]; congr 1; ring
    have : (q.num.natAbs : ℚ) < pow2 (la - lb + 1) * (q.den : ℚ) := by
      calc (q.num.natAbs : ℚ) < pow2 (la + 1) := A2
        _ = pow2 (la - lb + 1) * pow2 lb := e1
        _ ≤ pow2 (la - lb + 1) * (q.den : ℚ) :=
            mul_le_mul_of_nonneg_left B1 (le_of_lt (pow2_pos _))
    rw [hqa]
    exact (div_lt_iff₀ hdq).mpr this
  have hlo : pow2 (la - lb - 1) < q := by
    have e1 : pow2 la = pow2 (la - lb - 1) * pow2 (lb + 1) := by
      rw [← pow2_add]; congr 1; ring
    have : pow2 (la - lb - 1) * (q.den : ℚ) < (q.num.natAbs : ℚ) := by
      calc pow2 (la - lb - 1) * (q.den : ℚ) < pow2 (la - lb - 1) * pow2 (lb + 1) :=
            mul_lt_mul_of_pos_left B2 (pow2_pos _)
        _ = pow2 la := e1.symm
        _ ≤ (q.num.natAbs : ℚ) := A1
    rw [hqa]
    exact (lt_div_iff₀ hdq).mpr this
  unfold log2Floor
  simp only [← hla, ← hlb]
  split_ifs with h
  · refine ⟨le_of_lt hlo, ?_⟩
    have : la - lb - 1 + 1 = la - lb := by ring
    rw [this]
    exact h
  · exact ⟨not_lt.mp h, hup⟩

theorem log2Floor_unique (q : ℚ) (L : ℤ) (h1 : pow2 L ≤ q) (h2 : q < pow2 (L + 1)) :
    log2Floor q = L := by
  have hq : 0 < q := lt_of_lt_of_le (pow2_pos L) h1
  obtain ⟨s1, s2⟩ := log2Floor_spec q hq
  have a : L < log2Floor q + 1 := pow2_lt_iff.mp (lt_of_le_of_lt h1 s2)
  have b : log2Floor q < L + 1 := pow2_lt_iff.mp (lt_of_le_of_lt s1 h2)
  omega

theorem log2Floor_mono (q1 q2 : ℚ) (h0 : 0 < q1) (h : q1 ≤ q2) :
    log2Floor q1 ≤ log2Floor q2 := by
  obtain ⟨s1, _⟩ := log2Floor_spec q1 h0
  obtain ⟨_, t2⟩ := log2Floor_spec q2 (lt_of_lt_of_le h0 h)
  have : log2Floor q1 < log2Floor q2 + 1 :=
    pow2_lt_iff.mp (lt_of_le_of_lt s1 (lt_of_le_of_lt h t2))
  omega

theorem ulpExp_mono (q1 q2 : ℚ) (h0 : 0 < q1) (h : q1 ≤ q2) : ulpExp q1 ≤ ulpExp q2 := by
  unfold ulpExp
  have := log2Floor_mono q1 q2 h0 h
  omega

theorem ratFloor_eq (y : ℚ) : Rat.floor y = ⌊y⌋ := by
  rw [Rat.floor_def', Rat.floor_def]

theorem roundHalfEven_cases (y : ℚ) :
    roundHalfEven y = ⌊y⌋ ∨ roundHalfEven y = ⌊y⌋ + 1 := by
  unfold roundHalfEven
  simp only [ratFloor_eq]
  split_ifs <;> simp

theorem roundHalfEven_le (y : ℚ) : (roundHalfEven y : ℚ) ≤ y + 1 / 2 := by
  have h1 := Int.floor_le y
  unfold roundHalfEven
  simp only [ratFloor_eq]
  split_ifs with a b c
  · linarith
  · push_cast; linarith
  · linarith
  · push_cast; linarith

theorem roundHalfEven_ge (y : ℚ) : y - 1 / 2 ≤ (roundHalfEven y : ℚ) := by
  have h1 := Int.lt_floor_add_one y
  unfold roundHalfEven
  simp only [ratFloor_eq]
  split_ifs with a b c
  · linarith
  · push_cast; linarith
  · linarith
  · push_cast; linarith

theorem roundHalfEven_intCast (k : ℤ) : roundHalfEven (k : ℚ) = k := by
  unfold roundHalfEven
  simp only [ratFloor_eq, Int.floor_intCast, sub_self]
  norm_num

theorem roundHalfEven_le_int (y : ℚ) (k : ℤ) (h : y ≤ k) : roundHalfEven y ≤ k := by
  have h1 := Int.floor_le y
  have h2 := Int.lt_floor_add_one y
  have hf : ⌊y⌋ ≤ k := Int.floor_le_floor h |>.trans (by simp)
  unfold roundHalfEven
  simp only [ratFloor_eq]
  split_ifs with a b c
  · exact hf
  · by_contra hc
    have : k ≤ ⌊y⌋ := by omega
    have hk : (k : ℚ) ≤ (⌊y⌋ : ℚ) := by exact_mod_cast this
    linarith
  · exact hf
  · by_contra hc
    have : k ≤ ⌊y⌋ := by omega
    have hk : (k : ℚ) ≤ (⌊y⌋ : ℚ) := by exact_mod_cast this
    linarith

theorem roundHalfEven_ge_int (y : ℚ) (k : ℤ) (h : (k : ℚ) ≤ y) : k ≤ roundHalfEven y := by
  have hf : k ≤ ⌊y⌋ := Int.le_floor.mpr h
  rcases roundHalfEven_cases y with e | e <;> omega

theorem roundHalfEven_mono (y1 y2 : ℚ) (h : y1 ≤ y2) : roundHalfEven y1 ≤ roundHalfEven y2 := by
  have hf : ⌊y1⌋ ≤ ⌊y2⌋ := Int.floor_le_floor h
  rcases lt_or_eq_of_le hf with hlt | heq
  · have a : roundHalfEven y1 ≤ ⌊y1⌋ + 1 := by
      rcases roundHalfEven_cases y1 with e | e <;> omega
    have b : ⌊y2⌋ ≤ roundHalfEven y2 := by
      rcases roundHalfEven_cases y2 with e | e <;> omega
    omega
  · unfold roundHalfEven
    simp only [ratFloor_eq, heq]
    have hd : y1 - (⌊y2⌋ : ℚ) ≤ y2 - (⌊y2⌋ : ℚ) := by linarith
    split_ifs <;> first | omega | (exfalso; linarith)

theorem gridRound_err (e : ℤ) (q : ℚ) : |gridRound e q - q| ≤ pow2 e / 2 := by
  have hp := pow2_pos e
  have h1 := roundHalfEven_le (q / pow2 e)
  have h2 := roundHalfEven_ge (q / pow2 e)
  have hq : q = (q / pow2 e) * pow2 e := by field_simp
  unfold gridRound
  rw [abs_le]
  constructor
  · have := mul_le_mul_of_nonneg_right h2 (le_of_lt hp)
    nlinarith
  · have := mul_le_mul_of_nonneg_right h1 (le_of_lt hp)
    nlinarith

theorem gridRound_mono (e : ℤ) (q1 q2 : ℚ) (h : q1 ≤ q2) : gridRound e q1 ≤ gridRound e q2 := by
  have hp := pow2_pos e
  unfold gridRound
  apply mul_le_mul_of_nonneg_right _ (le_of_lt hp)
  have : q1 / pow2 e ≤ q2 / pow2 e := div_le_div_of_nonneg_right h (le_of_lt hp)
  exact_mod_cast roundHalfEven_mono _ _ this

theorem gridRound_fix (e : ℤ) (k : ℤ) : gridRound e ((k : ℚ) * pow2 e) = (k : ℚ) * pow2 e := by
  have hp := pow2_pos e
  unfold gridRound
  rw [mul_div_assoc, div_self (ne_of_gt hp), mul_one, roundHalfEven_intCast]

theorem gridRound_le_of (e : ℤ) (q : ℚ) (k : ℤ) (h : q ≤ (k : ℚ) * pow2 e) :
    gridRound e q ≤ (k : ℚ) * pow2 e := by
  rw [← gridRound_fix e k]
  exact gridRound_mono e _ _ h

theorem gridRound_ge_of (e : ℤ) (q : ℚ) (k : ℤ) (h : (k : ℚ) * pow2 e ≤ q) :
    (k : ℚ) * pow2 e ≤ gridRound e q := by
  rw [← gridRound_fix e k]
  exact gridRound_mono e _ _ h

theorem gridRound_nonneg (e : ℤ) (q : ℚ) (h : 0 ≤ q) : 0 ≤ gridRound e q := by
  have := gridRound_ge_of e q 0 (by simpa using h)
  simpa using this

theorem pow2_add_nat (e : ℤ) (n : ℕ) : pow2 (e + n) = ((2 ^ n : ℤ) : ℚ) * pow2 e := by
  rw [pow2_add, pow2_natCast, mul_comm]
  push_cast
  rfl

theorem ulpExp_ge (q : ℚ) : -1074 ≤ ulpExp q := by
  unfold ulpExp
  omega

theorem ulpExp_ge_log (q : ℚ) : log2Floor q - 52 ≤ ulpExp q := by
  unfold ulpExp
  omega

/-- Rounding a positive rational on its own grid stays below the next power of two. -/
theorem gridRound_ulp_le (q : ℚ) (hq : 0 < q) :
    gridRound (ulpExp q) q ≤ pow2 (ulpExp q + 53) := by
  obtain ⟨_, s2⟩ := log2Floor_spec q hq
  have h1 : pow2 (log2Floor q + 1) ≤ pow2 (ulpExp q + 53) := pow2_le (by
    have := ulpExp_ge_log q
    omega)
  have h2 : q ≤ ((2 ^ 53 : ℤ) : ℚ) * pow2 (ulpExp q) := by
    have := pow2_add_nat (ulpExp q) 53
    push_cast at this ⊢
    rw [← this]
    exact le_of_lt (lt_of_lt_of_le s2 h1)
  have h3 := gridRound_le_of (ulpExp q) q (2 ^ 53) h2
  have := pow2_add_nat (ulpExp q) 53
  push_cast at this h3 ⊢
  rw [this]
  exact h3

/-- Rounding on the own grid is monotone over the positive rationals. -/
theorem gridRound_ulp_mono (q1 q2 : ℚ) (h0 : 0 < q1) (h : q1 ≤ q2) :
    gridRound (ulpExp q1) q1 ≤ gridRound (ulpExp q2) q2 := by
  have he := ulpExp_mono q1 q2 h0 h
  rcases lt_or_eq_of_le he with hlt | heq
  · have hq2 : 0 < q2 := lt_of_lt_of_le h0 h
    have up := gridRound_ulp_le q1 h0
    have hL : ulpExp q2 = log2Floor q2 - 52 := by
      have := ulpExp_ge q1
      unfold ulpExp at hlt ⊢
      omega
    obtain ⟨t1, _⟩ := log2Floor_spec q2 hq2
    have hk : ((2 ^ 52 : ℤ) : ℚ) * pow2 (ulpExp q2) ≤ q2 := by
      have := pow2_add_nat (ulpExp q2) 52
      push_cast at this ⊢
      rw [← this]
      have e : ulpExp q2 + 52 = log2Floor q2 := by omega
      rw [e]
      exact t1
    have lo := gridRound_ge_of (ulpExp q2) q2 (2 ^ 52) hk
    have := pow2_add_nat (ulpExp q2) 52
    push_cast at this lo
    rw [← this] at lo
    have mid : pow2 (ulpExp q1 + 53) ≤ pow2 (ulpExp q2 + 52) := pow2_le (by omega)
    linarith
  · rw [heq]
    exact gridRound_mono _ _ _ h

/-- A positive integer multiple `m * 2 ^ e` with `m ≤ 2 ^ 53` and `e ≥ -1074` is a point of
its own grid. -/
theorem gridRound_ulp_fix (m : ℤ) (e : ℤ) (hm : 0 < m) (hm2 : m ≤ 2 ^ 53) (he : -1074 ≤ e) :
    gridRound (ulpExp ((m : ℚ) * pow2 e)) ((m : ℚ) * pow2 e) = (m : ℚ) * pow2 e := by
  have hmq : (0 : ℚ) < (m : ℚ) := by exact_mod_cast hm
  obtain ⟨m1, m2⟩ := log2Floor_spec (m : ℚ) hmq
  have hm2q : (m : ℚ) ≤ pow2 53 := by
    have : pow2 53 = ((2 ^ 53 : ℤ) : ℚ) := by
      have := pow2_add_nat 0 53
      simp only [zero_add, pow2_zero, mul_one] at this
      exact_mod_cast this
    rw [this]
    exact_mod_cast hm2
  have hLm53 : log2Floor (m : ℚ) ≤ 53 := by
    have : log2Floor (m : ℚ) < 53 + 1 := pow2_lt_iff.mp (lt_of_le_of_lt (le_trans m1 hm2q)
      (pow2_lt (by norm_num)))
    omega
  have hLm0 : 0 ≤ log2Floor (m : ℚ) := by
    have h1 : pow2 0 ≤ (m : ℚ) := by
      rw [pow2_zero]
      exact_mod_cast hm
    have : (0 : ℤ) < log2Floor (m : ℚ) + 1 := pow2_lt_iff.mp (lt_of_le_of_lt h1 m2)
    omega
  have hp := pow2_pos e
  have hL : log2Floor ((m : ℚ) * pow2 e) = log2Floor (m : ℚ) + e := by
    apply log2Floor_unique
    · rw [pow2_add]
      exact mul_le_mul_of_nonneg_right m1 (le_of_lt hp)
    · have : log2Floor (m : ℚ) + e + 1 = (log2Floor (m : ℚ) + 1) + e := by ring
      rw [this, pow2_add]
      exact mul_lt_mul_of_pos_right m2 hp
  have hu : ulpExp ((m : ℚ) * pow2 e) = max (log2Floor (m : ℚ) + e - 52) (-1074) := by
    unfold ulpExp
    rw [hL]
  rcases lt_or_eq_of_le hLm53 with hlt | heq
  · -- the grid of the value is at least as fine as `2 ^ e`
    have hle : ulpExp ((m : ℚ) * pow2 e) ≤ e := by
      rw [hu]
      omega
    obtain ⟨n, hn⟩ : ∃ n : ℕ, e = ulpExp ((m : ℚ) * pow2 e) + n :=
      ⟨(e - ulpExp ((m : ℚ) * pow2 e)).toNat, by
        rw [Int.toNat_of_nonneg (by omega)]
        ring⟩
    generalize ulpExp ((m : ℚ) * pow2 e) = u at hn
    have hform : (m : ℚ) * pow2 e = ((m * 2 ^ n : ℤ) : ℚ) * pow2 u := by
      conv_lhs => rw [hn, pow2_add_nat]
      push_cast
      ring
    rw [hform, gridRound_fix]
  · -- `m = 2 ^ 53`
    have hm53 : (m : ℚ) = pow2 53 := by
      apply le_antisymm hm2q
      rw [← heq]
      exact m1
    have hu2 : ulpExp ((m : ℚ) * pow2 e) = e + 1 := by
      rw [hu, heq]
      omega
    have hform : (m : ℚ) * pow2 e = ((2 ^ 52 : ℤ) : ℚ) * pow2 (e + 1) := by
      rw [hm53]
      have a := pow2_add_nat (e + 1) 52
      push_cast at a ⊢
      rw [← a, ← pow2_add]
      congr 1
      ring
    rw [hu2, hform, gridRound_fix]

theorem roundPos_zero : roundPos 0 = .fin 0 := by
  unfold roundPos
  simp

theorem toDouble_of_nonneg (q : ℚ) (h : 0 ≤ q) : toDouble q = roundPos q := by
  unfold toDouble
  rw [if_neg (not_lt.mpr h)]

theorem toDouble_of_neg (q : ℚ) (h : q < 0) : toDouble q = (roundPos (-q)).neg := by
  unfold toDouble
  rw [if_pos h]

theorem roundPos_fin (q r : ℚ) (hq : 0 < q) (h : roundPos q = .fin r) :
    r = gridRound (ulpExp q) q ∧ r < pow2 1024 := by
  unfold roundPos at h
  rw [if_neg (ne_of_gt hq)] at h
  split_ifs at h with h1
  injection h with h
  exact ⟨h.symm, by rw [← h]; exact not_le.mp h1⟩

theorem roundPos_of_lt (q : ℚ) (hq : 0 < q) (h : gridRound (ulpExp q) q < pow2 1024) :
    roundPos q = .fin (gridRound (ulpExp q) q) := by
  unfold roundPos
  rw [if_neg (ne_of_gt hq), if_neg (not_le.mpr h)]

theorem roundPos_nonneg (q r : ℚ) (hq : 0 ≤ q) (h : roundPos q = .fin r) : 0 ≤ r := by
  rcases lt_or_eq_of_le hq with hlt | heq
  · obtain ⟨hr, _⟩ := roundPos_fin q r hlt h
    rw [hr]
    exact gridRound_nonneg _ _ hq
  · rw [← heq, roundPos_zero] at h
    injection h with h
    exact le_of_eq h

/-- Rounding is monotone: below a rational with a finite double lie finite doubles only. -/
theorem roundPos_mono (q1 q2 r2 : ℚ) (h0 : 0 ≤ q1) (h : q1 ≤ q2) (h2 : roundPos q2 = .fin r2) :
    ∃ r1, roundPos q1 = .fin r1 ∧ r1 ≤ r2 := by
  rcases lt_or_eq_of_le h0 with hlt | heq
  · have hq2 : 0 < q2 := lt_of_lt_of_le hlt h
    obtain ⟨hr, hb⟩ := roundPos_fin q2 r2 hq2 h2
    have hm := gridRound_ulp_mono q1 q2 hlt h
    refine ⟨gridRound (ulpExp q1) q1, roundPos_of_lt q1 hlt (by rw [hr] at hb; linarith), ?_⟩
    rw [hr]
    exact hm
  · refine ⟨0, by rw [← heq]; exact roundPos_zero, ?_⟩
    exact roundPos_nonneg q2 r2 (le_trans h0 h) h2

theorem roundPos_of_form (m e : ℤ) (hm : 0 ≤ m) (hm2 : m ≤ 2 ^ 53) (he : -1074 ≤ e)
    (hlt : (m : ℚ) * pow2 e < pow2 1024) : roundPos ((m : ℚ) * pow2 e) = .fin ((m : ℚ) * pow2 e) := by
  rcases lt_or_eq_of_le hm with hpos | hz
  · have hq : 0 < (m : ℚ) * pow2 e := mul_pos (by exact_mod_cast hpos) (pow2_pos e)
    have hfix := gridRound_ulp_fix m e hpos hm2 he
    have := roundPos_of_lt _ hq (by rw [hfix]; exact hlt)
    rw [hfix] at this
    exact this
  · rw [← hz]
    simp [roundPos_zero]

theorem roundPos_form (q r : ℚ) (hq : 0 ≤ q) (h : roundPos q = .fin r) :
    ∃ m e : ℤ, 0 ≤ m ∧ m ≤ 2 ^ 53 ∧ -1074 ≤ e ∧ r = (m : ℚ) * pow2 e := by
  rcases lt_or_eq_of_le hq with hlt | heq
  · obtain ⟨hr, _⟩ := roundPos_fin q r hlt h
    refine ⟨roundHalfEven (q / pow2 (ulpExp q)), ulpExp q, ?_, ?_, ulpExp_ge q, hr⟩
    · apply roundHalfEven_ge_int
      simp only [Int.cast_zero]
      exact div_nonneg hq (le_of_lt (pow2_pos _))
    · apply roundHalfEven_le_int
      obtain ⟨_, s2⟩ := log2Floor_spec q hlt
      have h1 : pow2 (log2Floor q + 1) ≤ pow2 (ulpExp q + 53) := pow2_le (by
        have := ulpExp_ge_log q
        omega)
      have h3 := pow2_add_nat (ulpExp q) 53
      rw [div_le_iff₀ (pow2_pos _)]
      push_cast at h3 ⊢
      rw [← h3]
      exact le_of_lt (lt_of_lt_of_le s2 h1)
  · rw [← heq, roundPos_zero] at h
    injection h with h
    exact ⟨0, 0, le_refl _, by norm_num, by norm_num, by rw [← h]; simp⟩

theorem roundPos_lt (q r : ℚ) (hq : 0 ≤ q) (h : roundPos q = .fin r) : r < pow2 1024 := by
  rcases lt_or_eq_of_le hq with hlt | heq
  · exact (roundPos_fin q r hlt h).2
  · rw [← heq, roundPos_zero] at h
    injection h with h
    rw [← h]
    exact pow2_pos _

/-- The result of a rounding is a double. -/
theorem roundPos_idem (q r : ℚ) (hq : 0 ≤ q) (h : roundPos q = .fin r) : roundPos r = .fin r := by
  obtain ⟨m, e, hm, hm2, he, hr⟩ := roundPos_form q r hq h
  have hlt := roundPos_lt q r hq h
  rw [hr] at hlt ⊢
  exact roundPos_of_form m e hm hm2 he hlt

theorem pow2_53 : pow2 53 = 9007199254740992 := by
  decide!

theorem roundPos_intCast (n : ℤ) (h0 : 0 ≤ n) (h1 : n ≤ 2 ^ 53) : roundPos (n : ℚ) = .fin (n : ℚ) := by
  have := roundPos_of_form n 0 h0 h1 (by norm_num) (by
    rw [pow2_zero, mul_one]
    have a : (n : ℚ) ≤ pow2 53 := by
      rw [pow2_53]
      exact_mod_cast h1
    exact lt_of_le_of_lt a (pow2_lt (by norm_num)))
  rw [pow2_zero, mul_one] at this
  exact this

/-- In the normal range a rounding moves a rational by at most `2 ^ -53` of its size. -/
theorem roundPos_err (q r : ℚ) (hq : pow2 (-1022) ≤ q) (h : roundPos q = .fin r) :
    |r - q| ≤ q / 2 ^ 53 := by
  have hpos : 0 < q := lt_of_lt_of_le (pow2_pos _) hq
  obtain ⟨hr, _⟩ := roundPos_fin q r hpos h
  obtain ⟨s1, s2⟩ := log2Floor_spec q hpos
  have hL : -1022 ≤ log2Floor q := by
    have : (-1022 : ℤ) < log2Floor q + 1 := pow2_lt_iff.mp (lt_of_le_of_lt hq s2)
    omega
  have hu : ulpExp q = log2Floor q - 52 := by
    unfold ulpExp
    omega
  have herr := gridRound_err (ulpExp q) q
  rw [← hr] at herr
  have h53 := pow2_add_nat (ulpExp q - 1) 53
  have e1 : ulpExp q - 1 + ((53 : ℕ) : ℤ) = log2Floor q := by
    rw [hu]
    push_cast
    ring
  rw [e1] at h53
  have e2 : pow2 (ulpExp q) = 2 * pow2 (ulpExp q - 1) := by
    have := pow2_succ (ulpExp q - 1)
    rw [sub_add_cancel] at this
    exact this
  have hp := pow2_pos (ulpExp q - 1)
  push_cast at h53
  have : pow2 (ulpExp q) / 2 ≤ q / 2 ^ 53 := by
    rw [e2, le_div_iff₀ (by norm_num)]
    have : pow2 (ulpExp q - 1) * 2 ^ 53 ≤ q := by
      have h54 : pow2 (ulpExp q - 1) * 2 ^ 53 = pow2 (log2Floor q) := by
        rw [h53]
        norm_num
        ring
      rw [h54]
      exact s1
    linarith
  linarith

theorem toDouble_zero : toDouble 0 = .fin 0 := by
  rw [toDouble_of_nonneg 0 (le_refl _), roundPos_zero]

theorem isDouble_zero : IsDouble 0 := toDouble_zero

/-- Every finite result of a rounding is a double. -/
theorem toDouble_isDouble (q y : ℚ) (h : toDouble q = .fin y) : IsDouble y := by
  unfold IsDouble
  by_cases hq : q < 0
  · rw [toDouble_of_neg q hq] at h
    cases hr : roundPos (-q) with
    | NaN => rw [hr] at h; simp [Float64.neg] at h
    | posInf => rw [hr] at h; simp [Float64.neg] at h
    | negInf => rw [hr] at h; simp [Float64.neg] at h
    | fin r =>
      rw [hr] at h
      simp only [Float64.neg, Float64.fin.injEq] at h
      have hnn : 0 ≤ -q := by linarith
      have hr0 := roundPos_nonneg (-q) r hnn hr
      have hidem := roundPos_idem (-q) r hnn hr
      rcases lt_or_eq_of_le hr0 with hpos | hz
      · have hy : y < 0 := by linarith
        rw [toDouble_of_neg y hy]
        have : -y = r := by linarith
        rw [this, hidem]
        simp [Float64.neg, h]
      · have : y = 0 := by linarith
        rw [this]
        exact toDouble_zero
  · have hnn : 0 ≤ q := not_lt.mp hq
    rw [toDouble_of_nonneg q hnn] at h
    have hy := roundPos_nonneg q y hnn h
    rw [toDouble_of_nonneg y hy]
    exact roundPos_idem q y hnn h

theorem toDouble_intCast (n : ℤ) (h0 : 0 ≤ n) (h1 : n ≤ 2 ^ 53) : toDouble (n : ℚ) = .fin (n : ℚ) := by
  rw [toDouble_of_nonneg _ (by exact_mod_cast h0)]
  exact roundPos_intCast n h0 h1

theorem mathRound_intCast (k : ℤ) : mathRound (k : ℚ) = (k : ℚ) := by
  unfold mathRound
  rw [ratFloor_eq]
  have : ⌊(k : ℚ) + 1 / 2⌋ = k := by
    rw [Int.floor_eq_iff]
    constructor <;> norm_num
  rw [this]

/-- `Math.max(0, Math.round(y))` of a double is a non-negative integer and a double. -/
theorem mathMax_mathRound_isDouble (y : ℚ) (hy : IsDouble y) :
    ∃ k : ℤ, 0 ≤ k ∧ mathMax 0 (mathRound y) = (k : ℚ) ∧ IsDouble (k : ℚ) := by
  by_cases hr : 0 ≤ mathRound y
  · have hmax : mathMax 0 (mathRound y) = mathRound y := by
      unfold mathMax
      rw [if_pos hr]
    have hk0 : 0 ≤ Rat.floor (y + 1 / 2) := by
      unfold mathRound at hr
      exact_mod_cast hr
    refine ⟨Rat.floor (y + 1 / 2), hk0, by rw [hmax]; rfl, ?_⟩
    have hfl : (0 : ℚ) ≤ y + 1 / 2 := by
      rw [ratFloor_eq] at hk0
      have := Int.floor_le (y + 1 / 2)
      have h2 : (0 : ℚ) ≤ (⌊y + 1 / 2⌋ : ℚ) := by exact_mod_cast hk0
      linarith
    by_cases hyneg : y < 0
    · -- the floor is 0
      have : Rat.floor (y + 1 / 2) = 0 := by
        rw [ratFloor_eq, Int.floor_eq_iff]
        constructor
        · simpa using hfl
        · simp only [Int.cast_zero, zero_add]
          linarith
      rw [this]
      exact isDouble_zero
    · have hy0 : 0 ≤ y := not_lt.mp hyneg
      have hrp : roundPos y = .fin y := by
        have := hy
        unfold IsDouble at this
        rw [toDouble_of_nonneg y hy0] at this
        exact this
      obtain ⟨m, e, hm, hm2, he, hform⟩ := roundPos_form y y hy0 hrp
      by_cases he0 : 0 ≤ e
      · -- `y` is an integer
        obtain ⟨n, hn⟩ : ∃ n : ℕ, e = (n : ℤ) := ⟨e.toNat, (Int.toNat_of_nonneg he0).symm⟩
        have hyint : y = ((m * 2 ^ n : ℤ) : ℚ) := by
          rw [hform, hn, pow2_natCast]
          push_cast
          ring
        have hfloor : ((Rat.floor (y + 1 / 2) : ℤ) : ℚ) = y := by
          have := mathRound_intCast (m * 2 ^ n)
          unfold mathRound at this
          rw [← hyint] at this
          exact this
        unfold IsDouble
        rw [hfloor]
        exact hy
      · -- `y ≤ 2 ^ 52`
        have he1 : e ≤ -1 := by omega
        have hp : pow2 e ≤ 1 / 2 := by
          have := pow2_le he1
          have h2 : pow2 (-1) = 1 / 2 := by decide!
          rw [h2] at this
          exact this
        have hmq : (m : ℚ) ≤ 9007199254740992 := by exact_mod_cast hm2
        have hm0 : (0 : ℚ) ≤ (m : ℚ) := by exact_mod_cast hm
        have hyle : y ≤ 4503599627370496 := by
          rw [hform]
          have := mul_le_mul hmq hp (le_of_lt (pow2_pos e)) (by norm_num)
          linarith
        have hk1 : Rat.floor (y + 1 / 2) ≤ 2 ^ 53 := by
          rw [ratFloor_eq]
          have h1 := Int.floor_le (y + 1 / 2)
          have h2 : ((⌊y + 1 / 2⌋ : ℤ) : ℚ) ≤ 9007199254740992 := by linarith
          have h3 : (⌊y + 1 / 2⌋ : ℤ) ≤ 9007199254740992 := by exact_mod_cast h2
          norm_num
          exact h3
        exact toDouble_intCast _ hk0 hk1
  · have hmax : mathMax 0 (mathRound y) = 0 := by
      unfold mathMax
      rw [if_neg hr]
    exact ⟨0, le_refl _, by rw [hmax]; simp, by simpa using isDouble_zero⟩

/-! ### Conversion in double precision -/

theorem convertToGBP64_pos (EXCHANGES : List Exchange) (p : ℚ) (code : String) (rates : Rates64)
    (hp : 0 < p) :
    convertToGBP64 EXCHANGES (.fin p) code rates =
      if currencyOf EXCHANGES code = "GBX" then
        some ((mathRound64 (((Float64.fin p).div (.fin 100)).mul (.fin 100))).div (.fin 100))
      else if currencyOf EXCHANGES code = "USD" then
        some ((mathRound64 (((Float64.fin p).mul rates.usdGbp).mul (.fin 100))).div (.fin 100))
      else if currencyOf EXCHANGES code = "EUR" then
        some ((mathRound64 ((((Float64.fin p).mul rates.usdGbp).div rates.usdEur).mul
          (.fin 100))).div (.fin 100))
      else
        some ((mathRound64 (((Float64.fin p).mul rates.usdGbp).mul (.fin 100))).div (.fin 100)) := by
  have h : (!(Float64.fin p).isFinite || (Float64.fin p).leZero) = false := by
    simp [Float64.isFinite, Float64.leZero, hp]
  unfold convertToGBP64
  rw [h]
  rfl

/-! ### The price cache in double precision -/

theorem fetchFxSpot64_priceCache (P : Provider) (now : ℤ) (s1 : State64) :
    (fetchFxSpot64 P now s1).2.priceCache = s1.priceCache := by
  unfold fetchFxSpot64
  cases h1 : P.candle s1.log.length "OANDA:GBP_USD" with
  | none => rfl
  | some c1 =>
    cases h2 : P.candle (s1.issue (.forexCandle "OANDA:GBP_USD")).log.length "OANDA:EUR_USD" with
    | none => simp only [h2]; rfl
    | some c2 =>
      simp only [h2]
      cases h3 : ratesOfCandles64 c1 c2 <;> rfl

theorem fetchFxRates64_priceCache (P : Provider) (now : ℤ) (s : State64) :
    (fetchFxRates64 P now s).2.priceCache = s.priceCache := by
  unfold fetchFxRates64
  cases h0 : s.fxCache.filter (fun c => decide (now - c.ts < TTL_MS)) with
  | some c => rfl
  | none =>
    simp only []
    cases h1 : (P.rates s.log.length).bind (fun p => ratesOfPayload64 p.1 p.2) with
    | some val => rfl
    | none =>
      simp only []
      rw [fetchFxSpot64_priceCache]
      rfl

theorem convertToGBP64_form (EXCHANGES : List Exchange) (p : Float64) (code : String)
    (rates : Rates64) (g : Float64) (h : convertToGBP64 EXCHANGES p code rates = some g) :
    ∃ y, g = (mathRound64 y).div (.fin 100) := by
  unfold convertToGBP64 at h
  simp only [] at h
  split_ifs at h <;> exact ⟨_, (Option.some.inj h).symm⟩

theorem div_hundred_form (y : Float64) (h : ((mathRound64 y).div (.fin 100)).gtZero = true) :
    (mathRound64 y).div (.fin 100) = .posInf ∨
    ∃ n : ℤ, (mathRound64 y).div (.fin 100) = toDouble ((n : ℚ) / 100) := by
  cases y with
  | NaN => simp [mathRound64, Float64.div, Float64.gtZero] at h
  | posInf => left; simp [mathRound64, Float64.div]
  | negInf => simp [mathRound64, Float64.div, Float64.gtZero] at h
  | fin q =>
    right
    refine ⟨Rat.floor (q + 1 / 2), ?_⟩
    simp [mathRound64, Float64.div, mathRound]

theorem convertToGBP64_priceOk (EXCHANGES : List Exchange) (p : Float64) (code : String)
    (rates : Rates64) (g : Float64) (h : convertToGBP64 EXCHANGES p code rates = some g)
    (hg : g.gtZero = true) : PriceOk64 g := by
  obtain ⟨y, hy⟩ := convertToGBP64_form _ _ _ _ _ h
  refine ⟨hg, ?_⟩
  rw [hy] at hg ⊢
  exact div_hundred_form y hg

theorem fetchPriceMiss64_some (EXCHANGES : List Exchange) (P : Provider) (now : ℤ)
    (ticker exchangeCode key : String) (s : State64) (p : Float64)
    (h : (fetchPriceMiss64 EXCHANGES P now ticker exchangeCode key s).1 = some p) :
    PriceOk64 p ∧
    (fetchPriceMiss64 EXCHANGES P now ticker exchangeCode key s).2.priceCache
      = mapSet s.priceCache key { price := p, ts := now } := by
  unfold fetchPriceMiss64 at h ⊢
  simp only [] at h ⊢
  cases h1 : P.quote (fetchFxRates64 P now s).2.log.length
      (mapSymbolForExchange EXCHANGES ticker exchangeCode) with
  | none => simp [h1] at h
  | some raw =>
    simp only [h1] at h ⊢
    cases h2 : convertToGBP64 EXCHANGES (numberOfNullable64 raw) exchangeCode
        (fetchFxRates64 P now s).1 with
    | none => simp [h2] at h
    | some gbp =>
      simp only [h2] at h ⊢
      by_cases hg : (gbp.truthy && gbp.gtZero) = true
      · rw [if_pos hg] at h ⊢
        have hp : gbp = p := Option.some.inj h
        subst hp
        have hpos : gbp.gtZero = true := by
          simp only [Bool.and_eq_true] at hg
          exact hg.2
        refine ⟨convertToGBP64_priceOk _ _ _ _ _ h2 hpos, ?_⟩
        simp [State64.issue, fetchFxRates64_priceCache]
      · rw [if_neg hg] at h
        cases h

theorem fetchPriceMiss64_none (EXCHANGES : List Exchange) (P : Provider) (now : ℤ)
    (ticker exchangeCode key : String) (s : State64)
    (h : (fetchPriceMiss64 EXCHANGES P now ticker exchangeCode key s).1 = none) :
    (fetchPriceMiss64 EXCHANGES P now ticker exchangeCode key s).2.priceCache = s.priceCache := by
  unfold fetchPriceMiss64 at h ⊢
  simp only [] at h ⊢
  cases h1 : P.quote (fetchFxRates64 P now s).2.log.length
      (mapSymbolForExchange EXCHANGES ticker exchangeCode) with
  | none => simp [State64.issue, fetchFxRates64_priceCache]
  | some raw =>
    simp only [h1] at h ⊢
    cases h2 : convertToGBP64 EXCHANGES (numberOfNullable64 raw) exchangeCode
        (fetchFxRates64 P now s).1 with
    | none => simp [State64.issue, fetchFxRates64_priceCache]
    | some gbp =>
      simp only [h2] at h ⊢
      by_cases hg : (gbp.truthy && gbp.gtZero) = true
      · rw [if_pos hg] at h
        cases h
      · rw [if_neg hg]
        simp [State64.issue, fetchFxRates64_priceCache]

theorem fetchPriceMiss64_priceOk (EXCHANGES : List Exchange) (P : Provider) (now : ℤ)
    (ticker exchangeCode key : String) (s : State64)
    (hinv : ∀ x ∈ s.priceCache, PriceOk64 x.2.price) :
    (∀ x ∈ (fetchPriceMiss64 EXCHANGES P now ticker exchangeCode key s).2.priceCache,
      PriceOk64 x.2.price) ∧
    ((fetchPriceMiss64 EXCHANGES P now ticker exchangeCode key s).1 = none ∨
      ∃ p, (fetchPriceMiss64 EXCHANGES P now ticker exchangeCode key s).1 = some p ∧
        PriceOk64 p) := by
  cases hres : (fetchPriceMiss64 EXCHANGES P now ticker exchangeCode key s).1 with
  | none =>
    refine ⟨?_, Or.inl rfl⟩
    rw [fetchPriceMiss64_none _ _ _ _ _ _ _ hres]
    exact hinv
  | some p =>
    obtain ⟨hok, hcache⟩ := fetchPriceMiss64_some _ _ _ _ _ _ _ p hres
    refine ⟨?_, Or.inr ⟨p, rfl, hok⟩⟩
    rw [hcache]
    intro x hx
    rcases mem_mapSet _ _ _ x hx with h1 | h1
    · exact hinv x h1
    · rw [h1]
      exact hok

theorem fetchPriceGBP64_priceOk (EXCHANGES : List Exchange) (P : Provider) (now : ℤ)
    (ticker exchangeCode : String) (s : State64)
    (hinv : ∀ x ∈ s.priceCache, PriceOk64 x.2.price) :
    (∀ x ∈ (fetchPriceGBP64 EXCHANGES P now ticker exchangeCode s).2.priceCache,
      PriceOk64 x.2.price) ∧
    ((fetchPriceGBP64 EXCHANGES P now ticker exchangeCode s).1 = none ∨
      ∃ p, (fetchPriceGBP64 EXCHANGES P now ticker exchangeCode s).1 = some p ∧
        PriceOk64 p) := by
  unfold fetchPriceGBP64
  simp only []
  cases hc : mapGet s.priceCache (makeKey (upperTrim ticker) (upperTrim exchangeCode)) with
  | none => exact fetchPriceMiss64_priceOk _ _ _ _ _ _ _ hinv
  | some c =>
    simp only []
    by_cases hfresh : c.price.gtZero = true ∧ now - c.ts < TTL_MS
    · rw [if_pos hfresh]
      exact ⟨hinv, Or.inr ⟨c.price, rfl, hinv _ (mapGet_mem _ _ _ hc)⟩⟩
    · rw [if_neg hfresh]
      exact fetchPriceMiss64_priceOk _ _ _ _ _ _ _ hinv

/-! ### The handler in double precision -/

theorem buildResults64_ok (pm : List (String × Option Float64)) (ns : List Normalized64)
    (rows : List ResultRow64) (h : buildResults64 pm ns = .ok rows) :
    (∀ n ∈ ns, n.name ≠ "" ∧ n.ticker ≠ "") ∧ rows = ns.map (resultRow64 pm) := by
  induction ns generalizing rows with
  | nil =>
    simp only [buildResults64, Except.ok.injEq] at h
    subst h
    simp
  | cons n ns ih =>
    simp only [buildResults64] at h
    split_ifs at h with hbad
    cases hrest : buildResults64 pm ns with
    | error e => simp [hrest] at h
    | ok rs =>
      simp only [hrest, Except.ok.injEq] at h
      obtain ⟨hv, hrs⟩ := ih rs hrest
      push_neg at hbad
      subst h
      refine ⟨?_, by simp [hrs]⟩
      intro m hm
      rcases List.mem_cons.mp hm with rfl | hm2
      · exact hbad
      · exact hv m hm2

theorem valueHoldings64_ok (EXCHANGES : List Exchange) (P : Provider) (now : ℤ) (s : State64)
    (hs : List HoldingInput) (rows : List ResultRow64) (total : Float64)
    (h : (valueHoldings64 EXCHANGES P now s hs).1 = .ok rows total) :
    hs ≠ [] ∧ (∀ n ∈ hs.map normalize64, n.name ≠ "" ∧ n.ticker ≠ "") ∧
    total = totalOf64 ((hs.map normalize64).map
      (resultRow64 (priceMapOf64 EXCHANGES P now s hs))) ∧
    rows = ((hs.map normalize64).map (resultRow64 (priceMapOf64 EXCHANGES P now s hs))).map
      (withWeight64 total) := by
  unfold valueHoldings64 at h
  split_ifs at h with hlen
  have hne : hs ≠ [] := fun h0 => hlen (by simp [h0])
  cases hb : buildResults64 (priceMapOf64 EXCHANGES P now s hs) (hs.map normalize64) with
  | error e => simp [hb] at h
  | ok rs =>
    simp only [hb, Reply64.ok.injEq] at h
    obtain ⟨hv, hrs⟩ := buildResults64_ok _ _ _ hb
    obtain ⟨h1, h2⟩ := h
    subst hrs
    exact ⟨hne, hv, h2.symm, by rw [← h1, h2]⟩

theorem rows64_getElem (EXCHANGES : List Exchange) (P : Provider) (now : ℤ) (s : State64)
    (hs : List HoldingInput) (rows : List ResultRow64) (total : Float64)
    (hok : (valueHoldings64 EXCHANGES P now s hs).1 = .ok rows total)
    (i : Nat) (hi : HoldingInput) (hget : hs[i]? = some hi) :
    rows[i]? = some (withWeight64 total
      (resultRow64 (priceMapOf64 EXCHANGES P now s hs) (normalize64 hi))) := by
  obtain ⟨_, _, _, hrows⟩ := valueHoldings64_ok _ _ _ _ _ _ _ hok
  rw [hrows]
  simp [List.getElem?_map, hget]

/-! ### Values and totals in double precision -/

theorem isValue64_zero : IsValue64 (.fin 0) :=
  Or.inr (Or.inr ⟨0, le_refl _, rfl, isDouble_zero⟩)

theorem mul_isDouble (a b : Float64) (y : ℚ) (h : a.mul b = .fin y) : IsDouble y := by
  cases a <;> cases b <;> simp only [Float64.mul] at h <;>
    first
    | exact toDouble_isDouble _ _ h
    | cases h
    | (split_ifs at h)

theorem ofJSNumber_isDouble (x : JSNumber) (y : ℚ) (h : ofJSNumber x = .fin y) : IsDouble y := by
  cases x with
  | NaN => simp [ofJSNumber] at h
  | fin q => exact toDouble_isDouble q y h

theorem orZero_isDouble (x : Float64) (hx : ∀ y, x = .fin y → IsDouble y) (y : ℚ)
    (h : x.orZero = .fin y) : IsDouble y := by
  unfold Float64.orZero at h
  split_ifs at h
  · exact hx y h
  · injection h with h
    rw [← h]
    exact isDouble_zero

/-- `Math.max(0, Math.round(x))` of a number whose finite values are doubles. -/
theorem mathMax64_round (x : Float64) (hx : ∀ y, x = .fin y → IsDouble y) :
    mathMax64 (.fin 0) (mathRound64 x) = .NaN ∨ mathMax64 (.fin 0) (mathRound64 x) = .posInf ∨
    ∃ k : ℤ, 0 ≤ k ∧ mathMax64 (.fin 0) (mathRound64 x) = .fin (k : ℚ) ∧ IsDouble (k : ℚ) := by
  cases x with
  | NaN => left; rfl
  | posInf => right; left; rfl
  | negInf =>
    right; right
    exact ⟨0, le_refl _, by simp [mathRound64, mathMax64], by simpa using isDouble_zero⟩
  | fin y =>
    right; right
    obtain ⟨k, hk0, hk, hd⟩ := mathMax_mathRound_isDouble y (hx y rfl)
    exact ⟨k, hk0, by simp [mathRound64, mathMax64, hk], hd⟩

/-- The value of a row is `NaN`, `Infinity`, or a non-negative integer that is a double. -/
theorem resultRow64_value (pm : List (String × Option Float64)) (h : HoldingInput) (v : Float64)
    (hv : (resultRow64 pm (normalize64 h)).value = some v) :
    v = .NaN ∨ v = .posInf ∨ ∃ k : ℤ, 0 ≤ k ∧ v = .fin (k : ℚ) ∧ IsDouble (k : ℚ) := by
  have hsh : ∀ y, (normalize64 h).shares = .fin y → IsDouble y := by
    intro y hy
    exact orZero_isDouble _ (ofJSNumber_isDouble h.shares) y hy
  unfold resultRow64 at hv
  split_ifs at hv with hc
  · simp only [Option.some.injEq] at hv
    rw [← hv]
    split_ifs with hfin
    · apply mathMax64_round
      intro y hy
      cases hval : (normalize64 h).value with
      | none =>
        rw [hval] at hy
        exact hsh y hy
      | some c =>
        rw [hval] at hy
        simp only at hy
        have hc2 : h.value.map ofJSNumber = some c := hval
        cases hraw : h.value with
        | none => rw [hraw] at hc2; cases hc2
        | some raw =>
          rw [hraw] at hc2
          simp only [Option.map_some', Option.some.injEq] at hc2
          rw [← hc2] at hy
          exact ofJSNumber_isDouble raw y hy
    · right; right
      exact ⟨0, le_refl _, by simp, by simpa using isDouble_zero⟩
  · simp only at hv
    cases hp : resolvePrice64 pm (normalize64 h) with
    | none => rw [hp] at hv; cases hv
    | some p =>
      rw [hp] at hv
      simp only [Option.map_some', Option.some.injEq] at hv
      rw [← hv]
      apply mathMax64_round
      intro y hy
      exact mul_isDouble _ _ y hy

theorem valueOrZero64_isValue (pm : List (String × Option Float64)) (h : HoldingInput) :
    IsValue64 (valueOrZero64 (resultRow64 pm (normalize64 h))) := by
  unfold valueOrZero64
  cases hv : (resultRow64 pm (normalize64 h)).value with
  | none => exact isValue64_zero
  | some v =>
    rcases resultRow64_value pm h v hv with h1 | h1 | ⟨k, hk, h1, h2⟩
    · exact Or.inl h1
    · exact Or.inr (Or.inl h1)
    · exact Or.inr (Or.inr ⟨k, by exact_mod_cast hk, h1, h2⟩)

theorem add_fin_inv (a b : Float64) (t : ℚ) (h : a.add b = .fin t) :
    ∃ x y, a = .fin x ∧ b = .fin y ∧ toDouble (x + y) = .fin t := by
  cases a <;> cases b <;> simp only [Float64.add] at h <;>
    first
    | exact ⟨_, _, rfl, rfl, h⟩
    | cases h

theorem add_ne_nan (a b : Float64) (h : a.add b ≠ .NaN) : a ≠ .NaN ∧ b ≠ .NaN := by
  cases a <;> cases b <;> simp [Float64.add] at h ⊢

/-- The sum of two non-negative doubles is `Infinity` or a double not below either. -/
theorem add_isValue (a b : Float64) (ha : IsValue64 a) (hb : IsValue64 b) :
    IsValue64 (a.add b) ∧
    ∀ x y t, a = .fin x → b = .fin y → a.add b = .fin t → x ≤ t ∧ y ≤ t := by
  rcases ha with rfl | rfl | ⟨x, hx, rfl, hxd⟩
  · exact ⟨Or.inl (by cases b <;> rfl), by intro x y t h; cases h⟩
  · rcases hb with rfl | rfl | ⟨y, hy, rfl, hyd⟩
    · exact ⟨Or.inl rfl, by intro x y t h; cases h⟩
    · exact ⟨Or.inr (Or.inl rfl), by intro x y t h; cases h⟩
    · exact ⟨Or.inr (Or.inl rfl), by intro x y t h; cases h⟩
  · rcases hb with rfl | rfl | ⟨y, hy, rfl, hyd⟩
    · exact ⟨Or.inl rfl, by intro x y t _ h; cases h⟩
    · exact ⟨Or.inr (Or.inl rfl), by intro x y t _ h; cases h⟩
    · have hsum : 0 ≤ x + y := by linarith
      have hadd : (Float64.fin x).add (.fin y) = roundPos (x + y) := by
        simp only [Float64.add]
        exact toDouble_of_nonneg _ hsum
      have hxr : roundPos x = .fin x := by
        rw [← toDouble_of_nonneg x hx]
        exact hxd
      have hyr : roundPos y = .fin y := by
        rw [← toDouble_of_nonneg y hy]
        exact hyd
      have hbound : ∀ t, roundPos (x + y) = .fin t → x ≤ t ∧ y ≤ t := by
        intro t ht
        obtain ⟨r1, h1, h1le⟩ := roundPos_mono x (x + y) t hx (by linarith) ht
        obtain ⟨r2, h2, h2le⟩ := roundPos_mono y (x + y) t hy (by linarith) ht
        rw [hxr] at h1
        rw [hyr] at h2
        injection h1 with h1
        injection h2 with h2
        rw [h1, h2]
        exact ⟨h1le, h2le⟩
      constructor
      · rw [hadd]
        cases hr : roundPos (x + y) with
        | NaN =>
          unfold roundPos at hr
          split_ifs at hr
        | posInf => exact Or.inr (Or.inl rfl)
        | negInf =>
          unfold roundPos at hr
          split_ifs at hr
        | fin t =>
          refine Or.inr (Or.inr ⟨t, roundPos_nonneg _ _ hsum hr, rfl, ?_⟩)
          unfold IsDouble
          rw [toDouble_of_nonneg t (roundPos_nonneg _ _ hsum hr)]
          exact roundPos_idem _ _ hsum hr
      · intro x2 y2 t h1 h2 h3
        injection h1 with h1
        injection h2 with h2
        rw [hadd] at h3
        rw [← h1, ← h2]
        exact hbound t h3

/-- Adding up values from the left: a finite total bounds the start and every value. -/
theorem foldl_add_isValue (vs : List Float64) (hvs : ∀ v ∈ vs, IsValue64 v) (acc : Float64)
    (hacc : IsValue64 acc) :
    IsValue64 (vs.foldl Float64.add acc) ∧
    (∀ t, vs.foldl Float64.add acc = .fin t →
      (∃ a, acc = .fin a ∧ a ≤ t) ∧ ∀ v ∈ vs, ∃ q, v = .fin q ∧ q ≤ t) ∧
    (vs.foldl Float64.add acc ≠ .NaN → acc ≠ .NaN ∧ ∀ v ∈ vs, v ≠ .NaN) := by
  induction vs generalizing acc with
  | nil =>
    simp only [List.foldl_nil, List.not_mem_nil, false_implies, implies_true, and_true]
    exact ⟨hacc, fun t ht => ⟨t, ht, le_refl _⟩, fun h => h⟩
  | cons v vs ih =>
    have hv := hvs v (List.mem_cons_self _ _)
    have hrest : ∀ w ∈ vs, IsValue64 w := fun w hw => hvs w (List.mem_cons_of_mem _ hw)
    obtain ⟨hsum, hle⟩ := add_isValue acc v hacc hv
    obtain ⟨i1, i2, i3⟩ := ih hrest (acc.add v) hsum
    simp only [List.foldl_cons]
    refine ⟨i1, ?_, ?_⟩
    · intro t ht
      obtain ⟨⟨a2, ha2, ha2le⟩, hall⟩ := i2 t ht
      obtain ⟨x, y, hx, hy, _⟩ := add_fin_inv acc v a2 ha2
      obtain ⟨hxle, hyle⟩ := hle x y a2 hx hy ha2
      refine ⟨⟨x, hx, le_trans hxle ha2le⟩, ?_⟩
      intro w hw
      rcases List.mem_cons.mp hw with rfl | hw2
      · exact ⟨y, hy, le_trans hyle ha2le⟩
      · exact hall w hw2
    · intro hne
      obtain ⟨j1, j2⟩ := i3 hne
      obtain ⟨k1, k2⟩ := add_ne_nan acc v j1
      refine ⟨k1, ?_⟩
      intro w hw
      rcases List.mem_cons.mp hw with rfl | hw2
      · exact k2
      · exact j2 w hw2

theorem totalOf64_eq_foldl (rows : List ResultRow64) :
    totalOf64 rows = (rows.map valueOrZero64).foldl Float64.add (.fin 0) := by
  unfold totalOf64
  rw [List.foldl_map]

theorem valueOrZero64_int (pm : List (String × Option Float64)) (h : HoldingInput) (q : ℚ)
    (hq : valueOrZero64 (resultRow64 pm (normalize64 h)) = .fin q) :
    ∃ k : ℤ, 0 ≤ k ∧ q = (k : ℚ) := by
  unfold valueOrZero64 at hq
  cases hv : (resultRow64 pm (normalize64 h)).value with
  | none =>
    rw [hv] at hq
    injection hq with hq
    exact ⟨0, le_refl _, by rw [← hq]; simp⟩
  | some v =>
    rw [hv] at hq
    simp only at hq
    rcases resultRow64_value pm h v hv with h1 | h1 | ⟨k, hk, h1, _⟩
    · rw [h1] at hq; cases hq
    · rw [h1] at hq; cases hq
    · rw [h1] at hq
      injection hq with hq
      exact ⟨k, hk, hq.symm⟩

/-- Adding non-negative integers from the left is exact while the sum stays within 2 ^ 53. -/
theorem foldl_add_exact (qs : List ℚ) (hqs : ∀ q ∈ qs, ∃ k : ℤ, 0 ≤ k ∧ q = (k : ℚ)) (a : ℤ)
    (ha : 0 ≤ a) (hsum : (a : ℚ) + qs.sum ≤ 2 ^ 53) :
    (qs.map Float64.fin).foldl Float64.add (.fin (a : ℚ)) = .fin ((a : ℚ) + qs.sum) := by
  induction qs generalizing a with
  | nil => simp
  | cons q qs ih =>
    obtain ⟨k, hk, rfl⟩ := hqs q (List.mem_cons_self _ _)
    have hrest : ∀ q ∈ qs, ∃ k : ℤ, 0 ≤ k ∧ q = (k : ℚ) :=
      fun q hq => hqs q (List.mem_cons_of_mem _ hq)
    have hnn : (0 : ℚ) ≤ qs.sum := by
      apply List.sum_nonneg
      intro x hx
      obtain ⟨j, hj, rfl⟩ := hrest x hx
      exact_mod_cast hj
    simp only [List.sum_cons] at hsum
    have hak : ((a + k : ℤ) : ℚ) ≤ 2 ^ 53 := by
      push_cast
      linarith
    have hak2 : a + k ≤ 2 ^ 53 := by exact_mod_cast hak
    have hstep : (Float64.fin (a : ℚ)).add (.fin (k : ℚ)) = .fin ((a + k : ℤ) : ℚ) := by
      simp only [Float64.add]
      have := toDouble_intCast (a + k) (by omega) hak2
      push_cast at this ⊢
      exact this
    simp only [List.map_cons, List.foldl_cons, List.sum_cons]
    rw [hstep, ih hrest (a + k) (by omega) (by push_cast; linarith)]
    push_cast
    ring_nf

/-- The total of an answer whose values are all finite and add up to at most 2 ^ 53. -/
theorem valueHoldings64_total_exact (EXCHANGES : List Exchange) (P : Provider) (now : ℤ)
    (s : State64) (hs : List HoldingInput) (rows : List ResultRow64) (total : Float64)
    (hok : (valueHoldings64 EXCHANGES P now s hs).1 = .ok rows total) (qs : List ℚ)
    (hqs : rows.map valueOrZero64 = qs.map Float64.fin) (hsum : qs.sum ≤ 2 ^ 53) :
    total = .fin qs.sum ∧ ∀ q ∈ qs, ∃ k : ℤ, 0 ≤ k ∧ q = (k : ℚ) := by
  obtain ⟨_, _, htot, hrows⟩ := valueHoldings64_ok _ _ _ _ _ _ _ hok
  have hvals : rows.map valueOrZero64
      = ((hs.map normalize64).map (resultRow64 (priceMapOf64 EXCHANGES P now s hs))).map
          valueOrZero64 := by
    rw [hrows]
    simp only [List.map_map]
    rfl
  have hfold : total = (rows.map valueOrZero64).foldl Float64.add (.fin 0) := by
    rw [hvals, ← totalOf64_eq_foldl]
    exact htot
  have hint : ∀ q ∈ qs, ∃ k : ℤ, 0 ≤ k ∧ q = (k : ℚ) := by
    intro q hq
    have hmem : Float64.fin q ∈ rows.map valueOrZero64 := by
      rw [hqs]
      exact List.mem_map.mpr ⟨q, hq, rfl⟩
    rw [hvals] at hmem
    simp only [List.map_map, List.mem_map, Function.comp] at hmem
    obtain ⟨h, _, hh⟩ := hmem
    exact valueOrZero64_int _ h q hh
  refine ⟨?_, hint⟩
  have := foldl_add_exact qs hint 0 (le_refl _) (by simpa using hsum)
  rw [hfold, hqs]
  simpa using this

theorem roundPos_one : roundPos 1 = .fin 1 := by
  have := roundPos_intCast 1 (by norm_num) (by norm_num)
  simpa using this

/-- Rounding a rational between 0 and an integer `n ≤ 2 ^ 53` stays between 0 and `n`. -/
theorem toDouble_between (q : ℚ) (n : ℤ) (h0 : 0 ≤ q) (hn : q ≤ (n : ℚ)) (hn2 : n ≤ 2 ^ 53) :
    ∃ r, toDouble q = .fin r ∧ 0 ≤ r ∧ r ≤ (n : ℚ) := by
  have hn0 : 0 ≤ n := by
    have : (0 : ℚ) ≤ (n : ℚ) := le_trans h0 hn
    exact_mod_cast this
  obtain ⟨r, hr, hle⟩ := roundPos_mono q (n : ℚ) (n : ℚ) h0 hn (roundPos_intCast n hn0 hn2)
  rw [toDouble_of_nonneg q h0]
  exact ⟨r, hr, roundPos_nonneg q r h0 hr, hle⟩

/-- The weight of a finite value within a finite positive total. -/
theorem weight64_range (q t : ℚ) (hq : 0 ≤ q) (hqt : q ≤ t) (ht : 0 < t) :
    ∃ (w : ℚ) (k : ℤ),
      (mathRound64 (((Float64.fin q).div (.fin t)).mul (.fin 1000))).div (.fin 10) = .fin w ∧
      0 ≤ w ∧ w ≤ 100 ∧ 0 ≤ k ∧ k ≤ 1000 ∧
      (mathRound64 (((Float64.fin q).div (.fin t)).mul (.fin 1000))).div (.fin 10)
        = toDouble ((k : ℚ) / 10) := by
  have hdiv : (Float64.fin q).div (.fin t) = toDouble (q / t) := by
    simp [Float64.div, ne_of_gt ht]
  have hq1 : q / t ≤ ((1 : ℤ) : ℚ) := by
    rw [Int.cast_one, div_le_one ht]
    exact hqt
  obtain ⟨r1, hr1, h10, h11⟩ := toDouble_between (q / t) 1 (div_nonneg hq (le_of_lt ht)) hq1
    (by norm_num)
  have h2 : r1 * 1000 ≤ ((1000 : ℤ) : ℚ) := by
    push_cast at h11 ⊢
    linarith
  obtain ⟨r2, hr2, h20, h21⟩ := toDouble_between (r1 * 1000) 1000 (by positivity) h2
    (by norm_num)
  have hk0 : 0 ≤ Rat.floor (r2 + 1 / 2) := by
    have := mathRound_nonneg h20
    unfold mathRound at this
    exact_mod_cast this
  have hk1 : Rat.floor (r2 + 1 / 2) ≤ 1000 := by
    have := mathRound_le_of_le_int 1000 h21
    unfold mathRound at this
    exact_mod_cast this
  have h3a : (0 : ℚ) ≤ ((Rat.floor (r2 + 1 / 2) : ℤ) : ℚ) / 10 := by
    have : (0 : ℚ) ≤ ((Rat.floor (r2 + 1 / 2) : ℤ) : ℚ) := by exact_mod_cast hk0
    positivity
  have h3b : ((Rat.floor (r2 + 1 / 2) : ℤ) : ℚ) / 10 ≤ ((100 : ℤ) : ℚ) := by
    have : ((Rat.floor (r2 + 1 / 2) : ℤ) : ℚ) ≤ 1000 := by exact_mod_cast hk1
    push_cast
    linarith
  obtain ⟨w, hw, hw0, hw1⟩ := toDouble_between _ 100 h3a h3b (by norm_num)
  have hall : (mathRound64 (((Float64.fin q).div (.fin t)).mul (.fin 1000))).div (.fin 10)
      = toDouble (((Rat.floor (r2 + 1 / 2) : ℤ) : ℚ) / 10) := by
    rw [hdiv, hr1]
    simp only [Float64.mul]
    rw [hr2]
    simp [mathRound64, Float64.div, mathRound]
  refine ⟨w, Rat.floor (r2 + 1 / 2), ?_, hw0, by exact_mod_cast hw1, hk0, hk1, hall⟩
  rw [hall, hw]

theorem pow2_neg_1022_le : pow2 (-1022) ≤ 1 / 2 ^ 60 := by
  have h1 : pow2 (-1022) ≤ pow2 (-60) := pow2_le (by norm_num)
  have h2 : pow2 (-60) = 1 / 2 ^ 60 := by decide!
  rw [h2] at h1
  exact h1

/-- A non-negative rational of at most `2 ^ e` rounds to a double of at most `2 ^ e`. -/
theorem toDouble_le_pow2 (q : ℚ) (e : ℤ) (h0 : 0 ≤ q) (hq : q ≤ pow2 e) (he : -1074 ≤ e)
    (he2 : e < 1024) : ∃ r, toDouble q = .fin r ∧ 0 ≤ r ∧ r ≤ pow2 e := by
  have hform := roundPos_of_form 1 e (by norm_num) (by norm_num) he
    (by simpa using pow2_lt he2)
  simp only [Int.cast_one, one_mul] at hform
  obtain ⟨r, hr, hle⟩ := roundPos_mono q (pow2 e) (pow2 e) h0 hq hform
  exact ⟨r, by rw [toDouble_of_nonneg _ h0]; exact hr, roundPos_nonneg q r h0 hr, hle⟩

theorem mathRound_of_lt_half (x : ℚ) (h0 : 0 ≤ x) (h : x < 1 / 2) : mathRound x = 0 := by
  rw [mathRound_eq_floor]
  have : ⌊x + 1 / 2⌋ = 0 := by
    rw [Int.floor_eq_iff]
    constructor
    · push_cast
      linarith
    · push_cast
      linarith
  rw [this]
  simp

/-- The weight of a value that is a tiny part of the total is 0. -/
theorem weight64_tiny (q t : ℚ) (hq : 0 ≤ q) (ht0 : 0 < t) (hx : q / t ≤ 1 / 2 ^ 60) :
    (mathRound64 (((Float64.fin q).div (.fin t)).mul (.fin 1000))).div (.fin 10) = .fin 0 := by
  have hdiv : (Float64.fin q).div (.fin t) = toDouble (q / t) := by
    simp [Float64.div, ne_of_gt ht0]
  have hx0 : 0 ≤ q / t := div_nonneg hq (le_of_lt ht0)
  have p60 : pow2 (-60) = 1 / 2 ^ 60 := by decide!
  have p50 : pow2 (-50) = 1 / 2 ^ 50 := by decide!
  obtain ⟨r1, hr1, h10, h11⟩ := toDouble_le_pow2 (q / t) (-60) hx0 (by rw [p60]; exact hx)
    (by norm_num) (by norm_num)
  rw [p60] at h11
  have hy0 : 0 ≤ r1 * 1000 := by positivity
  have hy1 : r1 * 1000 ≤ pow2 (-50) := by
    rw [p50]
    have : (1 : ℚ) / 2 ^ 60 * 1000 ≤ 1 / 2 ^ 50 := by norm_num
    linarith
  obtain ⟨r2, hr2, h20, h21⟩ := toDouble_le_pow2 (r1 * 1000) (-50) hy0 hy1 (by norm_num)
    (by norm_num)
  rw [p50] at h21
  have hm : mathRound r2 = 0 := mathRound_of_lt_half r2 h20 (by
    have : (1 : ℚ) / 2 ^ 50 < 1 / 2 := by norm_num
    linarith)
  rw [hdiv, hr1]
  simp only [Float64.mul]
  rw [hr2]
  simp [mathRound64, Float64.div, hm, toDouble_zero]

/-- The weight of a value within a positive total differs from the exact percentage by half
a tenth and a rounding error. -/
theorem weight64_err (q t : ℚ) (hq0 : 0 ≤ q) (hqt : q ≤ t) (ht0 : 0 < t) :
    ∃ w : ℚ,
      (mathRound64 (((Float64.fin q).div (.fin t)).mul (.fin 1000))).div (.fin 10) = .fin w ∧
      |w - 100 * q / t| ≤ 1 / 20 + 300 / 2 ^ 53 := by
  have hdiv : (Float64.fin q).div (.fin t) = toDouble (q / t) := by
    simp [Float64.div, ne_of_gt ht0]
  have hx0 : 0 ≤ q / t := div_nonneg hq0 (le_of_lt ht0)
  rcases le_total (q / t) (1 / 2 ^ 60) with hxlo | hxlo
  · refine ⟨0, weight64_tiny q t hq0 ht0 hxlo, ?_⟩
    have hexp : 100 * q / t = 100 * (q / t) := by ring
    rw [hexp, abs_le]
    have c : (100 : ℚ) * (1 / 2 ^ 60) ≤ 300 / 2 ^ 53 := by norm_num
    constructor <;> linarith
  · have hx1 : q / t ≤ 1 := by
      rw [div_le_one ht0]
      exact hqt
    have hsmall := pow2_neg_1022_le
    -- first rounding
    obtain ⟨r1, hr1, h10, h11⟩ := toDouble_between (q / t) 1 hx0 (by simpa using hx1)
      (by norm_num)
    have hr1p : roundPos (q / t) = .fin r1 := by
      rw [← toDouble_of_nonneg _ hx0]
      exact hr1
    have e1 := roundPos_err (q / t) r1 (by linarith) hr1p
    rw [abs_le] at e1
    have hr1lo : 1 / 2 ^ 61 ≤ r1 := by
      have : q / t / 2 ^ 53 ≤ q / t / 2 := by
        apply div_le_div_of_nonneg_left hx0 (by norm_num) (by norm_num)
      have h2 : (1 : ℚ) / 2 ^ 61 = 1 / 2 ^ 60 / 2 := by norm_num
      linarith
    -- second rounding
    have hy0 : 0 ≤ r1 * 1000 := by positivity
    have hy1 : r1 * 1000 ≤ ((1000 : ℤ) : ℚ) := by
      push_cast at h11 ⊢
      linarith
    obtain ⟨r2, hr2, h20, h21⟩ := toDouble_between (r1 * 1000) 1000 hy0 hy1 (by norm_num)
    have hr2p : roundPos (r1 * 1000) = .fin r2 := by
      rw [← toDouble_of_nonneg _ hy0]
      exact hr2
    have e2 := roundPos_err (r1 * 1000) r2 (by
      have : (1 : ℚ) / 2 ^ 60 ≤ 1 / 2 ^ 61 * 1000 := by norm_num
      nlinarith) hr2p
    rw [abs_le] at e2
    push_cast at h11 h21 hy1
    -- `Math.round`
    have m1 := mathRound_le r2
    have m2 := mathRound_gt r2
    have hk0 : 0 ≤ Rat.floor (r2 + 1 / 2) := by
      have := mathRound_nonneg h20
      unfold mathRound at this
      exact_mod_cast this
    have hk1 : Rat.floor (r2 + 1 / 2) ≤ 1000 := by
      have := mathRound_le_of_le_int 1000 (by push_cast; exact h21)
      unfold mathRound at this
      exact_mod_cast this
    have hkq0 : (0 : ℚ) ≤ ((Rat.floor (r2 + 1 / 2) : ℤ) : ℚ) := by exact_mod_cast hk0
    have hkq1 : ((Rat.floor (r2 + 1 / 2) : ℤ) : ℚ) ≤ 1000 := by exact_mod_cast hk1
    have hkm : mathRound r2 = ((Rat.floor (r2 + 1 / 2) : ℤ) : ℚ) := rfl
    -- third rounding
    have hz0 : (0 : ℚ) ≤ ((Rat.floor (r2 + 1 / 2) : ℤ) : ℚ) / 10 := by positivity
    have hz1 : ((Rat.floor (r2 + 1 / 2) : ℤ) : ℚ) / 10 ≤ ((100 : ℤ) : ℚ) := by
      push_cast
      linarith
    obtain ⟨w, hw, hw0, hw1⟩ := toDouble_between _ 100 hz0 hz1 (by norm_num)
    have hall : (mathRound64 (((Float64.fin q).div (.fin t)).mul (.fin 1000))).div (.fin 10)
        = toDouble (((Rat.floor (r2 + 1 / 2) : ℤ) : ℚ) / 10) := by
      rw [hdiv, hr1]
      simp only [Float64.mul]
      rw [hr2]
      simp [mathRound64, Float64.div, mathRound]
    refine ⟨w, by rw [hall, hw], ?_⟩
    have e3 : |w - ((Rat.floor (r2 + 1 / 2) : ℤ) : ℚ) / 10| ≤ 100 / 2 ^ 53 := by
      rcases lt_or_eq_of_le hk0 with hkpos | hkz
      · have hk1' : (1 : ℚ) ≤ ((Rat.floor (r2 + 1 / 2) : ℤ) : ℚ) := by
          exact_mod_cast (Int.add_one_le_iff.mpr hkpos)
        have hwp : roundPos (((Rat.floor (r2 + 1 / 2) : ℤ) : ℚ) / 10) = .fin w := by
          rw [← toDouble_of_nonneg _ hz0]
          exact hw
        have e := roundPos_err _ w (by
          have : (1 : ℚ) / 2 ^ 60 ≤ 1 / 10 := by norm_num
          linarith) hwp
        have : ((Rat.floor (r2 + 1 / 2) : ℤ) : ℚ) / 10 / 2 ^ 53 ≤ 100 / 2 ^ 53 := by
          apply div_le_div_of_nonneg_right _ (by norm_num)
          linarith
        linarith
      · rw [← hkz] at hw ⊢
        simp only [Int.cast_zero, zero_div] at hw ⊢
        rw [toDouble_zero] at hw
        injection hw with hw
        rw [← hw]
        norm_num
    rw [abs_le] at e3
    have b1 : q / t / 2 ^ 53 ≤ 1 / 2 ^ 53 := by
      apply div_le_div_of_nonneg_right hx1 (by norm_num)
    have b2 : r1 * 1000 / 2 ^ 53 ≤ 1000 / 2 ^ 53 := by
      apply div_le_div_of_nonneg_right hy1 (by norm_num)
    have hexp : 100 * q / t = 100 * (q / t) := by ring
    rw [hexp, abs_le, ← hkm] at *
    have c1 : (100 : ℚ) / 2 ^ 53 = 100 * (1 / 2 ^ 53) := by ring
    have c2 : (1000 : ℚ) / 2 ^ 53 = 1000 * (1 / 2 ^ 53) := by ring
    have c3 : (300 : ℚ) / 2 ^ 53 = 300 * (1 / 2 ^ 53) := by ring
    rw [c1] at e3
    rw [c2] at b2
    rw [c3]
    constructor <;> linarith

/-- Weights of values within a common total: each is finite, and their sum differs from the
exact percentage of the sum of the values by at most 0.05 and a rounding error per value. -/
theorem weight64_sum_err (t : ℚ) (ht0 : 0 < t) (qs : List ℚ)
    (hqs : ∀ q ∈ qs, 0 ≤ q ∧ q ≤ t) :
    ∃ ws : List ℚ,
      qs.map (fun q => (mathRound64 (((Float64.fin q).div (.fin t)).mul (.fin 1000))).div
        (.fin 10)) = ws.map Float64.fin ∧
      |ws.sum - 100 * qs.sum / t| ≤ (qs.length : ℚ) * (1 / 20 + 300 / 2 ^ 53) := by
  induction qs with
  | nil => exact ⟨[], rfl, by simp⟩
  | cons q qs ih =>
    obtain ⟨hq1, hq2⟩ := hqs q (List.mem_cons_self _ _)
    obtain ⟨ws, hws, herr⟩ := ih (fun x hx => hqs x (List.mem_cons_of_mem _ hx))
    obtain ⟨w, hw, hwerr⟩ := weight64_err q t hq1 hq2 ht0
    refine ⟨w :: ws, by simp [hw, hws], ?_⟩
    simp only [List.sum_cons, List.length_cons]
    have hsplit : w + ws.sum - 100 * (q + qs.sum) / t
        = (w - 100 * q / t) + (ws.sum - 100 * qs.sum / t) := by ring
    rw [hsplit]
    calc |(w - 100 * q / t) + (ws.sum - 100 * qs.sum / t)|
        ≤ |w - 100 * q / t| + |ws.sum - 100 * qs.sum / t| := abs_add _ _
      _ ≤ (1 / 20 + 300 / 2 ^ 53) + (qs.length : ℚ) * (1 / 20 + 300 / 2 ^ 53) :=
          add_le_add hwerr herr
      _ = ((qs.length + 1 : ℕ) : ℚ) * (1 / 20 + 300 / 2 ^ 53) := by
          push_cast
          ring

/-- One step of the running total: the sum of two numbers that are 0 or at least 1 rounds
to a number that is 0 or at least 1, within a relative error of `2 ^ -52` of the result. -/
theorem add_step_err (a q a2 : ℚ) (ha : a = 0 ∨ 1 ≤ a) (hq : q = 0 ∨ 1 ≤ q)
    (h : toDouble (a + q) = .fin a2) :
    (a2 = 0 ∨ 1 ≤ a2) ∧ |a2 - (a + q)| ≤ a2 / 2 ^ 52 := by
  have hx : a + q = 0 ∨ 1 ≤ a + q := by
    rcases ha with ha | ha <;> rcases hq with hq | hq
    · left; rw [ha, hq]; norm_num
    · right; rw [ha]; linarith
    · right; rw [hq]; linarith
    · right; linarith
  rcases hx with hx | hx
  · rw [hx, toDouble_zero] at h
    injection h with h
    rw [hx, ← h]
    norm_num
  · have hx0 : 0 ≤ a + q := by linarith
    rw [toDouble_of_nonneg _ hx0] at h
    obtain ⟨r1, hr1, hle⟩ := roundPos_mono 1 (a + q) a2 (by norm_num) hx h
    rw [roundPos_one] at hr1
    injection hr1 with hr1
    have h1 : 1 ≤ a2 := by rw [hr1]; exact hle
    have hsmall := pow2_neg_1022_le
    have e := roundPos_err (a + q) a2 (by
      have : (1 : ℚ) / 2 ^ 60 ≤ 1 := by norm_num
      linarith) h
    refine ⟨Or.inr h1, ?_⟩
    rw [abs_le] at e
    have e1 : (a + q) / 2 ^ 53 = (a + q) * (1 / 2 ^ 53) := by ring
    have e2 : a2 / 2 ^ 52 = a2 * (2 / 2 ^ 53) := by ring
    rw [e1] at e
    rw [abs_le, e2]
    have hu : (0 : ℚ) < 1 / 2 ^ 53 := by norm_num
    have hu2 : (1 : ℚ) / 2 ^ 53 ≤ 1 / 2 := by norm_num
    constructor <;> nlinarith

/-- The running total of non-negative whole doubles: when it ends in a finite number `t`,
every term is at most `t` and `t` differs from the exact sum by at most `t / 2 ^ 52` per
term. -/
theorem foldl_add_err (qs : List ℚ) (hqs : ∀ q ∈ qs, (q = 0 ∨ 1 ≤ q) ∧ IsDouble q) (a : ℚ)
    (ha : a = 0 ∨ 1 ≤ a) (had : IsDouble a) (t : ℚ)
    (h : (qs.map Float64.fin).foldl Float64.add (.fin a) = .fin t) :
    a ≤ t ∧ (∀ q ∈ qs, q ≤ t) ∧ |t - (a + qs.sum)| ≤ (qs.length : ℚ) * (t / 2 ^ 52) := by
  induction qs generalizing a with
  | nil =>
    simp only [List.map_nil, List.foldl_nil] at h
    injection h with h
    rw [h]
    simp
  | cons q qs ih =>
    obtain ⟨hq1, hq2⟩ := hqs q (List.mem_cons_self _ _)
    have hrest : ∀ q ∈ qs, (q = 0 ∨ 1 ≤ q) ∧ IsDouble q :=
      fun x hx => hqs x (List.mem_cons_of_mem _ hx)
    have ha0 : 0 ≤ a := by rcases ha with ha | ha <;> linarith
    have hq0 : 0 ≤ q := by rcases hq1 with hq1 | hq1 <;> linarith
    have hva : IsValue64 (.fin a) := Or.inr (Or.inr ⟨a, ha0, rfl, had⟩)
    have hvq : IsValue64 (.fin q) := Or.inr (Or.inr ⟨q, hq0, rfl, hq2⟩)
    have hvs : ∀ v ∈ qs.map Float64.fin, IsValue64 v := by
      intro v hv
      obtain ⟨x, hx, rfl⟩ := List.mem_map.mp hv
      have hx1 := hrest x hx
      have hx0 : 0 ≤ x := by rcases hx1.1 with h1 | h1 <;> linarith
      exact Or.inr (Or.inr ⟨x, hx0, rfl, hx1.2⟩)
    simp only [List.map_cons, List.foldl_cons] at h
    obtain ⟨hacc, hle⟩ := add_isValue _ _ hva hvq
    obtain ⟨⟨a2, ha2, _⟩, _⟩ := (foldl_add_isValue _ hvs _ hacc).2.1 t h
    obtain ⟨hale, hqle⟩ := hle a q a2 rfl rfl ha2
    have hstep : toDouble (a + q) = .fin a2 := by
      simpa [Float64.add] using ha2
    obtain ⟨h01, herr⟩ := add_step_err a q a2 ha hq1 hstep
    rw [ha2] at h
    obtain ⟨i1, i2, i3⟩ := ih hrest a2 h01 (toDouble_isDouble _ _ hstep) h
    refine ⟨le_trans hale i1, ?_, ?_⟩
    · intro x hx
      rcases List.mem_cons.mp hx with hx | hx
      · rw [hx]
        exact le_trans hqle i1
      · exact i2 x hx
    · simp only [List.sum_cons, List.length_cons]
      have ht0 : 0 ≤ t := le_trans (le_trans ha0 hale) i1
      have hdiv : a2 / 2 ^ 52 ≤ t / 2 ^ 52 :=
        div_le_div_of_nonneg_right i1 (by norm_num)
      have hsplit : t - (a + (q + qs.sum)) = (t - (a2 + qs.sum)) + (a2 - (a + q)) := by ring
      rw [hsplit]
      calc |(t - (a2 + qs.sum)) + (a2 - (a + q))|
          ≤ |t - (a2 + qs.sum)| + |a2 - (a + q)| := abs_add _ _
        _ ≤ (qs.length : ℚ) * (t / 2 ^ 52) + t / 2 ^ 52 :=
            add_le_add i3 (le_trans herr hdiv)
        _ = ((qs.length + 1 : ℕ) : ℚ) * (t / 2 ^ 52) := by
            push_cast
            ring

/-- The values of a status 200 answer: the total is their running sum, and a value that is
finite is a non-negative whole double. -/
theorem valueHoldings64_values (EXCHANGES : List Exchange) (P : Provider) (now : ℤ)
    (s : State64) (hs : List HoldingInput) (rows : List ResultRow64) (total : Float64)
    (hok : (valueHoldings64 EXCHANGES P now s hs).1 = .ok rows total) :
    total = (rows.map valueOrZero64).foldl Float64.add (.fin 0) ∧
    ∀ q, Float64.fin q ∈ rows.map valueOrZero64 →
      (∃ k : ℤ, 0 ≤ k ∧ q = (k : ℚ)) ∧ IsDouble q := by
  obtain ⟨_, _, htot, hrows⟩ := valueHoldings64_ok _ _ _ _ _ _ _ hok
  have hvals : rows.map valueOrZero64
      = ((hs.map normalize64).map (resultRow64 (priceMapOf64 EXCHANGES P now s hs))).map
          valueOrZero64 := by
    rw [hrows]
    simp only [List.map_map]
    rfl
  constructor
  · rw [hvals, ← totalOf64_eq_foldl]
    exact htot
  · intro q hmem
    rw [hvals] at hmem
    simp only [List.map_map, List.mem_map, Function.comp] at hmem
    obtain ⟨h, _, hh⟩ := hmem
    refine ⟨valueOrZero64_int _ h q hh, ?_⟩
    have hv := valueOrZero64_isValue (priceMapOf64 EXCHANGES P now s hs) h
    rw [hh] at hv
    rcases hv with hv | hv | ⟨x, _, hx, hd⟩
    · cases hv
    · cases hv
    · injection hx with hx
      rw [hx]
      exact hd

/-- The total of a status 200 answer with finite values, when it is finite itself: every
value is at most the total, and the total differs from the exact sum of the values by at
most `total / 2 ^ 52` per row. -/
theorem valueHoldings64_total_err (EXCHANGES : List Exchange) (P : Provider) (now : ℤ)
    (s : State64) (hs : List HoldingInput) (rows : List ResultRow64) (total : Float64)
    (hok : (valueHoldings64 EXCHANGES P now s hs).1 = .ok rows total) (qs : List ℚ)
    (hqs : rows.map valueOrZero64 = qs.map Float64.fin) (t : ℚ) (ht : total = .fin t) :
    (∀ q ∈ qs, 0 ≤ q ∧ q ≤ t) ∧ |t - qs.sum| ≤ (qs.length : ℚ) * (t / 2 ^ 52) := by
  obtain ⟨hfold, hval⟩ := valueHoldings64_values _ _ _ _ _ _ _ hok
  have hq : ∀ q ∈ qs, (q = 0 ∨ 1 ≤ q) ∧ IsDouble q := by
    intro q hq
    obtain ⟨⟨k, hk, rfl⟩, hd⟩ := hval q (by rw [hqs]; exact List.mem_map.mpr ⟨q, hq, rfl⟩)
    refine ⟨?_, hd⟩
    rcases lt_or_eq_of_le hk with h1 | h1
    · right
      exact_mod_cast (Int.add_one_le_iff.mpr h1)
    · left
      rw [← h1]
      simp
  rw [hqs, ht] at hfold
  obtain ⟨_, h2, h3⟩ := foldl_add_err qs hq 0 (Or.inl rfl) isDouble_zero t hfold.symm
  refine ⟨fun q hqm => ⟨?_, h2 q hqm⟩, by simpa using h3⟩
  rcases (hq q hqm).1 with h1 | h1 <;> linarith

theorem exists_fin_list (vs : List Float64) (h : ∀ v ∈ vs, ∃ q : ℚ, v = .fin q) :
    ∃ qs : List ℚ, vs = qs.map Float64.fin := by
  induction vs with
  | nil => exact ⟨[], rfl⟩
  | cons v vs ih =>
    obtain ⟨q, hq⟩ := h v (List.mem_cons_self _ _)
    obtain ⟨qs, hqs⟩ := ih (fun x hx => h x (List.mem_cons_of_mem _ hx))
    exact ⟨q :: qs, by rw [hq, hqs]; rfl⟩

/-- With a positive total, the weight of a row is the weight formula applied to the value
of the row counted in the total. -/
theorem withWeight64_weight (total : Float64) (t : ℚ) (ht : total = .fin t) (ht0 : 0 < t)
    (r : ResultRow64) :
    (withWeight64 total r).weight
      = (mathRound64 (((valueOrZero64 r).div total).mul (.fin 1000))).div (.fin 10) := by
  have hpos : total.gtZero = true := by
    rw [ht]
    simpa [Float64.gtZero] using ht0
  unfold withWeight64 valueOrZero64
  cases hv : r.value with
  | none =>
    simp only []
    rw [ht]
    exact (weight64_tiny 0 t (le_refl _) ht0 (by norm_num)).symm
  | some v => simp [hpos]

/-! ### The price batch and the lookup of a holding's own pair -/

theorem stockKeys64_eq (hs : List HoldingInput) :
    stockKeys64 (hs.map normalize64) = stockKeys (hs.map normalize) := by
  unfold stockKeys64 stockKeys
  congr 1
  induction hs with
  | nil => rfl
  | cons h hs ih =>
    simp only [List.map_cons, List.filter_cons]
    have h1 : (normalize64 h).ticker = (normalize h).ticker := rfl
    have h2 : (normalize64 h).exchange = (normalize h).exchange := rfl
    rw [h1]
    split_ifs
    · simp only [List.map_cons, ih, h1, h2]
    · exact ih

theorem fillPriceMap64_get_of_not_mem (ks : List String) (ps : List (Option Float64))
    (m : List (String × Option Float64)) (key : String) (hk : key ∉ ks) :
    mapGet (fillPriceMap64 ks ps m) key = mapGet m key := by
  induction ks generalizing ps m with
  | nil => cases ps <;> rfl
  | cons k ks ih =>
    cases ps with
    | nil => rfl
    | cons p ps =>
      simp only [fillPriceMap64]
      rw [ih ps _ (fun h => hk (List.mem_cons_of_mem _ h)), mapGet_mapSet]
      rw [if_neg (fun h : k = key => hk (h ▸ List.mem_cons_self _ _))]

theorem fetchPriceGBP64_pos (EXCHANGES : List Exchange) (P : Provider) (now : ℤ)
    (ticker exchangeCode : String) (s : State64) (p : Float64)
    (h : (fetchPriceGBP64 EXCHANGES P now ticker exchangeCode s).1 = some p) :
    p.gtZero = true := by
  have hmiss : ∀ key, (fetchPriceMiss64 EXCHANGES P now ticker exchangeCode key s).1 = some p →
      p.gtZero = true := fun key hm => (fetchPriceMiss64_some _ _ _ _ _ _ _ p hm).1.1
  unfold fetchPriceGBP64 at h
  simp only [] at h
  cases hc : mapGet s.priceCache (makeKey (upperTrim ticker) (upperTrim exchangeCode)) with
  | none =>
    rw [hc] at h
    exact hmiss _ h
  | some c =>
    rw [hc] at h
    simp only [] at h
    split_ifs at h with hfresh
    · simp only [Option.some.injEq] at h
      rw [← h]
      exact hfresh.1
    · exact hmiss _ h

/-- The entry of `priceMap` under a key is the answer of the batch's call for the pair the
key splits into, provided no other key splits into the same pair. -/
theorem fillPriceMap64_get (EXCHANGES : List Exchange) (P : Provider) (now : ℤ)
    (keys : List String) (hnd : keys.Nodup) (s : State64) (m : List (String × Option Float64))
    (key : String) (hk : key ∈ keys)
    (hinj : ∀ k ∈ keys, lookupArgs k = lookupArgs key → k = key) :
    ∃ ans, batchAnswer (fetchPriceGBP64 EXCHANGES P now) (keys.map lookupArgs) s
        (lookupArgs key) = some ans ∧
      mapGet (fillPriceMap64 keys (fetchAll64 EXCHANGES P now keys s).1 m) key = some ans := by
  induction keys generalizing s m with
  | nil => cases hk
  | cons k ks ih =>
    have hnd2 := List.nodup_cons.mp hnd
    simp only [fetchAll64, fillPriceMap64, List.map_cons, batchAnswer]
    have hargs : fetchPriceGBP64 EXCHANGES P now ((splitBars k).getD 0 "")
        ((splitBars k).getD 1 "") s
        = fetchPriceGBP64 EXCHANGES P now (lookupArgs k).1 (lookupArgs k).2 s := rfl
    rw [hargs]
    by_cases hkk : k = key
    · subst hkk
      refine ⟨(fetchPriceGBP64 EXCHANGES P now (lookupArgs k).1 (lookupArgs k).2 s).1, ?_, ?_⟩
      · rw [if_pos rfl]
      · rw [fillPriceMap64_get_of_not_mem _ _ _ _ hnd2.1, mapGet_mapSet, if_pos rfl]
        cases hr : (fetchPriceGBP64 EXCHANGES P now (lookupArgs k).1 (lookupArgs k).2 s).1 with
        | none => rfl
        | some x =>
          simp only []
          rw [if_pos (fetchPriceGBP64_pos _ _ _ _ _ _ x hr)]
    · have hne : ¬ lookupArgs k = lookupArgs key :=
        fun h => hkk (hinj k (List.mem_cons_self _ _) h)
      rw [if_neg hne]
      have hk2 : key ∈ ks := by
        rcases List.mem_cons.mp hk with h | h
        · exact absurd h.symm hkk
        · exact h
      exact ih hnd2.2 _ _ hk2 (fun k2 hk2m => hinj k2 (List.mem_cons_of_mem _ hk2m))

theorem uniqueKeys_nodup (xs : List String) : (uniqueKeys xs).Nodup := by
  rw [uniqueKeys_eq_firstOccurrences]
  exact nodup_firstOccurrencesAux [] xs

theorem stockKeys_noBar (hs : List HoldingInput)
    (hbar : ∀ h ∈ hs, hasBar (upperTrim h.ticker) = false ∧ hasBar (upperTrim h.exchange) = false)
    (k : String) (hk : k ∈ stockKeys (hs.map normalize)) :
    ∃ t e, k = makeKey t e ∧ hasBar t = false ∧ hasBar e = false := by
  rw [stockKeys_eq_map_equityPairs, mem_uniqueKeys] at hk
  obtain ⟨p, hp, rfl⟩ := List.mem_map.mp hk
  obtain ⟨h1, h2⟩ := equityPairs_noBar hs hbar p hp
  exact ⟨p.1, p.2, rfl, h1, h2⟩

/-- The price map of the handler, for a holding that is looked up and a list without `|`:
its entry is the answer of the batch's call for the holding's own pair. -/
theorem priceMapOf64_own_pair (EXCHANGES : List Exchange) (P : Provider) (now : ℤ) (s : State64)
    (hs : List HoldingInput)
    (hbar : ∀ h ∈ hs, hasBar (upperTrim h.ticker) = false ∧ hasBar (upperTrim h.exchange) = false)
    (hi : HoldingInput) (hmem : hi ∈ hs) (h1 : upperTrim hi.ticker ≠ "")
    (h2 : upperTrim hi.ticker ≠ "CASH") :
    ∃ ans, batchAnswer (fetchPriceGBP64 EXCHANGES P now) (priceLookups hs) s
        (upperTrim hi.ticker, upperTrim hi.exchange) = some ans ∧
      mapGet (priceMapOf64 EXCHANGES P now s hs)
        (makeKey (upperTrim hi.ticker) (upperTrim hi.exchange)) = some ans := by
  obtain ⟨hb1, hb2⟩ := hbar hi hmem
  have hkey : makeKey (upperTrim hi.ticker) (upperTrim hi.exchange)
      ∈ stockKeys (hs.map normalize) :=
    key_mem_stockKeys _ (normalize hi) (List.mem_map.mpr ⟨hi, hmem, rfl⟩) h1 h2
  have hinj : ∀ k ∈ stockKeys (hs.map normalize),
      lookupArgs k = lookupArgs (makeKey (upperTrim hi.ticker) (upperTrim hi.exchange)) →
      k = makeKey (upperTrim hi.ticker) (upperTrim hi.exchange) := by
    intro k hk heq
    obtain ⟨t, e, rfl, ht, he⟩ := stockKeys_noBar hs hbar k hk
    rw [lookupArgs_makeKey t e ht he, lookupArgs_makeKey _ _ hb1 hb2] at heq
    injection heq with ha hb
    rw [ha, hb]
  have := fillPriceMap64_get EXCHANGES P now (stockKeys (hs.map normalize))
    (by unfold stockKeys; exact uniqueKeys_nodup _) s []
    (makeKey (upperTrim hi.ticker) (upperTrim hi.exchange)) hkey hinj
  rw [lookupArgs_makeKey _ _ hb1 hb2] at this
  unfold priceMapOf64 priceLookups
  simp only [stockKeys64_eq]
  exact this

/-! ### The defaults handler and the lookup of a holding's own pair -/

theorem batchAnswer_none_of_not_mem {σ α : Type} (fetch : String → String → σ → α × σ)
    (pairs : List (String × String)) (s : σ) (a : String × String) (ha : a ∉ pairs) :
    batchAnswer fetch pairs s a = none := by
  induction pairs generalizing s with
  | nil => rfl
  | cons b bs ih =>
    simp only [batchAnswer]
    rw [if_neg (fun h : b = a => ha (h ▸ List.mem_cons_self _ _))]
    exact ih _ (fun h => ha (List.mem_cons_of_mem _ h))

theorem fillPriceMap_get_of_not_mem (ks : List String) (ps : List (Option ℚ))
    (m : List (String × Option ℚ)) (key : String) (hk : key ∉ ks) :
    mapGet (fillPriceMap ks ps m) key = mapGet m key := by
  induction ks generalizing ps m with
  | nil => cases ps <;> rfl
  | cons k ks ih =>
    cases ps with
    | nil => rfl
    | cons p ps =>
      simp only [fillPriceMap]
      rw [ih ps _ (fun h => hk (List.mem_cons_of_mem _ h)), mapGet_mapSet]
      rw [if_neg (fun h : k = key => hk (h ▸ List.mem_cons_self _ _))]

theorem fetchPriceGBP_pos (EXCHANGES : List Exchange) (P : Provider) (now : ℤ)
    (ticker exchangeCode : String) (s : State) (p : ℚ)
    (h : (fetchPriceGBP EXCHANGES P now ticker exchangeCode s).1 = some p) : 0 < p := by
  have hmiss : ∀ key, (fetchPriceMiss EXCHANGES P now ticker exchangeCode key s).1 = some p →
      0 < p := fun key hm => (fetchPriceMiss_some _ _ _ _ _ _ _ p hm).1.1
  unfold fetchPriceGBP at h
  simp only [] at h
  cases hc : mapGet s.priceCache (makeKey (upperTrim ticker) (upperTrim exchangeCode)) with
  | none =>
    rw [hc] at h
    exact hmiss _ h
  | some c =>
    rw [hc] at h
    simp only [] at h
    split_ifs at h with hfresh
    · simp only [Option.some.injEq] at h
      rw [← h]
      exact hfresh.1
    · exact hmiss _ h

/-- The entry of the price map under a key is the answer of the batch's call for the pair
the key splits into, provided no other key splits into the same pair. -/
theorem fillPriceMap_get (EXCHANGES : List Exchange) (P : Provider) (now : ℤ)
    (keys : List String) (hnd : keys.Nodup) (s : State) (m : List (String × Option ℚ))
    (key : String) (hk : key ∈ keys)
    (hinj : ∀ k ∈ keys, lookupArgs k = lookupArgs key → k = key) :
    ∃ ans, batchAnswer (fetchPriceGBP EXCHANGES P now) (keys.map lookupArgs) s
        (lookupArgs key) = some ans ∧
      mapGet (fillPriceMap keys (fetchAll EXCHANGES P now keys s).1 m) key = some ans := by
  induction keys generalizing s m with
  | nil => cases hk
  | cons k ks ih =>
    have hnd2 := List.nodup_cons.mp hnd
    simp only [fetchAll, fillPriceMap, List.map_cons, batchAnswer]
    have hargs : fetchPriceGBP EXCHANGES P now ((splitBars k).getD 0 "")
        ((splitBars k).getD 1 "") s
        = fetchPriceGBP EXCHANGES P now (lookupArgs k).1 (lookupArgs k).2 s := rfl
    rw [hargs]
    by_cases hkk : k = key
    · subst hkk
      refine ⟨(fetchPriceGBP EXCHANGES P now (lookupArgs k).1 (lookupArgs k).2 s).1, ?_, ?_⟩
      · rw [if_pos rfl]
      · rw [fillPriceMap_get_of_not_mem _ _ _ _ hnd2.1, mapGet_mapSet, if_pos rfl]
        cases hr : (fetchPriceGBP EXCHANGES P now (lookupArgs k).1 (lookupArgs k).2 s).1 with
        | none => rfl
        | some x =>
          simp only []
          rw [if_pos (fetchPriceGBP_pos _ _ _ _ _ _ x hr)]
    · have hne : ¬ lookupArgs k = lookupArgs key :=
        fun h => hkk (hinj k (List.mem_cons_self _ _) h)
      rw [if_neg hne]
      have hk2 : key ∈ ks := by
        rcases List.mem_cons.mp hk with h | h
        · exact absurd h.symm hkk
        · exact h
      exact ih hnd2.2 _ _ hk2 (fun k2 hk2m => hinj k2 (List.mem_cons_of_mem _ hk2m))

theorem defaultsKeys_noBar (current : List StoredHolding)
    (hbar : ∀ h ∈ current, hasBar (jsToUpperCase h.ticker) = false ∧
      hasBar (jsToUpperCase h.exchange) = false)
    (k : String) (hk : k ∈ defaultsKeys current) :
    ∃ t e, k = makeKey t e ∧ t ≠ "" ∧ hasBar t = false ∧ hasBar e = false := by
  unfold defaultsKeys at hk
  rw [mem_uniqueKeys] at hk
  obtain ⟨h, hh, rfl⟩ := List.mem_map.mp hk
  have hf := List.mem_filter.mp hh
  have := hf.2
  simp only [decide_eq_true_eq] at this
  exact ⟨_, _, rfl, this.1, (hbar h hf.1).1, (hbar h hf.1).2⟩

/-- The price the defaults handler finds for a stored holding, for a list without `|`: the
answer of the batch's call for the holding's own pair, and none when there is no call. -/
theorem fetchedFor_own_pair (EXCHANGES : List Exchange) (P : Provider) (now : ℤ) (s : State)
    (current : List StoredHolding)
    (hbar : ∀ h ∈ current, hasBar (jsToUpperCase h.ticker) = false ∧
      hasBar (jsToUpperCase h.exchange) = false)
    (h : StoredHolding) (hm : h ∈ current) (ht : jsToUpperCase h.ticker ≠ "CASH") :
    fetchedFor (fillPriceMap (defaultsKeys current)
        (fetchAll EXCHANGES P now (defaultsKeys current) s).1 []) h
      = (batchAnswer (fetchPriceGBP EXCHANGES P now) ((defaultsKeys current).map lookupArgs) s
          (jsToUpperCase h.ticker, jsToUpperCase h.exchange)).join := by
  have hlen : (fetchAll EXCHANGES P now (defaultsKeys current) s).1.length
      = (defaultsKeys current).length := fetchAll_length _ _ _ _ _
  rw [fetchedFor_eq_join current _ hlen h hm ht]
  obtain ⟨hb1, hb2⟩ := hbar h hm
  by_cases hne : jsToUpperCase h.ticker = ""
  · -- no call is made for a holding without ticker
    have hnk : makeKey (jsToUpperCase h.ticker) (jsToUpperCase h.exchange)
        ∉ defaultsKeys current := by
      intro hk
      obtain ⟨t, e, heq, htne, hbt, hbe⟩ := defaultsKeys_noBar current hbar _ hk
      have := congrArg lookupArgs heq
      rw [lookupArgs_makeKey _ _ hb1 hb2, lookupArgs_makeKey t e hbt hbe] at this
      injection this with ha _
      exact htne (ha ▸ hne)
    have hnp : (jsToUpperCase h.ticker, jsToUpperCase h.exchange)
        ∉ (defaultsKeys current).map lookupArgs := by
      intro hp
      obtain ⟨k, hk, hkeq⟩ := List.mem_map.mp hp
      obtain ⟨t, e, heq, htne, hbt, hbe⟩ := defaultsKeys_noBar current hbar k hk
      rw [heq, lookupArgs_makeKey t e hbt hbe] at hkeq
      injection hkeq with ha _
      exact htne (ha.trans hne)
    rw [fillPriceMap_get_of_not_mem _ _ _ _ hnk, batchAnswer_none_of_not_mem _ _ _ _ hnp]
    rfl
  · have hkey := key_mem_defaultsKeys current h hm hne ht
    have hinj : ∀ k ∈ defaultsKeys current,
        lookupArgs k = lookupArgs (makeKey (jsToUpperCase h.ticker) (jsToUpperCase h.exchange)) →
        k = makeKey (jsToUpperCase h.ticker) (jsToUpperCase h.exchange) := by
      intro k hk heq
      obtain ⟨t, e, rfl, _, hbt, hbe⟩ := defaultsKeys_noBar current hbar k hk
      rw [lookupArgs_makeKey t e hbt hbe, lookupArgs_makeKey _ _ hb1 hb2] at heq
      injection heq with ha hb
      rw [ha, hb]
    obtain ⟨ans, hans, hmap⟩ := fillPriceMap_get EXCHANGES P now (defaultsKeys current)
      (by unfold defaultsKeys; exact uniqueKeys_nodup _) s []
      (makeKey (jsToUpperCase h.ticker) (jsToUpperCase h.exchange)) hkey hinj
    rw [lookupArgs_makeKey _ _ hb1 hb2] at hans
    rw [hmap, hans]

/-! ### The request body -/

/-- The handler on a list of holdings rejects exactly the empty list and a list with a
holding without name or ticker. -/
theorem valueHoldings_rejects_iff (EXCHANGES : List Exchange) (P : Provider) (now : ℤ)
    (s : State) (hs : List HoldingInput) :
    (∃ e, (valueHoldings EXCHANGES P now s hs).1 = .badRequest e) ↔
      (hs = [] ∨ ∃ h ∈ hs, jsTrim h.name = "" ∨ upperTrim h.ticker = "") := by
  by_cases hnil : hs = []
  · subst hnil
    simp only [true_or, iff_true]
    exact ⟨_, rfl⟩
  · by_cases hv : ∀ h ∈ hs, jsTrim h.name ≠ "" ∧ upperTrim h.ticker ≠ ""
    · have hv2 : ∀ n ∈ hs.map normalize, n.name ≠ "" ∧ n.ticker ≠ "" := by
        intro n hn
        obtain ⟨h, hh, rfl⟩ := List.mem_map.mp hn
        exact hv h hh
      have hok := valueHoldings_of_valid EXCHANGES P now s hs hnil hv2
      constructor
      · rintro ⟨e, he⟩
        rw [hok] at he
        cases he
      · rintro (h1 | ⟨h, hh, hbad⟩)
        · exact absurd h1 hnil
        · rcases hbad with hb | hb
          · exact absurd hb (hv h hh).1
          · exact absurd hb (hv h hh).2
    · push_neg at hv
      obtain ⟨h, hh, hbad⟩ := hv
      have hbad2 : jsTrim h.name = "" ∨ upperTrim h.ticker = "" := by
        by_cases hn : jsTrim h.name = ""
        · exact Or.inl hn
        · exact Or.inr (hbad hn)
      constructor
      · intro _
        exact Or.inr ⟨h, hh, hbad2⟩
      · intro _
        cases hr : (valueHoldings EXCHANGES P now s hs).1 with
        | badRequest e => exact ⟨e, rfl⟩
        | ok rows total =>
          obtain ⟨_, hv3, _, _⟩ := valueHoldings_ok _ _ _ _ _ _ _ hr
          have := hv3 (normalize h) (List.mem_map.mpr ⟨h, hh, rfl⟩)
          rcases hbad2 with hb | hb
          · exact absurd hb this.1
          · exact absurd hb this.2

theorem all_isSome_iff (l : List (Option HoldingInput)) :
    l.all Option.isSome = true ↔ l = (l.filterMap id).map some := by
  induction l with
  | nil => simp
  | cons x l ih =>
    cases x with
    | none =>
      simp only [List.all_cons, Option.isSome_none, Bool.false_and, Bool.false_eq_true,
        List.filterMap_cons, id, false_iff]
      intro h
      cases hf : List.filterMap id l with
      | nil => rw [hf] at h; cases h
      | cons a as => rw [hf] at h; cases h
    | some h =>
      simp only [List.all_cons, Option.isSome_some, Bool.true_and, List.filterMap_cons, id,
        List.map_cons, List.cons.injEq, true_and]
      exact ih

theorem all_isSome_false_iff (l : List (Option HoldingInput)) :
    ¬ l.all Option.isSome = true ↔ none ∈ l := by
  induction l with
  | nil => simp
  | cons x l ih =>
    cases x with
    | none => simp
    | some h =>
      simp only [List.all_cons, Option.isSome_some, Bool.true_and, List.mem_cons]
      rw [ih]
      constructor
      · intro h1
        exact Or.inr h1
      · rintro (h1 | h1)
        · cases h1
        · exact h1

/-! ## The claims -/

/-- C1 (code bug). With the provider down, the equity holding Acme/ACME/10 shares/XNAS that
carries `defaultPrice: 42` is answered with `value: null` and `pricePerShare: null`: the
fallback to `defaultPrice` is not taken, because `priceMap.has(key)` holds for every key
of the batch, a failed lookup being stored as `null`. -/
theorem valueHoldings_defaultPrice_not_used :
    (valueHoldings defaultExchanges downProvider 0 State.empty acmeWithDefault).1
      = .ok [ { name := "Acme", ticker := "ACME", shares := 10, value := none, weight := 0,
                pricePerShare := none, exchange := "XNAS" } ] 0 := by
  decide!

/-- C2 (counterexample). Six cash holdings of 1 each: every value is non-null, the total is
6, every weight is the double 16.7 and the weights add up to more than 100.1. And two cash
holdings of 1e308 each: both values are finite numbers, their double sum overflows, so the
total is `Infinity`, which is greater than 0, and both weights are 0. -/
theorem valueHoldings64_weight_sum_six_cash :
    (valueHoldings64 defaultExchanges downProvider 0 State64.empty sixCash).1
      = .ok sixCashRows64 (.fin 6) ∧
    (∀ r ∈ sixCashRows64, r.value ≠ none) ∧
    sixCashRows64.map (fun r => r.weight)
      = List.replicate 6 (.fin (4700632111067955 / 281474976710656)) ∧
    ¬ |(List.replicate 6 (4700632111067955 / 281474976710656 : ℚ)).sum - 100| ≤ 1 / 10 ∧
    (valueHoldings64 defaultExchanges downProvider 0 State64.empty cashOverflow).1
      = .ok cashOverflowRows .posInf ∧
    (∀ r ∈ cashOverflowRows, r.value ≠ none) ∧
    (toDouble 1e308).isFinite = true ∧
    Float64.posInf.gtZero = true ∧
    cashOverflowRows.map (fun r => r.weight) = [.fin 0, .fin 0] := by
  decide!

/-- C2 (amended). In a status 200 answer whose total is a finite number greater than 0,
every weight is a finite number and the sum of the weights differs from 100 by at most
0.05 per row, plus a rounding error of at most one part in a million million per row. This
covers every such answer in which all values are non-null; a null value counts for 0 in the
total and has weight 0. -/
theorem valueHoldings64_weight_sum (EXCHANGES : List Exchange) (P : Provider) (now : ℤ)
    (s : State64) (hs : List HoldingInput) (rows : List ResultRow64) (total : Float64)
    (hok : (valueHoldings64 EXCHANGES P now s hs).1 = .ok rows total)
    (t : ℚ) (ht : total = .fin t) (ht0 : 0 < t) :
    ∃ ws : List ℚ, rows.map (fun r => r.weight) = ws.map Float64.fin ∧
      |ws.sum - 100| ≤ (rows.length : ℚ) * (1 / 20 + 1 / 10 ^ 12) := by
  obtain ⟨hfold, _⟩ := valueHoldings64_values _ _ _ _ _ _ _ hok
  obtain ⟨_, _, _, hrows⟩ := valueHoldings64_ok _ _ _ _ _ _ _ hok
  -- every value counted in the total is finite
  have hvs : ∀ v ∈ rows.map valueOrZero64, IsValue64 v := by
    intro v hv
    rw [hrows] at hv
    simp only [List.map_map, List.mem_map, Function.comp] at hv
    obtain ⟨h, _, hh⟩ := hv
    rw [← hh]
    exact valueOrZero64_isValue _ h
  have hfin : ∀ v ∈ rows.map valueOrZero64, ∃ q : ℚ, v = .fin q := by
    intro v hv
    have := ((foldl_add_isValue _ hvs _ isValue64_zero).2.1 t (by rw [← hfold, ht])).2 v hv
    obtain ⟨q, hq, _⟩ := this
    exact ⟨q, hq⟩
  obtain ⟨qs, hqs⟩ := exists_fin_list _ hfin
  obtain ⟨hle, herr⟩ := valueHoldings64_total_err _ _ _ _ _ _ _ hok qs hqs t ht
  obtain ⟨ws, hws, hwerr⟩ := weight64_sum_err t ht0 qs hle
  have hlen : rows.length = qs.length := by
    have := congrArg List.length hqs
    simpa using this
  refine ⟨ws, ?_, ?_⟩
  · rw [← hws]
    have hw : rows.map (fun r => r.weight)
        = (rows.map valueOrZero64).map (fun v =>
            (mathRound64 ((v.div total).mul (.fin 1000))).div (.fin 10)) := by
      rw [List.map_map]
      apply List.map_congr_left
      intro r hr
      rw [hrows] at hr
      obtain ⟨r0, _, rfl⟩ := List.mem_map.mp hr
      simp only [Function.comp]
      rw [withWeight64_weight total t ht ht0 r0]
      rfl
    rw [hw, hqs, List.map_map, ht]
    rfl
  · rw [hlen]
    have hn0 : (0 : ℚ) ≤ (qs.length : ℚ) := by positivity
    have h1 : 100 * qs.sum / t - 100 = (qs.sum - t) * (100 / t) := by
      field_simp
      ring
    have h2 : |100 * qs.sum / t - 100| ≤ (qs.length : ℚ) * (200 / 2 ^ 53) := by
      rw [h1, abs_mul, abs_of_pos (div_pos (by norm_num : (0 : ℚ) < 100) ht0), abs_sub_comm]
      calc |t - qs.sum| * (100 / t)
          ≤ ((qs.length : ℚ) * (t / 2 ^ 52)) * (100 / t) :=
            mul_le_mul_of_nonneg_right herr (le_of_lt (div_pos (by norm_num) ht0))
        _ = (qs.length : ℚ) * (200 / 2 ^ 53) := by
            field_simp
            ring
    have hsplit : ws.sum - 100 = (ws.sum - 100 * qs.sum / t) + (100 * qs.sum / t - 100) := by
      ring
    rw [hsplit]
    calc |(ws.sum - 100 * qs.sum / t) + (100 * qs.sum / t - 100)|
        ≤ |ws.sum - 100 * qs.sum / t| + |100 * qs.sum / t - 100| := abs_add _ _
      _ ≤ (qs.length : ℚ) * (1 / 20 + 300 / 2 ^ 53) + (qs.length : ℚ) * (200 / 2 ^ 53) :=
          add_le_add hwerr h2
      _ ≤ (qs.length : ℚ) * (1 / 20 + 1 / 10 ^ 12) := by
          rw [← mul_add]
          apply mul_le_mul_of_nonneg_left _ hn0
          norm_num

/-- Witness for C2: cash holdings of 201 and 199, weights 50.2 and 49.8. -/
theorem valueHoldings64_weight_sum_witness :
    (valueHoldings64 defaultExchanges downProvider 0 State64.empty cash201and199).1
      = .ok cash201and199Rows (.fin 400) ∧
    (0 : ℚ) < 400 ∧
    ∃ ws : List ℚ, cash201and199Rows.map (fun r => r.weight) = ws.map Float64.fin ∧
      |ws.sum - 100| ≤ (cash201and199Rows.length : ℚ) * (1 / 20 + 1 / 10 ^ 12) :=
  ⟨by decide!, by decide!,
   valueHoldings64_weight_sum defaultExchanges downProvider 0 State64.empty cash201and199
     cash201and199Rows (.fin 400) (by decide!) 400 rfl (by decide!)⟩

/-- C3 (counterexample). The request with the single holding `{ name: '', ticker: 'AAPL' }`
is rejected with status 400, yet one rates request and one quote request were issued and
both caches were filled. -/
theorem valueHoldings_rejection_after_fetch :
    valueHoldings defaultExchanges sampleProvider 0 State.empty namelessApple
      = (.badRequest "Each holding must include name and ticker",
         { priceCache := [("AAPL||", { price := 160, ts := 0 })]
           fxCache := some { val := { usdGbp := 8 / 10, usdEur := 9 / 10 }, ts := 0 }
           log := [.forexRates, .quote "AAPL"] }) ∧
    (valueHoldings defaultExchanges sampleProvider 0 State.empty namelessApple).2.log
      ≠ State.empty.log ∧
    (valueHoldings defaultExchanges sampleProvider 0 State.empty namelessApple).2.priceCache
      ≠ State.empty.priceCache ∧
    (valueHoldings defaultExchanges sampleProvider 0 State.empty namelessApple).2.fxCache
      ≠ State.empty.fxCache := by
  decide!

/-- C3 (amended). Whenever `valueHoldings` rejects a request in which no holding has a
non-empty ticker other than `CASH` (the empty list included), nothing has been attempted:
the request log, the price cache and the FX cache are exactly as before the call. -/
theorem valueHoldings_rejection_without_equity (EXCHANGES : List Exchange) (P : Provider)
    (now : ℤ) (s : State) (hs : List HoldingInput) (e : String)
    (_hrej : (valueHoldings EXCHANGES P now s hs).1 = .badRequest e)
    (hno : ∀ h ∈ hs, upperTrim h.ticker = "" ∨ upperTrim h.ticker = "CASH") :
    (valueHoldings EXCHANGES P now s hs).2 = s := by
  rw [valueHoldings_snd]
  split_ifs
  · rfl
  · unfold stateAfterBatch
    rw [stockKeys_nil_of_no_equity]
    · rfl
    · intro n hn
      obtain ⟨h, hh, rfl⟩ := List.mem_map.mp hn
      exact hno h hh

/-- Witness for C3: the theorem applied to a concrete request. -/
theorem valueHoldings_rejection_without_equity_witness :
    (valueHoldings defaultExchanges sampleProvider 0 State.empty namelessCash).1
      = .badRequest "Each holding must include name and ticker" ∧
    (valueHoldings defaultExchanges sampleProvider 0 State.empty namelessCash).2
      = State.empty :=
  ⟨by decide!,
   valueHoldings_rejection_without_equity defaultExchanges sampleProvider 0 State.empty
     namelessCash "Each holding must include name and ticker" (by decide!) (by decide!)⟩

/-- C4. In a status 200 answer, the row of a holding whose normalised ticker is `CASH`
has `shares = 0`, `pricePerShare = 1` and `value = max(0, round(v))`, `v` being the explicit
value when one is given and the share count otherwise (a value that is given but not
numeric counts as 0). The row is stated without any reference to the registry, the
provider, the clock or the caches. -/
theorem valueHoldings_cash_row (EXCHANGES : List Exchange) (P : Provider) (now : ℤ)
    (s : State) (hs : List HoldingInput) (rows : List ResultRow) (total : ℚ)
    (hok : (valueHoldings EXCHANGES P now s hs).1 = .ok rows total)
    (i : Nat) (hi : HoldingInput) (hget : hs[i]? = some hi)
    (hcash : upperTrim hi.ticker = "CASH") :
    ∃ r, rows[i]? = some r ∧ r.shares = 0 ∧ r.pricePerShare = some 1 ∧
      (∀ x, hi.value = some (.fin x) → r.value = some (mathMax 0 (mathRound x))) ∧
      (hi.value = none → r.value = some (mathMax 0 (mathRound hi.shares.orZero))) ∧
      (hi.value = some .NaN → r.value = some 0) := by
  refine ⟨_, rows_getElem _ _ _ _ _ _ _ hok i hi hget, ?_⟩
  have ht : (normalize hi).ticker = "CASH" := hcash
  have hval : (normalize hi).value = hi.value := rfl
  have hsh : (normalize hi).shares = hi.shares.orZero := rfl
  unfold withWeight resultRow
  simp only [ht, if_true]
  refine ⟨trivial, trivial, ?_, ?_, ?_⟩
  · intro x hx
    simp [hval, hx]
  · intro hx
    simp [hval, hx, hsh]
  · intro hx
    simp [hval, hx]

/-- Witness for C4: the theorem applied to a concrete request. -/
theorem valueHoldings_cash_row_witness :
    upperTrim "CASH" = "CASH" ∧
    ∃ r, appleAndCashRows[1]? = some r ∧ r.shares = 0 ∧ r.pricePerShare = some 1 ∧
      (∀ x, (none : Option JSNumber) = some (.fin x) →
        r.value = some (mathMax 0 (mathRound x))) ∧
      ((none : Option JSNumber) = none →
        r.value = some (mathMax 0 (mathRound (JSNumber.fin 500).orZero))) ∧
      ((none : Option JSNumber) = some .NaN → r.value = some 0) :=
  ⟨by decide!,
   valueHoldings_cash_row defaultExchanges sampleProvider 0 State.empty appleAndCash
     appleAndCashRows 2100 (by decide!) 1
     { name := "Cash", ticker := "CASH", shares := .fin 500, exchange := "",
       value := none, defaultPrice := none } (by decide!) (by decide!)⟩

/-- C5. Start from an empty price cache with the default exchange registry. If the FX
lookup yields `usdGbp = 0.8` and the provider quotes AAPL at raw price 200, then
`valueHoldings` on `[Apple/AAPL/10 shares/XNAS, Cash/CASH/500 shares]` answers, in this
order, a row with value 1600 and pricePerShare 160 and a row with value 500 and
pricePerShare 1, with total 2100 and weights 76.2 and 23.8. -/
theorem valueHoldings_apple_and_cash (P : Provider) (now : ℤ) (s : State)
    (hs0 : s.priceCache = [])
    (hfx : (fetchFxRates P now s).1.usdGbp = 8 / 10)
    (hq : ∀ n, P.quote n "AAPL" = some (some 200)) :
    (valueHoldings defaultExchanges P now s appleAndCash).1
      = .ok [ { name := "Apple", ticker := "AAPL", shares := 10, value := some 1600,
                weight := 762 / 10, pricePerShare := some 160, exchange := "XNAS" },
              { name := "Cash", ticker := "CASH", shares := 0, value := some 500,
                weight := 238 / 10, pricePerShare := some 1, exchange := "" } ] 2100 := by
  rw [valueHoldings_fst, priceMapOf_apple P now s hs0 hfx hq]
  decide!

/-- Witness for C5: the theorem applied to a concrete request. -/
theorem valueHoldings_apple_and_cash_witness :
    State.empty.priceCache = [] ∧ State.empty.fxCache = none ∧
    (fetchFxRates sampleProvider 0 State.empty).1.usdGbp = 8 / 10 ∧
    (valueHoldings defaultExchanges sampleProvider 0 State.empty appleAndCash).1
      = .ok [ { name := "Apple", ticker := "AAPL", shares := 10, value := some 1600,
                weight := 762 / 10, pricePerShare := some 160, exchange := "XNAS" },
              { name := "Cash", ticker := "CASH", shares := 0, value := some 500,
                weight := 238 / 10, pricePerShare := some 1, exchange := "" } ] 2100 :=
  ⟨rfl, rfl, by decide!,
   valueHoldings_apple_and_cash sampleProvider 0 State.empty rfl (by decide!) (fun _ => rfl)⟩

/-- C6. For every non-empty holdings list in which each holding has a non-empty trimmed
name and ticker, and for every provider, clock and cache state, `valueHoldings` answers
with status 200 and one row per holding, in input order, the i-th row carrying the
normalised name and ticker of the i-th holding. -/
theorem valueHoldings_one_row_per_holding (EXCHANGES : List Exchange) (P : Provider) (now : ℤ)
    (s : State) (hs : List HoldingInput) (hne : hs ≠ [])
    (hv : ∀ h ∈ hs, jsTrim h.name ≠ "" ∧ upperTrim h.ticker ≠ "") :
    ∃ rows total, (valueHoldings EXCHANGES P now s hs).1 = .ok rows total ∧
      rows.length = hs.length ∧
      rows.map (fun r => (r.name, r.ticker))
        = hs.map (fun h => (jsTrim h.name, upperTrim h.ticker)) := by
  have hv2 : ∀ n ∈ hs.map normalize, n.name ≠ "" ∧ n.ticker ≠ "" := by
    intro n hn
    obtain ⟨h, hh, rfl⟩ := List.mem_map.mp hn
    exact hv h hh
  refine ⟨_, _, valueHoldings_of_valid EXCHANGES P now s hs hne hv2, by simp, ?_⟩
  simp only [List.map_map]
  apply List.map_congr_left
  intro h _
  simp only [Function.comp, withWeight_resultRow_name, withWeight_resultRow_ticker]
  rfl

/-- Witness for C6: the theorem applied to a concrete request. -/
theorem valueHoldings_one_row_per_holding_witness :
    appleAndCash ≠ [] ∧
    ∃ rows total,
      (valueHoldings defaultExchanges sampleProvider 0 State.empty appleAndCash).1
        = .ok rows total ∧
      rows.length = appleAndCash.length ∧
      rows.map (fun r => (r.name, r.ticker))
        = appleAndCash.map (fun h => (jsTrim h.name, upperTrim h.ticker)) :=
  ⟨by decide,
   valueHoldings_one_row_per_holding defaultExchanges sampleProvider 0 State.empty appleAndCash
     (by decide) (by decide!)⟩

/-- C7 (counterexample). Two cash holdings of 201 and 199, total 400: in doubles
`(201 / 400) * 1000` is 502.49999999999994, so the first weight is 50.2, whereas
`round((201 / 400) * 1000) / 10` is 50.3. -/
theorem valueHoldings64_weight_tie :
    (valueHoldings64 defaultExchanges downProvider 0 State64.empty cash201and199).1
      = .ok cash201and199Rows (.fin 400) ∧
    ((Float64.fin 201).div (.fin 400)).mul (.fin 1000) = toDouble 502.49999999999994 ∧
    mathRound ((201 / 400) * 1000) / 10 = 50.3 ∧
    toDouble 50.2 ≠ toDouble 50.3 := by
  decide!

/-- C7 (amended). In every status 200 answer each row's weight is
`Math.round((value / total) * 1000) / 10`, with the division, the multiplication and the
final division each rounded to a double, when `total > 0` and the value is a number, and
is 0 otherwise; in particular every weight is 0 when `total = 0`. -/
theorem valueHoldings64_weight_formula (EXCHANGES : List Exchange) (P : Provider) (now : ℤ)
    (s : State64) (hs : List HoldingInput) (rows : List ResultRow64) (total : Float64)
    (hok : (valueHoldings64 EXCHANGES P now s hs).1 = .ok rows total) :
    ∀ r ∈ rows,
      (∀ v, total.gtZero = true → r.value = some v →
        r.weight = (mathRound64 ((v.div total).mul (.fin 1000))).div (.fin 10)) ∧
      (total.gtZero = false → r.weight = .fin 0) ∧ (r.value = none → r.weight = .fin 0) ∧
      (total = .fin 0 → r.weight = .fin 0) := by
  obtain ⟨_, _, _, hrows⟩ := valueHoldings64_ok _ _ _ _ _ _ _ hok
  intro r hr
  rw [hrows] at hr
  obtain ⟨r0, _, rfl⟩ := List.mem_map.mp hr
  have hval : (withWeight64 total r0).value = r0.value := rfl
  refine ⟨?_, ?_, ?_, ?_⟩
  · intro v ht hv
    rw [hval] at hv
    simp [withWeight64, hv, ht]
  · intro ht
    cases hv : r0.value <;> simp [withWeight64, hv, ht]
  · intro hv
    rw [hval] at hv
    simp [withWeight64, hv]
  · intro ht
    subst ht
    cases hv : r0.value <;> simp [withWeight64, hv, Float64.gtZero]

/-- Witness for C7: the first row of the answer for cash holdings of 201 and 199. -/
theorem valueHoldings64_weight_formula_witness :
    (valueHoldings64 defaultExchanges downProvider 0 State64.empty cash201and199).1
      = .ok cash201and199Rows (.fin 400) ∧
    ((∀ v, (Float64.fin 400).gtZero = true → some (Float64.fin 201) = some v →
        toDouble 50.2 = (mathRound64 ((v.div (.fin 400)).mul (.fin 1000))).div (.fin 10)) ∧
      ((Float64.fin 400).gtZero = false → toDouble 50.2 = .fin 0) ∧
      (some (Float64.fin 201) = none → toDouble 50.2 = .fin 0) ∧
      (Float64.fin 400 = .fin 0 → toDouble 50.2 = .fin 0)) :=
  ⟨by decide!,
   valueHoldings64_weight_formula defaultExchanges downProvider 0 State64.empty cash201and199
     cash201and199Rows (.fin 400) (by decide!)
     { name := "Pot A", ticker := "CASH", shares := .fin 0, value := some (.fin 201),
       weight := toDouble 50.2, pricePerShare := some (.fin 1), exchange := "" } (by decide!)⟩

/-- C8 (counterexample). Apple at 160 with 1e308 shares, next to cash of 500: the product
overflows, so the value of Apple and the total are `Infinity`, and its weight is
`Infinity / Infinity`, that is `NaN`, which is no number between 0 and 100. -/
theorem valueHoldings64_weight_nan :
    (valueHoldings64 defaultExchanges sampleProvider 0 State64.empty hugeAppleAndCash).1
      = .ok hugeAppleAndCashRows .posInf ∧
    hugeAppleAndCashRows.map (fun r => r.weight) = [.NaN, .fin 0] ∧
    ¬ ∃ w : ℚ, Float64.NaN = .fin w :=
  ⟨by decide!, by decide!, fun ⟨_, h⟩ => by cases h⟩

/-- C8 (amended). Every weight of a status 200 answer is either `NaN`, which happens when
the value of the holding and the total have both overflowed to `Infinity`, or a
number between 0 and 100 inclusive that is the double nearest to a whole number of tenths,
for every holdings list (negative or fractional share counts included), every provider
behaviour and every cache state. -/
theorem valueHoldings64_weight_range (EXCHANGES : List Exchange) (P : Provider) (now : ℤ)
    (s : State64) (hs : List HoldingInput) (rows : List ResultRow64) (total : Float64)
    (hok : (valueHoldings64 EXCHANGES P now s hs).1 = .ok rows total) :
    ∀ r ∈ rows,
      (r.weight = .NaN ∧ r.value = some .posInf ∧ total = .posInf) ∨
      (∃ w : ℚ, r.weight = .fin w ∧ 0 ≤ w ∧ w ≤ 100 ∧
        ∃ k : ℤ, 0 ≤ k ∧ k ≤ 1000 ∧ r.weight = toDouble ((k : ℚ) / 10)) := by
  obtain ⟨_, _, htot, hrows⟩ := valueHoldings64_ok _ _ _ _ _ _ _ hok
  have hzero : ∃ w : ℚ, Float64.fin 0 = .fin w ∧ 0 ≤ w ∧ w ≤ 100 ∧
      ∃ k : ℤ, 0 ≤ k ∧ k ≤ 1000 ∧ Float64.fin 0 = toDouble ((k : ℚ) / 10) :=
    ⟨0, rfl, le_refl _, by norm_num, 0, le_refl _, by norm_num, by
      simp only [Int.cast_zero, zero_div]
      exact toDouble_zero.symm⟩
  -- the total as a running sum of values
  have hvals : ∀ v ∈ ((hs.map normalize64).map
      (resultRow64 (priceMapOf64 EXCHANGES P now s hs))).map valueOrZero64, IsValue64 v := by
    intro v hv
    simp only [List.map_map, List.mem_map, Function.comp] at hv
    obtain ⟨h, _, rfl⟩ := hv
    exact valueOrZero64_isValue _ h
  obtain ⟨htv, hfin, hnan⟩ := foldl_add_isValue _ hvals (.fin 0) isValue64_zero
  rw [← totalOf64_eq_foldl, ← htot] at htv hfin hnan
  intro r hr
  rw [hrows] at hr
  obtain ⟨r0, hr0, rfl⟩ := List.mem_map.mp hr
  have hval : (withWeight64 total r0).value = r0.value := rfl
  rw [hval]
  cases hv : r0.value with
  | none =>
    right
    have : (withWeight64 total r0).weight = .fin 0 := by simp [withWeight64, hv]
    rw [this]
    exact hzero
  | some v =>
    by_cases hpos : total.gtZero = true
    · have hw : (withWeight64 total r0).weight
          = (mathRound64 ((v.div total).mul (.fin 1000))).div (.fin 10) := by
        simp [withWeight64, hv, hpos]
      have hvmem : v ∈ ((hs.map normalize64).map
          (resultRow64 (priceMapOf64 EXCHANGES P now s hs))).map valueOrZero64 := by
        apply List.mem_map.mpr
        exact ⟨r0, hr0, by simp [valueOrZero64, hv]⟩
      have hvv := hvals v hvmem
      rcases htv with ht | ht | ⟨t, ht0, ht, _⟩
      · rw [ht] at hpos
        simp [Float64.gtZero] at hpos
      · -- the total is infinite
        have hne : total ≠ .NaN := by rw [ht]; simp
        have hvn := (hnan hne).2 v hvmem
        rcases hvv with h1 | h1 | ⟨q, _, h1, _⟩
        · exact absurd h1 hvn
        · left
          rw [hw, h1, ht]
          exact ⟨rfl, rfl, rfl⟩
        · right
          have : (withWeight64 total r0).weight = .fin 0 := by
            rw [hw, h1, ht]
            simp [Float64.div, Float64.mul, mathRound64, toDouble_zero, mathRound_zero]
          rw [this]
          exact hzero
      · -- the total is finite
        have htpos : 0 < t := by
          rw [ht] at hpos
          simpa [Float64.gtZero] using hpos
        obtain ⟨q, hq, hqt⟩ := (hfin t ht).2 v hvmem
        have hq0 : 0 ≤ q := by
          rcases hvv with h1 | h1 | ⟨q2, hq2, h1, _⟩
          · rw [h1] at hq; cases hq
          · rw [h1] at hq; cases hq
          · rw [h1] at hq
            injection hq with hq
            rw [← hq]
            exact hq2
        right
        obtain ⟨w, k, h1, h2, h3, h4, h5, h6⟩ := weight64_range q t hq0 hqt htpos
        rw [hw, hq, ht]
        exact ⟨w, h1, h2, h3, k, h4, h5, h6⟩
    · right
      have : (withWeight64 total r0).weight = .fin 0 := by simp [withWeight64, hv, hpos]
      rw [this]
      exact hzero

/-- Witness for C8: the first row of the answer for cash holdings of 201 and 199. -/
theorem valueHoldings64_weight_range_witness :
    (valueHoldings64 defaultExchanges downProvider 0 State64.empty cash201and199).1
      = .ok cash201and199Rows (.fin 400) ∧
    ((toDouble 50.2 = .NaN ∧ some (Float64.fin 201) = some .posInf ∧
        Float64.fin 400 = .posInf) ∨
      (∃ w : ℚ, toDouble 50.2 = .fin w ∧ 0 ≤ w ∧ w ≤ 100 ∧
        ∃ k : ℤ, 0 ≤ k ∧ k ≤ 1000 ∧ toDouble 50.2 = toDouble ((k : ℚ) / 10))) :=
  ⟨by decide!,
   valueHoldings64_weight_range defaultExchanges downProvider 0 State64.empty cash201and199
     cash201and199Rows (.fin 400) (by decide!)
     { name := "Pot A", ticker := "CASH", shares := .fin 0, value := some (.fin 201),
       weight := toDouble 50.2, pricePerShare := some (.fin 1), exchange := "" } (by decide!)⟩

/-- C9 (counterexample). Lloyds at 0.29 with 50 shares and Vodafone at 0.3 with 5 shares:
the rows carry the values 14 and 2. For Lloyds, `0.29 * 50` is 14.5 and rounds to 15; for
Vodafone the price is the double just below 0.3, whose exact product with 5 is below 1.5
and rounds to 1, while the double product is 1.5 and `Math.round` gives 2. And the holding
with ticker `A||B` on exchange `C` is valued at the price of the symbol A, 160, although
the lookup of its own pair finds no price and it has no defaultPrice. -/
theorem valueHoldings64_equity_row_ties :
    (valueHoldings64 defaultExchanges penceProvider 0 State64.empty pennyShares).1
      = .ok pennySharesRows (.fin 16) ∧
    mathMax 0 (mathRound (0.29 * 50)) = 15 ∧
    toDouble 0.3 = .fin (5404319552844595 / 18014398509481984) ∧
    mathMax 0 (mathRound ((5404319552844595 / 18014398509481984) * 5)) = 1 ∧
    (valueHoldings64 defaultExchanges symbolAProvider 0 State64.empty barTicker).1
      = .ok [ { name := "Pipe", ticker := "A||B", shares := .fin 1, value := some (.fin 160),
                weight := .fin 100, pricePerShare := some (.fin 160), exchange := "C" } ]
          (.fin 160) ∧
    (fetchPriceGBP64 defaultExchanges symbolAProvider 0 "A||B" "C" State64.empty).1 = none := by
  decide!

/-- C9 (amended). In a status 200 answer for a list whose normalised tickers and exchanges
contain no `|`, the row of an equity (non-CASH) holding follows the answer of the batch's
call `fetchPriceGBP(ticker, exchange)` for its own pair: when that call returned a price
`p`, the row has `pricePerShare = p` and `value = Math.max(0, Math.round(p * shares))`, the
product rounded to a double; when it returned null and the holding has no defaultPrice,
both `value` and `pricePerShare` are null. -/
theorem valueHoldings64_equity_row (EXCHANGES : List Exchange) (P : Provider) (now : ℤ)
    (s : State64) (hs : List HoldingInput) (rows : List ResultRow64) (total : Float64)
    (hok : (valueHoldings64 EXCHANGES P now s hs).1 = .ok rows total)
    (hbar : ∀ h ∈ hs, hasBar (upperTrim h.ticker) = false ∧ hasBar (upperTrim h.exchange) = false)
    (i : Nat) (hi : HoldingInput) (hget : hs[i]? = some hi)
    (heq : upperTrim hi.ticker ≠ "CASH") :
    ∃ r ans, rows[i]? = some r ∧
      batchAnswer (fetchPriceGBP64 EXCHANGES P now) (priceLookups hs) s
        (upperTrim hi.ticker, upperTrim hi.exchange) = some ans ∧
      (∀ p, ans = some p →
        r.pricePerShare = some p ∧
        r.value = some (mathMax64 (.fin 0) (mathRound64 (p.mul (ofJSNumber hi.shares).orZero)))) ∧
      (ans = none → hi.defaultPrice = none → r.value = none ∧ r.pricePerShare = none) := by
  obtain ⟨_, hv, _, _⟩ := valueHoldings64_ok _ _ _ _ _ _ _ hok
  have hmem : hi ∈ hs := List.getElem?_mem hget
  have hnm : normalize64 hi ∈ hs.map normalize64 := List.mem_map.mpr ⟨hi, hmem, rfl⟩
  have hne : upperTrim hi.ticker ≠ "" := (hv _ hnm).2
  obtain ⟨ans, hans, hmap⟩ := priceMapOf64_own_pair EXCHANGES P now s hs hbar hi hmem hne heq
  refine ⟨_, ans, rows64_getElem _ _ _ _ _ _ _ hok i hi hget, hans, ?_⟩
  have ht : (normalize64 hi).ticker ≠ "CASH" := heq
  have hkey : makeKey (normalize64 hi).ticker (normalize64 hi).exchange
      = makeKey (upperTrim hi.ticker) (upperTrim hi.exchange) := rfl
  have hres : resolvePrice64 (priceMapOf64 EXCHANGES P now s hs) (normalize64 hi) = ans := by
    unfold resolvePrice64
    simp only [hkey, mapHas, hmap, Option.isSome_some, if_true, Option.join]
    rfl
  have hsh : (normalize64 hi).shares = (ofJSNumber hi.shares).orZero := rfl
  unfold withWeight64 resultRow64
  simp only [ht, if_false, hres, hsh]
  constructor
  · intro p hp
    simp [hp]
  · intro hp _
    simp [hp]

/-- Witness for C9: Lloyds, first of the two penny shares. -/
theorem valueHoldings64_equity_row_witness :
    (valueHoldings64 defaultExchanges penceProvider 0 State64.empty pennyShares).1
      = .ok pennySharesRows (.fin 16) ∧
    upperTrim "LLOY" ≠ "CASH" ∧
    ∃ r ans, pennySharesRows[0]? = some r ∧
      batchAnswer (fetchPriceGBP64 defaultExchanges penceProvider 0) (priceLookups pennyShares)
        State64.empty (upperTrim "LLOY", upperTrim "XLON") = some ans ∧
      (∀ p, ans = some p →
        r.pricePerShare = some p ∧
        r.value = some (mathMax64 (.fin 0)
          (mathRound64 (p.mul (ofJSNumber (JSNumber.fin 50)).orZero)))) ∧
      (ans = none → (none : Option ℚ) = none → r.value = none ∧ r.pricePerShare = none) :=
  ⟨by decide!, by decide!,
   valueHoldings64_equity_row defaultExchanges penceProvider 0 State64.empty pennyShares
     pennySharesRows (.fin 16) (by decide!) (by decide!) 0
     { name := "Lloyds", ticker := "LLOY", shares := .fin 50, exchange := "XLON",
       value := none, defaultPrice := none } (by decide!) (by decide!)⟩

/-- C10 (counterexample). Two cash holdings of 9007199254740992 (2 to the power 53) and 1:
both values are returned as numbers, yet the double sum drops the unit and the returned
total is 9007199254740992, not 9007199254740993. -/
theorem valueHoldings64_total_drops_unit :
    (valueHoldings64 defaultExchanges downProvider 0 State64.empty cashBeyondSafe).1
      = .ok cashBeyondSafeRows (.fin 9007199254740992) ∧
    cashBeyondSafeRows.map (fun r => r.value)
      = [some (.fin 9007199254740992), some (.fin 1)] ∧
    (9007199254740992 : ℚ) + 1 ≠ 9007199254740992 := by
  decide!

/-- C10 (amended). The total of a status 200 answer is the sum, taken in row order in
double precision, of the `value` fields of the returned rows that are numbers, a null
value counting for 0; it equals the exact sum of the values whenever these are finite and
that sum is at most 2 to the power 53, and whenever it is finite it differs from the exact
sum by at most the total divided by 2 to the power 52, per row. The returned rows carry
the values computed per holding unchanged, so a null value stays null in the output. -/
theorem valueHoldings64_total_is_sum (EXCHANGES : List Exchange) (P : Provider) (now : ℤ)
    (s : State64) (hs : List HoldingInput) (rows : List ResultRow64) (total : Float64)
    (hok : (valueHoldings64 EXCHANGES P now s hs).1 = .ok rows total) :
    total = (rows.map valueOrZero64).foldl Float64.add (.fin 0) ∧
    (∀ qs : List ℚ, rows.map valueOrZero64 = qs.map Float64.fin → qs.sum ≤ 2 ^ 53 →
      total = .fin qs.sum) ∧
    (∀ (qs : List ℚ) (t : ℚ), rows.map valueOrZero64 = qs.map Float64.fin → total = .fin t →
      |t - qs.sum| ≤ (rows.length : ℚ) * (t / 2 ^ 52)) ∧
    rows.map (fun r => r.value) = (hs.map (fun h =>
      (resultRow64 (priceMapOf64 EXCHANGES P now s hs) (normalize64 h)).value)) := by
  obtain ⟨_, _, htot, hrows⟩ := valueHoldings64_ok _ _ _ _ _ _ _ hok
  have hvals : rows.map valueOrZero64
      = ((hs.map normalize64).map (resultRow64 (priceMapOf64 EXCHANGES P now s hs))).map
          valueOrZero64 := by
    rw [hrows]
    simp only [List.map_map]
    rfl
  refine ⟨?_, ?_, ?_, ?_⟩
  · rw [hvals, ← totalOf64_eq_foldl]
    exact htot
  · intro qs hqs hsum
    exact (valueHoldings64_total_exact _ _ _ _ _ _ _ hok qs hqs hsum).1
  · intro qs t hqs ht
    have hlen : rows.length = qs.length := by
      have := congrArg List.length hqs
      simpa using this
    rw [hlen]
    exact (valueHoldings64_total_err _ _ _ _ _ _ _ hok qs hqs t ht).2
  · rw [hrows]
    simp only [List.map_map]
    rfl

/-- Witness for C10: cash holdings of 201 and 199 add up to 400. -/
theorem valueHoldings64_total_is_sum_witness :
    (valueHoldings64 defaultExchanges downProvider 0 State64.empty cash201and199).1
      = .ok cash201and199Rows (.fin 400) ∧
    cash201and199Rows.map valueOrZero64 = [(201 : ℚ), 199].map Float64.fin ∧
    ([(201 : ℚ), 199].sum ≤ 2 ^ 53 → Float64.fin 400 = .fin [(201 : ℚ), 199].sum) :=
  ⟨by decide!, by decide!,
   (valueHoldings64_total_is_sum defaultExchanges downProvider 0 State64.empty cash201and199
     cash201and199Rows (.fin 400) (by decide!)).2.1 [201, 199] (by decide!)⟩

/-- C11 (counterexample). The single holding Pipe/`A||B`/exchange `C` is not CASH and its
pair is `(A||B, C)`, yet the only lookup issued is for `(A, B)` and the quote request is
for `A`; and the holding without ticker on XNAS, which is not CASH either, gets no lookup
for its pair `('', XNAS)`. -/
theorem priceLookups_bar_ticker :
    barTicker.map (fun h => (upperTrim h.ticker, upperTrim h.exchange)) = [("A||B", "C")] ∧
    priceLookups barTicker = [("A", "B")] ∧
    ("A||B", "C") ∉ priceLookups barTicker ∧
    (valueHoldings defaultExchanges sampleProvider 0 State.empty barTicker).2.log
      = [.forexRates, .quote "A"] ∧
    noTicker.map (fun h => (upperTrim h.ticker, upperTrim h.exchange)) = [("", "XNAS")] ∧
    priceLookups noTicker = [] := by
  decide!

/-- C11 (amended). For every holdings list whose normalised tickers and exchanges contain
no `|`, the price lookups issued by `valueHoldings` are the distinct (ticker, exchange)
pairs of the holdings with a non-empty ticker other than `CASH`, each exactly once, in
the order of their first occurrence in the input; no lookup is issued for the pair of a
`CASH` holding. The calls of the batch are the calls over this list. -/
theorem priceLookups_first_occurrences (hs : List HoldingInput)
    (hbar : ∀ h ∈ hs,
      hasBar (upperTrim h.ticker) = false ∧ hasBar (upperTrim h.exchange) = false) :
    priceLookups hs = firstOccurrences (equityPairs hs) ∧
    (priceLookups hs).Nodup ∧
    (∀ p, p ∈ priceLookups hs ↔ p ∈ equityPairs hs) ∧
    (∀ h ∈ hs, upperTrim h.ticker = "CASH" →
      (upperTrim h.ticker, upperTrim h.exchange) ∉ priceLookups hs) ∧
    (∀ EXCHANGES P now s,
      fetchAll EXCHANGES P now (stockKeys (hs.map normalize)) s
        = fetchPairs EXCHANGES P now (priceLookups hs) s) := by
  have hnb := equityPairs_noBar hs hbar
  have hinj : ∀ a ∈ ([] : List (String × String)) ++ equityPairs hs,
      ∀ b ∈ ([] : List (String × String)) ++ equityPairs hs,
      makeKey a.1 a.2 = makeKey b.1 b.2 → a = b := by
    intro a ha b hb hab
    rw [List.nil_append] at ha hb
    have h1 := lookupArgs_makeKey a.1 a.2 (hnb a ha).1 (hnb a ha).2
    have h2 := lookupArgs_makeKey b.1 b.2 (hnb b hb).1 (hnb b hb).2
    rw [hab, h2] at h1
    exact h1.symm
  have hmain : priceLookups hs = firstOccurrences (equityPairs hs) := by
    unfold priceLookups
    rw [stockKeys_eq_map_equityPairs, uniqueKeys_eq_firstOccurrences]
    unfold firstOccurrences
    have hmap := firstOccurrencesAux_map (fun p : String × String => makeKey p.1 p.2) []
      (equityPairs hs) hinj
    rw [List.map_nil] at hmap
    rw [hmap, List.map_map]
    have hid : ∀ p ∈ firstOccurrencesAux [] (equityPairs hs),
        (lookupArgs ∘ fun p : String × String => makeKey p.1 p.2) p = id p := by
      intro p hp
      have hp2 : p ∈ equityPairs hs := ((mem_firstOccurrencesAux _ _ _).mp hp).1
      exact lookupArgs_makeKey p.1 p.2 (hnb p hp2).1 (hnb p hp2).2
    rw [List.map_congr_left hid, List.map_id]
  refine ⟨hmain, ?_, ?_, ?_, ?_⟩
  · rw [hmain]
    exact nodup_firstOccurrencesAux _ _
  · intro p
    rw [hmain, mem_firstOccurrences]
  · intro h _ hcash hmem
    rw [hmain, mem_firstOccurrences] at hmem
    unfold equityPairs at hmem
    obtain ⟨n, hn, hpair⟩ := List.mem_map.mp hmem
    have hn2 := (List.mem_filter.mp hn).2
    simp only [decide_eq_true_eq] at hn2
    have : n.ticker = "CASH" := by
      have := congrArg Prod.fst hpair
      simp only at this
      rw [this, hcash]
    exact hn2.2 this
  · intro EXCHANGES P now s
    exact fetchAll_eq_fetchPairs _ _ _ _ _

/-- Witness for C11: the theorem applied to a concrete request. -/
theorem priceLookups_first_occurrences_witness :
    priceLookups appleAndCash = [("AAPL", "XNAS")] ∧
    (priceLookups appleAndCash = firstOccurrences (equityPairs appleAndCash) ∧
    (priceLookups appleAndCash).Nodup ∧
    (∀ p, p ∈ priceLookups appleAndCash ↔ p ∈ equityPairs appleAndCash) ∧
    (∀ h ∈ appleAndCash, upperTrim h.ticker = "CASH" →
      (upperTrim h.ticker, upperTrim h.exchange) ∉ priceLookups appleAndCash) ∧
    (∀ EXCHANGES P now s,
      fetchAll EXCHANGES P now (stockKeys (appleAndCash.map normalize)) s
        = fetchPairs EXCHANGES P now (priceLookups appleAndCash) s)) :=
  ⟨by decide!, priceLookups_first_occurrences appleAndCash (by decide!)⟩

/-- C12 (counterexample). A price of 14.5 pence on the London Stock Exchange: in doubles
`(14.5 / 100) * 100` is 14.499999999999998, so `convertToGBP` returns 0.14, whereas
14.5 / 100 rounded half up to two decimals is 0.15. -/
theorem convertToGBP64_half_penny :
    toDouble 14.5 = .fin 14.5 ∧
    ((Float64.fin 14.5).div (.fin 100)).mul (.fin 100) = toDouble 14.499999999999998 ∧
    convertToGBP64 defaultExchanges (.fin 14.5) "XLON" fallbackRates64 = some (toDouble 0.14) ∧
    round2 (14.5 / 100) = 0.15 ∧
    toDouble 0.14 ≠ toDouble 0.15 := by
  decide!

/-- C12 (amended). For every exchange code whose registry record has currency `GBX`, every
price `p > 0` and every two rate pairs, `convertToGBP` gives the same result for both
pairs, namely `Math.round((p / 100) * 100) / 100` with the division, the multiplication
and the final division each rounded to a double. -/
theorem convertToGBP64_minor_unit (EXCHANGES : List Exchange) (code : String) (e : Exchange)
    (p : ℚ) (r1 r2 : Rates64)
    (hfind : findExchange EXCHANGES code = some e) (hcur : e.currency = "GBX") (hp : 0 < p) :
    convertToGBP64 EXCHANGES (.fin p) code r1 = convertToGBP64 EXCHANGES (.fin p) code r2 ∧
    convertToGBP64 EXCHANGES (.fin p) code r1
      = some ((mathRound64 (((Float64.fin p).div (.fin 100)).mul (.fin 100))).div (.fin 100)) := by
  have hc : currencyOf EXCHANGES code = "GBX" := by
    rw [currencyOf_of_find EXCHANGES code e hfind (by rw [hcur]; decide), hcur]
  constructor
  · rw [convertToGBP64_pos _ _ _ _ hp, convertToGBP64_pos _ _ _ _ hp]
    simp [hc]
  · rw [convertToGBP64_pos _ _ _ _ hp]
    simp [hc]

/-- Witness for C12: 123.45 pounds in pence on the London Stock Exchange. -/
theorem convertToGBP64_minor_unit_witness :
    findExchange defaultExchanges "XLON"
      = some { code := "XLON", name := "London Stock Exchange", suffix := ".L",
               currency := "GBX" } ∧
    (convertToGBP64 defaultExchanges (.fin 12345) "XLON"
        { usdGbp := toDouble 0.8, usdEur := toDouble 0.9 }
      = convertToGBP64 defaultExchanges (.fin 12345) "XLON"
        { usdGbp := toDouble 0.5, usdEur := .fin 3 } ∧
    convertToGBP64 defaultExchanges (.fin 12345) "XLON"
        { usdGbp := toDouble 0.8, usdEur := toDouble 0.9 }
      = some ((mathRound64 (((Float64.fin 12345).div (.fin 100)).mul (.fin 100))).div
          (.fin 100))) ∧
    (mathRound64 (((Float64.fin 12345).div (.fin 100)).mul (.fin 100))).div (.fin 100)
      = toDouble 123.45 :=
  ⟨by decide!,
   convertToGBP64_minor_unit defaultExchanges "XLON"
     { code := "XLON", name := "London Stock Exchange", suffix := ".L", currency := "GBX" }
     12345 { usdGbp := toDouble 0.8, usdEur := toDouble 0.9 }
     { usdGbp := toDouble 0.5, usdEur := .fin 3 }
     (by decide!) rfl (by norm_num),
   by decide!⟩

/-- C13. `convertToGBP` returns null exactly when the price is not a finite number
strictly greater than 0 (`NaN` for a missing or non-numeric input, zero, or negative);
for every finite price `p > 0`, every exchange code and every rate pair it returns a
number. -/
theorem convertToGBP_null_iff (EXCHANGES : List Exchange) (price : JSNumber) (code : String)
    (rates : Rates) :
    (convertToGBP EXCHANGES price code rates = none ↔ ¬ ∃ p, price = .fin p ∧ 0 < p) ∧
    (∀ p, 0 < p → ∃ q, convertToGBP EXCHANGES (.fin p) code rates = some q) := by
  have hsome : ∀ p, 0 < p → ∃ q, convertToGBP EXCHANGES (.fin p) code rates = some q := by
    intro p hp
    rw [convertToGBP_pos _ _ _ _ hp]
    split_ifs <;> exact ⟨_, rfl⟩
  refine ⟨?_, hsome⟩
  cases price with
  | NaN => simp [convertToGBP]
  | fin p =>
    by_cases hp : 0 < p
    · obtain ⟨q, hq⟩ := hsome p hp
      rw [hq]
      constructor
      · intro h
        cases h
      · intro h
        exact absurd ⟨p, rfl, hp⟩ h
    · have h1 : convertToGBP EXCHANGES (.fin p) code rates = none := by
        unfold convertToGBP
        simp [not_lt.mp hp]
      simp only [h1, true_iff]
      rintro ⟨q, hq, hq0⟩
      cases hq
      exact hp hq0

/-- Witness for C13: a positive price on NASDAQ, and the prices 0, -5 and `NaN`. -/
theorem convertToGBP_null_iff_witness :
    (∃ q, convertToGBP defaultExchanges (.fin 200) "XNAS" { usdGbp := 8 / 10, usdEur := 9 / 10 }
      = some q) ∧
    convertToGBP defaultExchanges (.fin 0) "XNAS" { usdGbp := 8 / 10, usdEur := 9 / 10 } = none ∧
    convertToGBP defaultExchanges (.fin (-5)) "XNAS" { usdGbp := 8 / 10, usdEur := 9 / 10 }
      = none ∧
    convertToGBP defaultExchanges .NaN "XNAS" { usdGbp := 8 / 10, usdEur := 9 / 10 } = none :=
  ⟨(convertToGBP_null_iff defaultExchanges (.fin 200) "XNAS"
      { usdGbp := 8 / 10, usdEur := 9 / 10 }).2 200 (by norm_num),
   by decide!, by decide!, by decide!⟩

/-- C14 (counterexample). 43.5 USD at the rate 0.77: `43.5 * 0.77` is 33.495 exactly, and
also when 0.77 is replaced by its double, so rounding half up gives 33.5, but the double
product times 100 is 3349.4999999999995 and `convertToGBP` returns 33.49. Likewise
52.67 EUR at the fallback pair gives 44.65, where the exact quotient rounds to 44.66. -/
theorem convertToGBP64_fx_tie :
    convertToGBP64 defaultExchanges (.fin 43.5) "XNAS"
      { usdGbp := toDouble 0.77, usdEur := toDouble 0.92 } = some (toDouble 33.49) ∧
    toDouble 0.77 = .fin (1733885856537641 / 2251799813685248) ∧
    round2 (43.5 * 0.77) = 33.5 ∧
    round2 (43.5 * (1733885856537641 / 2251799813685248)) = 33.5 ∧
    toDouble 33.49 ≠ toDouble 33.5 ∧
    toDouble 52.67 = .fin (3706321755837563 / 70368744177664) ∧
    fallbackRates64 = { usdGbp := .fin (3512807709348987 / 4503599627370496),
                        usdEur := .fin (8286623314361713 / 9007199254740992) } ∧
    convertToGBP64 defaultExchanges (toDouble 52.67) "XETR" fallbackRates64
      = some (toDouble 44.65) ∧
    round2 (52.67 * 0.78 / 0.92) = 44.66 ∧
    round2 ((3706321755837563 / 70368744177664) * (3512807709348987 / 4503599627370496)
      / (8286623314361713 / 9007199254740992)) = 44.66 ∧
    toDouble 44.65 ≠ toDouble 44.66 := by
  decide!

/-- C14 (amended). For every price `p > 0` and rate pair, `convertToGBP` returns
`Math.round((p * usdGbp) * 100) / 100` when the currency of the exchange is neither `GBX`
nor `EUR` (USD and every other code), and `Math.round(((p * usdGbp) / usdEur) * 100) / 100`
when the currency is `EUR` and the EUR rate is not zero, every multiplication and division
rounded to a double. -/
theorem convertToGBP64_fx (EXCHANGES : List Exchange) (code : String) (rates : Rates64) (p : ℚ)
    (hp : 0 < p) :
    (currencyOf EXCHANGES code ≠ "GBX" → currencyOf EXCHANGES code ≠ "EUR" →
      convertToGBP64 EXCHANGES (.fin p) code rates
        = some ((mathRound64 (((Float64.fin p).mul rates.usdGbp).mul (.fin 100))).div
            (.fin 100))) ∧
    (currencyOf EXCHANGES code = "EUR" → rates.usdEur ≠ .fin 0 →
      convertToGBP64 EXCHANGES (.fin p) code rates
        = some ((mathRound64 ((((Float64.fin p).mul rates.usdGbp).div rates.usdEur).mul
            (.fin 100))).div (.fin 100))) := by
  constructor
  · intro h1 h2
    rw [convertToGBP64_pos _ _ _ _ hp]
    simp [h1, h2]
  · intro h1 _
    have h2 : ¬ currencyOf EXCHANGES code = "GBX" := by
      rw [h1]
      decide
    rw [convertToGBP64_pos _ _ _ _ hp]
    simp [h1, h2]

/-- Witness for C14: 200 USD on NASDAQ and 200 EUR on XETRA at rates 0.8 and 0.9. -/
theorem convertToGBP64_fx_witness :
    currencyOf defaultExchanges "XNAS" = "USD" ∧
    currencyOf defaultExchanges "XETR" = "EUR" ∧
    convertToGBP64 defaultExchanges (.fin 200) "XNAS"
        { usdGbp := toDouble 0.8, usdEur := toDouble 0.9 }
      = some ((mathRound64 (((Float64.fin 200).mul (toDouble 0.8)).mul (.fin 100))).div
          (.fin 100)) ∧
    convertToGBP64 defaultExchanges (.fin 200) "XETR"
        { usdGbp := toDouble 0.8, usdEur := toDouble 0.9 }
      = some ((mathRound64 ((((Float64.fin 200).mul (toDouble 0.8)).div (toDouble 0.9)).mul
          (.fin 100))).div (.fin 100)) ∧
    (mathRound64 (((Float64.fin 200).mul (toDouble 0.8)).mul (.fin 100))).div (.fin 100)
      = .fin 160 ∧
    (mathRound64 ((((Float64.fin 200).mul (toDouble 0.8)).div (toDouble 0.9)).mul
      (.fin 100))).div (.fin 100) = toDouble 177.78 :=
  ⟨by decide!, by decide!,
   (convertToGBP64_fx defaultExchanges "XNAS" { usdGbp := toDouble 0.8, usdEur := toDouble 0.9 }
      200 (by norm_num)).1 (by decide!) (by decide!),
   (convertToGBP64_fx defaultExchanges "XETR" { usdGbp := toDouble 0.8, usdEur := toDouble 0.9 }
      200 (by norm_num)).2 (by decide!) (by decide!),
   by decide!, by decide!⟩

/-- C15 (counterexample). The empty exchange code is not in the default registry, yet the
price 200 is converted as a USD price: the result is 160 at `usdGbp = 0.8` and 100 at
`usdGbp = 0.5`, not 200, and it depends on the rates. -/
theorem convertToGBP64_unknown_exchange_uses_rates :
    findExchange defaultExchanges "" = none ∧
    convertToGBP64 defaultExchanges (.fin 200) "" { usdGbp := toDouble 0.8, usdEur := toDouble 0.9 }
      = some (.fin 160) ∧
    convertToGBP64 defaultExchanges (.fin 200) "" { usdGbp := toDouble 0.5, usdEur := toDouble 0.9 }
      = some (.fin 100) ∧
    round2 200 = 200 := by
  decide!

/-- C15 (amended). For every exchange code that is not in the registry (the empty code
included) and every price `p > 0`, `convertToGBP` treats the price as a USD price: the
result is `Math.round((p * usdGbp) * 100) / 100` in double precision, the value returned
for the same price on an exchange whose currency is USD, whatever the EUR rate is. -/
theorem convertToGBP64_unknown_exchange (EXCHANGES : List Exchange) (code : String)
    (rates : Rates64) (p : ℚ) (hfind : findExchange EXCHANGES code = none) (hp : 0 < p) :
    convertToGBP64 EXCHANGES (.fin p) code rates
      = some ((mathRound64 (((Float64.fin p).mul rates.usdGbp).mul (.fin 100))).div (.fin 100)) ∧
    (∀ code2 : String, currencyOf EXCHANGES code2 = "USD" →
      convertToGBP64 EXCHANGES (.fin p) code rates
        = convertToGBP64 EXCHANGES (.fin p) code2 rates) ∧
    (∀ e : Float64, convertToGBP64 EXCHANGES (.fin p) code rates
        = convertToGBP64 EXCHANGES (.fin p) code { rates with usdEur := e }) := by
  have hc := currencyOf_of_not_found EXCHANGES code hfind
  have h1 : ¬ ("USD" = "GBX") := by decide
  refine ⟨?_, ?_, ?_⟩
  · rw [convertToGBP64_pos _ _ _ _ hp]
    simp [hc]
  · intro code2 h2
    rw [convertToGBP64_pos _ _ _ _ hp, convertToGBP64_pos _ _ _ _ hp]
    simp [hc, h2]
  · intro e
    rw [convertToGBP64_pos _ _ _ _ hp, convertToGBP64_pos _ _ _ _ hp]
    simp [hc]

/-- Witness for C15: the empty code in the default registry. -/
theorem convertToGBP64_unknown_exchange_witness :
    findExchange defaultExchanges "" = none ∧
    convertToGBP64 defaultExchanges (.fin 200) ""
        { usdGbp := toDouble 0.8, usdEur := toDouble 0.9 }
      = some ((mathRound64 (((Float64.fin 200).mul (toDouble 0.8)).mul (.fin 100))).div
          (.fin 100)) ∧
    (mathRound64 (((Float64.fin 200).mul (toDouble 0.8)).mul (.fin 100))).div (.fin 100)
      = .fin 160 :=
  ⟨by decide!,
   (convertToGBP64_unknown_exchange defaultExchanges ""
     { usdGbp := toDouble 0.8, usdEur := toDouble 0.9 } 200 (by decide!) (by norm_num)).1,
   by decide!⟩

/-- C16. With `T` the upper-cased, trimmed ticker: `mapSymbolForExchange` returns `T` when
no record of the registry has the upper-cased, trimmed exchange code, returns `BRK.B` when
`T = BRK.B` whatever the exchange, and otherwise returns `T` followed by the suffix of the
record found. The lookup depends on the exchange code only through its upper-cased,
trimmed form, and for a registry of upper-cased, trimmed codes "not found" means that no
record matches case-insensitively after trimming. With the default registry
`mapSymbol("AAPL","XLON") = "AAPL.L"`, `mapSymbol("BRK.B","XNAS") = "BRK.B"` and
`mapSymbol("VOD","") = "VOD"`. -/
theorem mapSymbolForExchange_spec (EXCHANGES : List Exchange) (ticker code : String) :
    (findExchange EXCHANGES code = none →
      mapSymbolForExchange EXCHANGES ticker code = upperTrim ticker) ∧
    (upperTrim ticker = "BRK.B" → mapSymbolForExchange EXCHANGES ticker code = "BRK.B") ∧
    (∀ ex, findExchange EXCHANGES code = some ex → upperTrim ticker ≠ "BRK.B" →
      mapSymbolForExchange EXCHANGES ticker code = upperTrim ticker ++ ex.suffix) ∧
    (findExchange EXCHANGES code = none ↔ ∀ e ∈ EXCHANGES, e.code ≠ upperTrim code) ∧
    ((∀ e ∈ EXCHANGES, upperTrim e.code = e.code) →
      (findExchange EXCHANGES code = none ↔
        ∀ e ∈ EXCHANGES, upperTrim e.code ≠ upperTrim code)) ∧
    (∀ code2, upperTrim code2 = upperTrim code →
      mapSymbolForExchange EXCHANGES ticker code2 = mapSymbolForExchange EXCHANGES ticker code) ∧
    mapSymbolForExchange defaultExchanges "AAPL" "XLON" = "AAPL.L" ∧
    mapSymbolForExchange defaultExchanges "BRK.B" "XNAS" = "BRK.B" ∧
    mapSymbolForExchange defaultExchanges "VOD" "" = "VOD" := by
  have hnone : findExchange EXCHANGES code = none ↔ ∀ e ∈ EXCHANGES, e.code ≠ upperTrim code := by
    unfold findExchange
    rw [List.find?_eq_none]
    simp
  refine ⟨?_, ?_, ?_, hnone, ?_, ?_, by decide!, by decide!, by decide!⟩
  · intro h
    unfold mapSymbolForExchange
    simp [h]
  · intro h
    unfold mapSymbolForExchange
    cases hf : findExchange EXCHANGES code <;> simp [h]
  · intro ex h hne
    unfold mapSymbolForExchange
    simp [h, hne]
  · intro hnorm
    rw [hnone]
    constructor
    · intro h e he
      rw [hnorm e he]
      exact h e he
    · intro h e he
      rw [← hnorm e he]
      exact h e he
  · intro code2 h
    unfold mapSymbolForExchange findExchange
    rw [h]

/-- Witness for C16: a ticker on XETRA, a lower-case code and an unknown code. -/
theorem mapSymbolForExchange_spec_witness :
    mapSymbolForExchange defaultExchanges " sap " "xetr" = "SAP.DE" ∧
    mapSymbolForExchange defaultExchanges "sap" "NOPE" = "SAP" ∧
    mapSymbolForExchange defaultExchanges "brk.b" "XLON" = "BRK.B" :=
  ⟨((mapSymbolForExchange_spec defaultExchanges " sap " "xetr").2.2.1
      { code := "XETR", name := "XETRA (Germany)", suffix := ".DE", currency := "EUR" }
      (by decide!) (by decide!)).trans (by decide!),
   ((mapSymbolForExchange_spec defaultExchanges "sap" "NOPE").1 (by decide!)).trans (by decide!),
   (mapSymbolForExchange_spec defaultExchanges "brk.b" "XLON").2.1 (by decide!)⟩

/-- C17 (code bug). A combined-rates payload with `GBP: -0.78` and `EUR: 0.92` is accepted
at tier 1: `fetchFxRates` returns and caches the pair (-0.78, 0.92). Candle closes -1.25
and 1.1 are accepted at tier 2 and give the pair (-0.8, 10/11). The test
`usdGbp && usdEur` rejects only zero and `NaN`. -/
theorem fetchFxRates_accepts_negative_rate :
    fetchFxRates negativeRatesProvider 0 State.empty
      = ({ usdGbp := -78 / 100, usdEur := 92 / 100 },
         { priceCache := []
           fxCache := some { val := { usdGbp := -78 / 100, usdEur := 92 / 100 }, ts := 0 }
           log := [.forexRates] }) ∧
    (fetchFxRates negativeSpotProvider 0 State.empty).1
      = { usdGbp := -4 / 5, usdEur := 10 / 11 } := by
  decide!

/-- C18. Start from an empty or expired FX cache. If the combined-rates call fails or
yields no usable pair and both spot-pair calls throw or yield an unusable close, then
`fetchFxRates` returns the static pair (0.78, 0.92) and caches it with time stamp `now`,
and every call made less than 15 minutes later, whatever the provider would answer,
returns that pair and leaves the state, request log included, unchanged. -/
theorem fetchFxRates_fallback (P : Provider) (now : ℤ) (s : State)
    (hstart : s.fxCache = none ∨ ∃ c, s.fxCache = some c ∧ TTL_MS ≤ now - c.ts)
    (h1 : (P.rates s.log.length).bind (fun p => ratesOfPayload p.1 p.2) = none)
    (h2 : ∀ c, P.candle (s.log.length + 1) "OANDA:GBP_USD" = some c → invertedClose c = none)
    (_h3 : ∀ c, P.candle (s.log.length + 2) "OANDA:EUR_USD" = some c → invertedClose c = none) :
    (fetchFxRates P now s).1 = fallbackRates ∧
    fallbackRates = { usdGbp := 78 / 100, usdEur := 92 / 100 } ∧
    (fetchFxRates P now s).2.fxCache = some { val := fallbackRates, ts := now } ∧
    ∀ (P2 : Provider) (now2 : ℤ), now2 - now < TTL_MS →
      fetchFxRates P2 now2 (fetchFxRates P now s).2
        = (fallbackRates, (fetchFxRates P now s).2) := by
  have hmiss : ¬ fxFresh now s := by
    rintro ⟨c, hc, hlt⟩
    rcases hstart with h | ⟨c2, hc2, hge⟩
    · rw [h] at hc
      cases hc
    · rw [hc2] at hc
      cases hc
      exact absurd hlt (not_lt.mpr hge)
  have hval : (fetchFxRates P now s).1 = fallbackRates := by
    rw [fetchFxRates_miss P now s hmiss, h1]
    apply fetchFxSpot_fallback
    intro c hc
    rw [issue_log_length] at hc
    exact h2 c hc
  have hcache := (fetchFxRates_miss_cache P now s hmiss).1
  rw [hval] at hcache
  refine ⟨hval, rfl, hcache, ?_⟩
  intro P2 now2 hlt
  exact fetchFxRates_hit P2 now2 _ { val := fallbackRates, ts := now } hcache hlt

/-- Witness for C18: the provider is down at time 0; a second call at 899999 ms. -/
theorem fetchFxRates_fallback_witness :
    State.empty.fxCache = none ∧
    ((fetchFxRates downProvider 0 State.empty).1 = fallbackRates ∧
    fallbackRates = { usdGbp := 78 / 100, usdEur := 92 / 100 } ∧
    (fetchFxRates downProvider 0 State.empty).2.fxCache
      = some { val := fallbackRates, ts := 0 } ∧
    ∀ (P2 : Provider) (now2 : ℤ), now2 - 0 < TTL_MS →
      fetchFxRates P2 now2 (fetchFxRates downProvider 0 State.empty).2
        = (fallbackRates, (fetchFxRates downProvider 0 State.empty).2)) ∧
    fetchFxRates sampleProvider 899999 (fetchFxRates downProvider 0 State.empty).2
      = (fallbackRates, (fetchFxRates downProvider 0 State.empty).2) :=
  ⟨rfl,
   fetchFxRates_fallback downProvider 0 State.empty (Or.inl rfl) rfl
     (fun c h => by cases h) (fun c h => by cases h),
   by decide!⟩

/-- C19. The FX cache is strict on the TTL. A call at time `now` with a cached pair and
`now - fetchedAt < 15 min` returns the cached pair and changes nothing; a call issues no
provider request exactly when such a fresh pair is cached; at exactly 15 minutes the call
is a miss; and after every miss, whichever tier produced the result, the cache holds the
returned pair with time stamp `now`, the combined-rates request having been issued. -/
theorem fetchFxRates_ttl (P : Provider) (now : ℤ) (s : State) :
    (∀ c, s.fxCache = some c → now - c.ts < TTL_MS → fetchFxRates P now s = (c.val, s)) ∧
    ((fetchFxRates P now s).2.log = s.log ↔
      ∃ c, s.fxCache = some c ∧ now - c.ts < TTL_MS) ∧
    (∀ c, s.fxCache = some c → now - c.ts = TTL_MS →
      (fetchFxRates P now s).2.log ≠ s.log) ∧
    ((¬ ∃ c, s.fxCache = some c ∧ now - c.ts < TTL_MS) →
      (fetchFxRates P now s).2.fxCache
        = some { val := (fetchFxRates P now s).1, ts := now } ∧
      ∃ more, (fetchFxRates P now s).2.log = s.log ++ .forexRates :: more) := by
  have hiff : (fetchFxRates P now s).2.log = s.log ↔
      ∃ c, s.fxCache = some c ∧ now - c.ts < TTL_MS := by
    constructor
    · intro hlog
      by_contra hmiss
      obtain ⟨_, _, more, hm⟩ := fetchFxRates_miss_cache P now s hmiss
      rw [hm] at hlog
      have := congrArg List.length hlog
      simp at this
    · rintro ⟨c, hc, hlt⟩
      rw [fetchFxRates_hit P now s c hc hlt]
  refine ⟨fun c hc hlt => fetchFxRates_hit P now s c hc hlt, hiff, ?_, ?_⟩
  · intro c hc heq hlog
    obtain ⟨c2, hc2, hlt⟩ := hiff.mp hlog
    rw [hc] at hc2
    cases hc2
    rw [heq] at hlt
    exact lt_irrefl _ hlt
  · intro hmiss
    obtain ⟨ha, _, hb⟩ := fetchFxRates_miss_cache P now s hmiss
    exact ⟨ha, hb⟩

/-- Witness for C19: a pair cached at time 0, read at 899999 ms and at 900000 ms. -/
theorem fetchFxRates_ttl_witness :
    fetchFxRates downProvider 899999 cachedFxState
      = ({ usdGbp := 8 / 10, usdEur := 9 / 10 }, cachedFxState) ∧
    (fetchFxRates downProvider 900000 cachedFxState).2.log ≠ cachedFxState.log ∧
    (fetchFxRates downProvider 900000 cachedFxState).2.fxCache
      = some { val := fallbackRates, ts := 900000 } :=
  ⟨(fetchFxRates_ttl downProvider 899999 cachedFxState).1
      { val := { usdGbp := 8 / 10, usdEur := 9 / 10 }, ts := 0 } rfl (by decide),
   (fetchFxRates_ttl downProvider 900000 cachedFxState).2.2.1
      { val := { usdGbp := 8 / 10, usdEur := 9 / 10 }, ts := 0 } rfl (by decide),
   by decide!⟩

/-- C20. On a cache miss: when the combined-rates payload carries two usable rates, that
pair is returned and cached and the only request issued is the combined-rates one (no
spot-pair call); when the combined-rates call yields no usable pair and the two
spot-pair calls return closes `g` and `e` that are finite and positive, `fetchFxRates`
returns and caches the inverted pair `usdGbp = 1/g`, `usdEur = 1/e`. -/
theorem fetchFxRates_tiers (P : Provider) (now : ℤ) (s : State)
    (hmiss : ¬ ∃ c, s.fxCache = some c ∧ now - c.ts < TTL_MS) :
    (∀ a b, P.rates s.log.length = some (.fin a, .fin b) → a ≠ 0 → b ≠ 0 →
      fetchFxRates P now s =
        ({ usdGbp := a, usdEur := b },
         { priceCache := s.priceCache
           fxCache := some { val := { usdGbp := a, usdEur := b }, ts := now }
           log := s.log ++ [.forexRates] })) ∧
    (∀ g e, (P.rates s.log.length).bind (fun p => ratesOfPayload p.1 p.2) = none →
      P.candle (s.log.length + 1) "OANDA:GBP_USD" = some (some (.fin g)) →
      P.candle (s.log.length + 2) "OANDA:EUR_USD" = some (some (.fin e)) →
      0 < g → 0 < e →
      fetchFxRates P now s =
        ({ usdGbp := 1 / g, usdEur := 1 / e },
         { priceCache := s.priceCache
           fxCache := some { val := { usdGbp := 1 / g, usdEur := 1 / e }, ts := now }
           log := s.log ++ [.forexRates, .forexCandle "OANDA:GBP_USD",
                            .forexCandle "OANDA:EUR_USD"] })) := by
  constructor
  · intro a b hr ha hb
    rw [fetchFxRates_miss P now s hmiss, hr]
    simp [ratesOfPayload, ha, hb, cacheRates, State.issue]
  · intro g e h1 hg he hgpos hepos
    have hg0 : g ≠ 0 := ne_of_gt hgpos
    have he0 : e ≠ 0 := ne_of_gt hepos
    rw [fetchFxRates_miss P now s hmiss, h1]
    unfold fetchFxSpot
    have hl1 : (s.issue .forexRates).log.length = s.log.length + 1 := issue_log_length _ _
    have hl2 : ((s.issue .forexRates).issue (.forexCandle "OANDA:GBP_USD")).log.length
        = s.log.length + 2 := by
      rw [issue_log_length, issue_log_length]
    simp only [hl1, hl2, hg, he]
    have hr : ratesOfCandles (some (.fin g)) (some (.fin e))
        = some { usdGbp := 1 / g, usdEur := 1 / e } := by
      simp [ratesOfCandles, invertedClose, hg0, he0]
    simp only [hr]
    simp [cacheRates, State.issue]

/-- Witness for C20: combined rates (0.8, 0.9), and closes 1.25 and 1.1. -/
theorem fetchFxRates_tiers_witness :
    fetchFxRates sampleProvider 0 State.empty
      = ({ usdGbp := 8 / 10, usdEur := 9 / 10 },
         { priceCache := []
           fxCache := some { val := { usdGbp := 8 / 10, usdEur := 9 / 10 }, ts := 0 }
           log := [] ++ [.forexRates] }) ∧
    fetchFxRates spotProvider 0 State.empty
      = ({ usdGbp := 1 / (5 / 4), usdEur := 1 / (11 / 10) },
         { priceCache := []
           fxCache := some { val := { usdGbp := 1 / (5 / 4), usdEur := 1 / (11 / 10) }, ts := 0 }
           log := [] ++ [.forexRates, .forexCandle "OANDA:GBP_USD",
                         .forexCandle "OANDA:EUR_USD"] }) :=
  ⟨(fetchFxRates_tiers sampleProvider 0 State.empty (by rintro ⟨c, hc, _⟩; cases hc)).1
      (8 / 10) (9 / 10) rfl (by norm_num) (by norm_num),
   (fetchFxRates_tiers spotProvider 0 State.empty (by rintro ⟨c, hc, _⟩; cases hc)).2
      (5 / 4) (11 / 10) rfl (by decide!) (by decide!) (by norm_num) (by norm_num)⟩

/-- C21 (counterexample). With a provider whose first quote request fails, two calls
`fetchPriceGBP("AAPL", "XNAS")` made one second apart from a fresh process issue two quote
requests in total, and the second call returns 160 while the first returned null. -/
theorem fetchPriceGBP_twice_after_failure :
    (1000 : ℤ) - 0 < TTL_MS ∧
    (fetchPriceGBP defaultExchanges recoveringProvider 0 "AAPL" "XNAS" State.empty).1 = none ∧
    (fetchPriceGBP defaultExchanges recoveringProvider 1000 "AAPL" "XNAS"
      (fetchPriceGBP defaultExchanges recoveringProvider 0 "AAPL" "XNAS" State.empty).2).1
      = some 160 ∧
    (fetchPriceGBP defaultExchanges recoveringProvider 1000 "AAPL" "XNAS"
      (fetchPriceGBP defaultExchanges recoveringProvider 0 "AAPL" "XNAS" State.empty).2).2.log
      = [.forexRates, .quote "AAPL", .quote "AAPL"] ∧
    quoteCount (fetchPriceGBP defaultExchanges recoveringProvider 1000 "AAPL" "XNAS"
      (fetchPriceGBP defaultExchanges recoveringProvider 0 "AAPL" "XNAS" State.empty).2).2.log
      = 2 := by
  decide!

/-- C21 (amended). For every ticker, exchange code and provider behaviour: when a call
`fetchPriceGBP(t, ex)` misses the cache and returns a price, it has issued exactly one
quote request, and a second call `fetchPriceGBP(t, ex)` made less than 15 minutes after it
returns the identical value and leaves the state, request log included, unchanged; the
two calls issue exactly one quote request in total. -/
theorem fetchPriceGBP_twice (EXCHANGES : List Exchange) (P : Provider) (now1 now2 : ℤ)
    (ticker exchangeCode : String) (s : State) (p : ℚ)
    (hmiss : ¬ priceFresh now1 (priceKey ticker exchangeCode) s)
    (hfirst : (fetchPriceGBP EXCHANGES P now1 ticker exchangeCode s).1 = some p)
    (hlt : now2 - now1 < TTL_MS) :
    fetchPriceGBP EXCHANGES P now2 ticker exchangeCode
        (fetchPriceGBP EXCHANGES P now1 ticker exchangeCode s).2
      = (some p, (fetchPriceGBP EXCHANGES P now1 ticker exchangeCode s).2) ∧
    quoteCount (fetchPriceGBP EXCHANGES P now1 ticker exchangeCode s).2.log
      = quoteCount s.log + 1 ∧
    quoteCount (fetchPriceGBP EXCHANGES P now2 ticker exchangeCode
        (fetchPriceGBP EXCHANGES P now1 ticker exchangeCode s).2).2.log
      = quoteCount s.log + 1 := by
  have hm := fetchPriceGBP_miss EXCHANGES P now1 ticker exchangeCode s hmiss
  rw [hm] at hfirst
  obtain ⟨hok, hcache⟩ := fetchPriceMiss_some _ _ _ _ _ _ _ p hfirst
  have hcount : quoteCount (fetchPriceGBP EXCHANGES P now1 ticker exchangeCode s).2.log
      = quoteCount s.log + 1 := by
    rw [hm]
    exact fetchPriceMiss_quoteCount _ _ _ _ _ _ _
  have hget : mapGet (fetchPriceGBP EXCHANGES P now1 ticker exchangeCode s).2.priceCache
      (priceKey ticker exchangeCode) = some { price := p, ts := now1 } := by
    rw [hm, hcache, mapGet_mapSet]
    simp
  have hsecond := fetchPriceGBP_hit EXCHANGES P now2 ticker exchangeCode
    (fetchPriceGBP EXCHANGES P now1 ticker exchangeCode s).2 { price := p, ts := now1 }
    hget hok.1 hlt
  refine ⟨hsecond, hcount, ?_⟩
  rw [hsecond]
  exact hcount

/-- Witness for C21: AAPL on NASDAQ quoted at 200, asked at 0 ms and at 899999 ms. -/
theorem fetchPriceGBP_twice_witness :
    (fetchPriceGBP defaultExchanges sampleProvider 0 "AAPL" "XNAS" State.empty).1 = some 160 ∧
    (fetchPriceGBP defaultExchanges sampleProvider 899999 "AAPL" "XNAS"
        (fetchPriceGBP defaultExchanges sampleProvider 0 "AAPL" "XNAS" State.empty).2
      = (some 160, (fetchPriceGBP defaultExchanges sampleProvider 0 "AAPL" "XNAS" State.empty).2) ∧
    quoteCount (fetchPriceGBP defaultExchanges sampleProvider 0 "AAPL" "XNAS" State.empty).2.log
      = quoteCount State.empty.log + 1 ∧
    quoteCount (fetchPriceGBP defaultExchanges sampleProvider 899999 "AAPL" "XNAS"
        (fetchPriceGBP defaultExchanges sampleProvider 0 "AAPL" "XNAS" State.empty).2).2.log
      = quoteCount State.empty.log + 1) :=
  ⟨by decide!,
   fetchPriceGBP_twice defaultExchanges sampleProvider 0 899999 "AAPL" "XNAS" State.empty 160
     (by rintro ⟨c, hc, _⟩; cases hc) (by decide!) (by decide)⟩

/-- C22. Whenever a call `fetchPriceGBP(t, ex)` misses the cache and the quote request
fails, or the normalised price is null or not positive (a positive raw price that rounds
to 0.00 included), the call returns null, has issued one quote request and leaves the
price cache exactly as it was; so the next call for the same key, made at a time that is
not earlier, misses the cache again and issues a new quote request. -/
theorem fetchPriceGBP_failure (EXCHANGES : List Exchange) (P : Provider) (now : ℤ)
    (ticker exchangeCode : String) (s : State)
    (hmiss : ¬ priceFresh now (priceKey ticker exchangeCode) s)
    (hfail : P.quote (fetchFxRates P now s).2.log.length
        (mapSymbolForExchange EXCHANGES ticker exchangeCode) = none ∨
      ∃ raw, P.quote (fetchFxRates P now s).2.log.length
          (mapSymbolForExchange EXCHANGES ticker exchangeCode) = some raw ∧
        (convertToGBP EXCHANGES (numberOfNullable raw) exchangeCode (fetchFxRates P now s).1
            = none ∨
          ∃ g, convertToGBP EXCHANGES (numberOfNullable raw) exchangeCode
              (fetchFxRates P now s).1 = some g ∧ g ≤ 0)) :
    (fetchPriceGBP EXCHANGES P now ticker exchangeCode s).1 = none ∧
    (fetchPriceGBP EXCHANGES P now ticker exchangeCode s).2.priceCache = s.priceCache ∧
    quoteCount (fetchPriceGBP EXCHANGES P now ticker exchangeCode s).2.log
      = quoteCount s.log + 1 ∧
    ∀ (P2 : Provider) (now2 : ℤ), now ≤ now2 →
      quoteCount (fetchPriceGBP EXCHANGES P2 now2 ticker exchangeCode
          (fetchPriceGBP EXCHANGES P now ticker exchangeCode s).2).2.log
        = quoteCount (fetchPriceGBP EXCHANGES P now ticker exchangeCode s).2.log + 1 := by
  have hm := fetchPriceGBP_miss EXCHANGES P now ticker exchangeCode s hmiss
  have hnone : (fetchPriceGBP EXCHANGES P now ticker exchangeCode s).1 = none := by
    rw [hm]
    exact fetchPriceMiss_fail _ _ _ _ _ _ _ hfail
  have hcache : (fetchPriceGBP EXCHANGES P now ticker exchangeCode s).2.priceCache
      = s.priceCache := by
    rw [hm] at hnone ⊢
    exact fetchPriceMiss_none _ _ _ _ _ _ _ hnone
  refine ⟨hnone, hcache, ?_, ?_⟩
  · rw [hm]
    exact fetchPriceMiss_quoteCount _ _ _ _ _ _ _
  · intro P2 now2 hle
    have hmiss2 := priceFresh_mono now now2 (priceKey ticker exchangeCode) s _ hcache hle hmiss
    rw [fetchPriceGBP_miss EXCHANGES P2 now2 ticker exchangeCode _ hmiss2]
    exact fetchPriceMiss_quoteCount _ _ _ _ _ _ _

/-- Witness for C22: VOD on the London Stock Exchange quoted at 0.4 pence, which
normalises to 0.00. -/
theorem fetchPriceGBP_failure_witness :
    convertToGBP defaultExchanges (numberOfNullable (some (2 / 5))) "XLON"
      { usdGbp := 8 / 10, usdEur := 9 / 10 } = some 0 ∧
    ((fetchPriceGBP defaultExchanges pennyProvider 0 "VOD" "XLON" State.empty).1 = none ∧
    (fetchPriceGBP defaultExchanges pennyProvider 0 "VOD" "XLON" State.empty).2.priceCache
      = State.empty.priceCache ∧
    quoteCount (fetchPriceGBP defaultExchanges pennyProvider 0 "VOD" "XLON" State.empty).2.log
      = quoteCount State.empty.log + 1 ∧
    ∀ (P2 : Provider) (now2 : ℤ), 0 ≤ now2 →
      quoteCount (fetchPriceGBP defaultExchanges P2 now2 "VOD" "XLON"
          (fetchPriceGBP defaultExchanges pennyProvider 0 "VOD" "XLON" State.empty).2).2.log
        = quoteCount
            (fetchPriceGBP defaultExchanges pennyProvider 0 "VOD" "XLON" State.empty).2.log
          + 1) :=
  ⟨by decide!,
   fetchPriceGBP_failure defaultExchanges pennyProvider 0 "VOD" "XLON" State.empty
     (by rintro ⟨c, hc, _⟩; cases hc)
     (Or.inr ⟨some (2 / 5), by decide!, Or.inr ⟨0, by decide!, le_refl _⟩⟩)⟩

/-- C23 (counterexample). A stored holding with ticker `A||B` on exchange `C` and no
defaultPrice, with a provider that quotes the symbol A only: the key `A||B||C` is split
into the lookup of A on B, so the holding gets `defaultPrice = 160`, the price of A,
although the lookup of its own pair finds no price. -/
theorem refreshDefaults_bar_ticker :
    (refreshDefaults defaultExchanges symbolAProvider 0 State.empty barStored).1
      = [ { ticker := "A||B", exchange := "C", defaultPrice := .number 160,
            others := [("name", "\"Pipe\""), ("shares", "1")] } ] ∧
    (fetchPriceGBP defaultExchanges symbolAProvider 0 "A||B" "C" State.empty).1 = none ∧
    (fetchPriceGBP defaultExchanges symbolAProvider 0 "A" "B" State.empty).1 = some 160 := by
  decide!

/-- C23 (amended). For every stored holdings list whose upper-cased tickers and exchanges
contain no `|`, every provider, clock and cache state, the list written by the defaults
handler has, at the position of each holding: `defaultPrice = 1` when the upper-cased
ticker is `CASH`; `defaultPrice = p` when the batch's call `fetchPriceGBP(ticker, exchange)`
for its own pair returned a price `p`, which is positive; and otherwise the holding
itself, with its previous `defaultPrice` unchanged, so that `defaultPrice` is absent in
the output only if it was absent before. -/
theorem refreshDefaults_own_pair (EXCHANGES : List Exchange) (P : Provider) (now : ℤ)
    (s : State) (current : List StoredHolding)
    (hbar : ∀ h ∈ current, hasBar (jsToUpperCase h.ticker) = false ∧
      hasBar (jsToUpperCase h.exchange) = false)
    (i : Nat) (h : StoredHolding) (hget : current[i]? = some h) :
    ∃ o, (refreshDefaults EXCHANGES P now s current).1[i]? = some o ∧
      (jsToUpperCase h.ticker = "CASH" → o.defaultPrice = .number 1) ∧
      (jsToUpperCase h.ticker ≠ "CASH" →
        ∀ p, batchAnswer (fetchPriceGBP EXCHANGES P now) ((defaultsKeys current).map lookupArgs)
            s (jsToUpperCase h.ticker, jsToUpperCase h.exchange) = some (some p) →
          0 < p ∧ o.defaultPrice = .number p) ∧
      (jsToUpperCase h.ticker ≠ "CASH" →
        (∀ p, batchAnswer (fetchPriceGBP EXCHANGES P now)
            ((defaultsKeys current).map lookupArgs) s
            (jsToUpperCase h.ticker, jsToUpperCase h.exchange) ≠ some (some p)) → o = h) ∧
      (o.defaultPrice = .absent → h.defaultPrice = .absent) := by
  have hm : h ∈ current := List.getElem?_mem hget
  have hown := fetchedFor_own_pair EXCHANGES P now s current hbar h hm
  have hpos := fillPriceMap_pos (defaultsKeys current)
    (fetchAll EXCHANGES P now (defaultsKeys current) s).1 []
    (fun k p hk => by simp [mapGet] at hk)
  have hlen : (fetchAll EXCHANGES P now (defaultsKeys current) s).1.length
      = (defaultsKeys current).length := fetchAll_length _ _ _ _ _
  have hjoin := fetchedFor_eq_join current _ hlen h hm
  refine ⟨_, refreshDefaultsWith_getElem _ current i h hget, ?_, ?_, ?_, ?_⟩
  · intro ht
    unfold updateDefault
    simp only [ht, if_true]
  · intro ht p hp
    have hf : fetchedFor (fillPriceMap (defaultsKeys current)
        (fetchAll EXCHANGES P now (defaultsKeys current) s).1 []) h = some p := by
      rw [hown ht, hp]
      rfl
    have hp0 : 0 < p := hpos _ p (Option.join_eq_some.mp ((hjoin ht).symm.trans hf))
    exact ⟨hp0, by rw [updateDefault_price _ h p ht hf hp0]⟩
  · intro ht hp
    apply updateDefault_no_price _ h ht
    rw [hown ht]
    cases hb : batchAnswer (fetchPriceGBP EXCHANGES P now)
        ((defaultsKeys current).map lookupArgs) s
        (jsToUpperCase h.ticker, jsToUpperCase h.exchange) with
    | none => rfl
    | some ans =>
      cases ans with
      | none => rfl
      | some p => exact absurd hb (hp p)
  · intro habs
    by_cases ht : jsToUpperCase h.ticker = "CASH"
    · unfold updateDefault at habs
      simp only [ht, if_true] at habs
      cases habs
    · cases hf : fetchedFor (fillPriceMap (defaultsKeys current)
          (fetchAll EXCHANGES P now (defaultsKeys current) s).1 []) h with
      | none =>
        rw [updateDefault_no_price _ h ht hf] at habs
        exact habs
      | some p =>
        have hp0 : 0 < p := hpos _ p (Option.join_eq_some.mp ((hjoin ht).symm.trans hf))
        rw [updateDefault_price _ h p ht hf hp0] at habs
        cases habs

/-- Witness for C23: Apple, first of three stored holdings, gets the live price 160. -/
theorem refreshDefaults_own_pair_witness :
    (refreshDefaults defaultExchanges sampleProvider 0 State.empty storedHoldings).1
      = storedHoldingsRefreshed ∧
    batchAnswer (fetchPriceGBP defaultExchanges sampleProvider 0)
      ((defaultsKeys storedHoldings).map lookupArgs) State.empty
      (jsToUpperCase "AAPL", jsToUpperCase "XNAS") = some (some 160) ∧
    ∃ o, (refreshDefaults defaultExchanges sampleProvider 0 State.empty storedHoldings).1[0]?
        = some o ∧
      (jsToUpperCase "AAPL" = "CASH" → o.defaultPrice = .number 1) ∧
      (jsToUpperCase "AAPL" ≠ "CASH" →
        ∀ p, batchAnswer (fetchPriceGBP defaultExchanges sampleProvider 0)
            ((defaultsKeys storedHoldings).map lookupArgs) State.empty
            (jsToUpperCase "AAPL", jsToUpperCase "XNAS") = some (some p) →
          0 < p ∧ o.defaultPrice = .number p) ∧
      (jsToUpperCase "AAPL" ≠ "CASH" →
        (∀ p, batchAnswer (fetchPriceGBP defaultExchanges sampleProvider 0)
            ((defaultsKeys storedHoldings).map lookupArgs) State.empty
            (jsToUpperCase "AAPL", jsToUpperCase "XNAS") ≠ some (some p)) →
          o = { ticker := "AAPL", exchange := "XNAS", defaultPrice := .absent,
                others := [("name", "\"Apple\""), ("shares", "10")] }) ∧
      (o.defaultPrice = .absent → DefaultPriceField.absent = .absent) :=
  ⟨by decide!, by decide!,
   refreshDefaults_own_pair defaultExchanges sampleProvider 0 State.empty storedHoldings
     (by decide!) 0
     { ticker := "AAPL", exchange := "XNAS", defaultPrice := .absent,
       others := [("name", "\"Apple\""), ("shares", "10")] } (by decide!)⟩

/-- C24. Under a fixed price oracle, an assignment of a price or null to every
(ticker, exchange) lookup, the defaults handler is idempotent: applied to its own output
it yields that same output. The handler coincides with the oracle version whenever its
price batch answers as the oracle does. -/
theorem refreshDefaults_idempotent (oracle : String → String → Option ℚ)
    (current : List StoredHolding) :
    refreshUnderOracle oracle (refreshUnderOracle oracle current)
      = refreshUnderOracle oracle current ∧
    ∀ (EXCHANGES : List Exchange) (P : Provider) (now : ℤ) (s : State),
      (fetchAll EXCHANGES P now (defaultsKeys current) s).1
          = (defaultsKeys current).map (fun k => oracle (lookupArgs k).1 (lookupArgs k).2) →
        (refreshDefaults EXCHANGES P now s current).1 = refreshUnderOracle oracle current := by
  constructor
  · unfold refreshUnderOracle refreshDefaultsWith
    rw [defaultsKeys_congr current _ (fun h =>
      ⟨(updateDefault_fields _ h).1, (updateDefault_fields _ h).2.1⟩)]
    rw [List.map_map]
    apply List.map_congr_left
    intro h _
    exact updateDefault_idem _ h
  · intro EXCHANGES P now s hresp
    unfold refreshDefaults refreshUnderOracle
    simp only [hresp]

/-- Witness for C24: three stored holdings and an oracle that knows AAPL only. -/
theorem refreshDefaults_idempotent_witness :
    refreshUnderOracle appleOracle storedHoldings = storedHoldingsRefreshed ∧
    refreshUnderOracle appleOracle storedHoldingsRefreshed = storedHoldingsRefreshed ∧
    refreshUnderOracle appleOracle (refreshUnderOracle appleOracle storedHoldings)
      = refreshUnderOracle appleOracle storedHoldings :=
  ⟨by decide!, by decide!, (refreshDefaults_idempotent appleOracle storedHoldings).1⟩

/-- C25 (counterexample). The body `{"holdings":[null]}`: the array is not empty and holds
no record without name or ticker, yet the handler answers with status 500, which is neither
the validation error nor a result list with a total; no request is sent. -/
theorem postHoldingsCalc_null_element :
    postHoldingsCalc defaultExchanges sampleProvider 0 State.empty (some [none])
      = (.serverError, State.empty) ∧
    (∀ e, HttpReply.serverError ≠ .reply (.badRequest e)) ∧
    (∀ rows total, HttpReply.serverError ≠ .reply (.ok rows total)) :=
  ⟨by decide!, (fun _ h => by cases h), (fun _ _ h => by cases h)⟩

/-- C25 (amended). The handler answers with the validation error (status 400) exactly when
the holdings input is missing or not a list, is the empty list, or is a list of records
one of which has an empty name or an empty ticker after trimming; it answers with status
500 exactly when the list is not empty and has a `null` element; in every other case it
answers with a result list and a total. -/
theorem postHoldingsCalc_outcomes (EXCHANGES : List Exchange) (P : Provider) (now : ℤ)
    (s : State) (body : Option (List (Option HoldingInput))) :
    ((∃ e, (postHoldingsCalc EXCHANGES P now s body).1 = .reply (.badRequest e)) ↔
      (body = none ∨ body = some [] ∨
        ∃ hs : List HoldingInput, body = some (hs.map some) ∧
          ∃ h ∈ hs, jsTrim h.name = "" ∨ upperTrim h.ticker = "")) ∧
    ((postHoldingsCalc EXCHANGES P now s body).1 = .serverError ↔
      ∃ l, body = some l ∧ l ≠ [] ∧ none ∈ l) ∧
    (¬ (body = none ∨ body = some [] ∨
        ∃ hs : List HoldingInput, body = some (hs.map some) ∧
          ∃ h ∈ hs, jsTrim h.name = "" ∨ upperTrim h.ticker = "") →
      ¬ (∃ l, body = some l ∧ l ≠ [] ∧ none ∈ l) →
      ∃ rows total, (postHoldingsCalc EXCHANGES P now s body).1 = .reply (.ok rows total)) := by
  have h400 : (∃ e, (postHoldingsCalc EXCHANGES P now s body).1 = .reply (.badRequest e)) ↔
      (body = none ∨ body = some [] ∨
        ∃ hs : List HoldingInput, body = some (hs.map some) ∧
          ∃ h ∈ hs, jsTrim h.name = "" ∨ upperTrim h.ticker = "") := by
    unfold postHoldingsCalc
    cases body with
    | none =>
      simp only [Option.getD_none, List.length_nil, if_true, true_or, iff_true]
      exact ⟨_, rfl⟩
    | some l =>
      simp only [Option.getD_some]
      by_cases hnil : l = []
      · subst hnil
        simp only [List.length_nil, if_true, true_or, or_true, iff_true]
        exact ⟨_, rfl⟩
      · have hlen : ¬ l.length = 0 := fun h => hnil (List.length_eq_zero.mp h)
        rw [if_neg hlen]
        by_cases hall : l.all Option.isSome = true
        · rw [if_pos hall]
          have hl := (all_isSome_iff l).mp hall
          have hne : l.filterMap id ≠ [] := by
            intro h0
            rw [h0] at hl
            exact hnil hl
          have hiff := valueHoldings_rejects_iff EXCHANGES P now s (l.filterMap id)
          constructor
          · rintro ⟨e, he⟩
            have he2 : (valueHoldings EXCHANGES P now s (l.filterMap id)).1 = .badRequest e := by
              injection he
            rcases hiff.mp ⟨e, he2⟩ with h1 | h1
            · exact absurd h1 hne
            · exact Or.inr (Or.inr ⟨l.filterMap id, by rw [← hl], h1⟩)
          · rintro (h1 | h1 | ⟨hs, h1, hbad⟩)
            · cases h1
            · exact absurd (Option.some.inj h1) hnil
            · have hl2 : l = hs.map some := Option.some.inj h1
              have hfm : l.filterMap id = hs := by
                rw [hl2]
                simp [List.filterMap_map]
              obtain ⟨e, he⟩ := hiff.mpr (Or.inr (by rw [hfm]; exact hbad))
              exact ⟨e, by rw [he]⟩
        · rw [if_neg hall]
          constructor
          · rintro ⟨e, he⟩
            cases he
          · rintro (h1 | h1 | ⟨hs, h1, _⟩)
            · cases h1
            · exact absurd (Option.some.inj h1) hnil
            · exfalso
              apply hall
              rw [Option.some.inj h1]
              simp
  have h500 : (postHoldingsCalc EXCHANGES P now s body).1 = .serverError ↔
      ∃ l, body = some l ∧ l ≠ [] ∧ none ∈ l := by
    unfold postHoldingsCalc
    cases body with
    | none =>
      simp only [Option.getD_none, List.length_nil, if_true]
      constructor
      · intro h
        cases h
      · rintro ⟨l, h, _⟩
        cases h
    | some l =>
      simp only [Option.getD_some]
      by_cases hnil : l = []
      · subst hnil
        simp only [List.length_nil, if_true]
        constructor
        · intro h
          cases h
        · rintro ⟨l, h, hne, _⟩
          exact absurd (Option.some.inj h).symm hne
      · have hlen : ¬ l.length = 0 := fun h => hnil (List.length_eq_zero.mp h)
        rw [if_neg hlen]
        by_cases hall : l.all Option.isSome = true
        · rw [if_pos hall]
          constructor
          · intro h
            cases h
          · rintro ⟨l2, h, _, hmem⟩
            rw [← Option.some.inj h] at hmem
            exact absurd hall ((all_isSome_false_iff l).mpr hmem)
        · rw [if_neg hall]
          simp only [true_iff]
          exact ⟨l, rfl, hnil, (all_isSome_false_iff l).mp hall⟩
  refine ⟨h400, h500, ?_⟩
  intro hn400 hn500
  cases hr : (postHoldingsCalc EXCHANGES P now s body).1 with
  | serverError => exact absurd (h500.mp hr) hn500
  | reply r =>
    cases r with
    | badRequest e => exact absurd (h400.mp ⟨e, hr⟩) hn400
    | ok rows total => exact ⟨rows, total, rfl⟩

/-- Witness for C25: a missing body, a holding without name, a `null` element next to a
record, and a valid request. -/
theorem postHoldingsCalc_outcomes_witness :
    (∃ e, (postHoldingsCalc defaultExchanges sampleProvider 0 State.empty none).1
      = .reply (.badRequest e)) ∧
    (∃ e, (postHoldingsCalc defaultExchanges sampleProvider 0 State.empty
      (some (namelessApple.map some))).1 = .reply (.badRequest e)) ∧
    (postHoldingsCalc defaultExchanges sampleProvider 0 State.empty
      (some (none :: appleAndCash.map some))).1 = .serverError ∧
    (postHoldingsCalc defaultExchanges sampleProvider 0 State.empty
      (some (appleAndCash.map some))).1 = .reply (.ok appleAndCashRows 2100) :=
  ⟨(postHoldingsCalc_outcomes defaultExchanges sampleProvider 0 State.empty none).1.mpr
      (Or.inl rfl),
   (postHoldingsCalc_outcomes defaultExchanges sampleProvider 0 State.empty
      (some (namelessApple.map some))).1.mpr
      (Or.inr (Or.inr ⟨namelessApple, rfl,
        { name := "", ticker := "AAPL", shares := .fin 10, exchange := "",
          value := none, defaultPrice := none }, by decide!, Or.inl (by decide!)⟩)),
   (postHoldingsCalc_outcomes defaultExchanges sampleProvider 0 State.empty
      (some (none :: appleAndCash.map some))).2.1.mpr
      ⟨none :: appleAndCash.map some, rfl, by simp, List.mem_cons_self _ _⟩,
   by decide!⟩

/-- C26 (counterexample). From the fresh process state, one lookup of a symbol quoted at
1e307 USD at the rate 0.8: the converted amount times 100 overflows, `Math.round(...) / 100`
is `Infinity`, which passes `gbp && gbp > 0`, is returned and is stored in the price cache.
`Infinity` is not a finite number, let alone a whole number of hundredths. -/
theorem priceCache_holds_infinity :
    fetchPriceGBP64 defaultExchanges overflowProvider 0 "BIG" "XNAS" State64.empty
      = (some .posInf,
         { priceCache := [("BIG||XNAS", { price := .posInf, ts := 0 })],
           fxCache := some { val := { usdGbp := toDouble 0.8, usdEur := toDouble 0.9 }, ts := 0 },
           log := [.forexRates, .quote "BIG"] }) ∧
    Float64.posInf.isFinite = false ∧
    ¬ ∃ n : ℤ, Float64.posInf = .fin ((n : ℚ) / 100) :=
  ⟨by decide!, rfl, fun ⟨_, h⟩ => by cases h⟩

/-- C26 (amended). In every state reachable from an empty price cache by any sequence of
`fetchPriceGBP` calls, every cache entry has a price strictly greater than 0 that is the
double nearest to a whole number of hundredths, or `Infinity`, and every further
`fetchPriceGBP` result is null or such a number. -/
theorem priceCache64_invariant (EXCHANGES : List Exchange) (s : State64)
    (hreach : Reachable64 EXCHANGES s) :
    (∀ x ∈ s.priceCache, PriceOk64 x.2.price) ∧
    ∀ (P : Provider) (now : ℤ) (ticker exchangeCode : String),
      (fetchPriceGBP64 EXCHANGES P now ticker exchangeCode s).1 = none ∨
      ∃ p, (fetchPriceGBP64 EXCHANGES P now ticker exchangeCode s).1 = some p ∧
        PriceOk64 p := by
  have hinv : ∀ x ∈ s.priceCache, PriceOk64 x.2.price := by
    induction hreach with
    | init s0 h0 =>
      intro x hx
      rw [h0] at hx
      cases hx
    | step s0 P now ticker exchangeCode _ ih =>
      exact (fetchPriceGBP64_priceOk EXCHANGES P now ticker exchangeCode s0 ih).1
  exact ⟨hinv, fun P now ticker exchangeCode =>
    (fetchPriceGBP64_priceOk EXCHANGES P now ticker exchangeCode s hinv).2⟩

/-- Witness for C26: the state after one successful lookup of AAPL on NASDAQ. -/
theorem priceCache64_invariant_witness :
    (fetchPriceGBP64 defaultExchanges sampleProvider 0 "AAPL" "XNAS" State64.empty).2.priceCache
      = [("AAPL||XNAS", { price := .fin 160, ts := 0 })] ∧
    ((∀ x ∈ (fetchPriceGBP64 defaultExchanges sampleProvider 0 "AAPL" "XNAS"
        State64.empty).2.priceCache, PriceOk64 x.2.price) ∧
    ∀ (P : Provider) (now : ℤ) (ticker exchangeCode : String),
      (fetchPriceGBP64 defaultExchanges P now ticker exchangeCode
        (fetchPriceGBP64 defaultExchanges sampleProvider 0 "AAPL" "XNAS" State64.empty).2).1
          = none ∨
      ∃ p, (fetchPriceGBP64 defaultExchanges P now ticker exchangeCode
        (fetchPriceGBP64 defaultExchanges sampleProvider 0 "AAPL" "XNAS" State64.empty).2).1
          = some p ∧ PriceOk64 p) :=
  ⟨by decide!,
   priceCache64_invariant defaultExchanges _
     (Reachable64.step State64.empty sampleProvider 0 "AAPL" "XNAS"
       (Reachable64.init State64.empty rfl))⟩

/-- C27. For every ticker and exchange that contain no `|`, splitting the composite key
`ticker + "||" + exchange` on `"||"` gives exactly the two parts `ticker` and `exchange`;
so two such pairs with the same key are equal, and the price of the key is fetched by
`fetchPriceGBP` for this very ticker and exchange. -/
theorem key_round_trip (ticker exchange : String)
    (ht : hasBar ticker = false) (he : hasBar exchange = false) :
    splitBars (makeKey ticker exchange) = [ticker, exchange] ∧
    lookupArgs (makeKey ticker exchange) = (ticker, exchange) ∧
    (∀ t2 e2, hasBar t2 = false → hasBar e2 = false →
      makeKey t2 e2 = makeKey ticker exchange → t2 = ticker ∧ e2 = exchange) ∧
    (∀ (EXCHANGES : List Exchange) (P : Provider) (now : ℤ) (s : State),
      fetchAll EXCHANGES P now [makeKey ticker exchange] s
        = ([(fetchPriceGBP EXCHANGES P now ticker exchange s).1],
           (fetchPriceGBP EXCHANGES P now ticker exchange s).2)) := by
  have hsplit := splitBars_makeKey ticker exchange ht he
  refine ⟨hsplit, lookupArgs_makeKey ticker exchange ht he, ?_, ?_⟩
  · intro t2 e2 ht2 he2 hkey
    have h1 := lookupArgs_makeKey t2 e2 ht2 he2
    rw [hkey, lookupArgs_makeKey ticker exchange ht he] at h1
    exact ⟨(congrArg Prod.fst h1).symm, (congrArg Prod.snd h1).symm⟩
  · intro EXCHANGES P now s
    simp only [fetchAll, hsplit, List.getD_cons_zero, List.getD_cons_succ]

/-- Witness for C27: the pair (AAPL, XNAS). -/
theorem key_round_trip_witness :
    makeKey "AAPL" "XNAS" = "AAPL||XNAS" ∧
    (splitBars (makeKey "AAPL" "XNAS") = ["AAPL", "XNAS"] ∧
    lookupArgs (makeKey "AAPL" "XNAS") = ("AAPL", "XNAS") ∧
    (∀ t2 e2, hasBar t2 = false → hasBar e2 = false →
      makeKey t2 e2 = makeKey "AAPL" "XNAS" → t2 = "AAPL" ∧ e2 = "XNAS") ∧
    (∀ (EXCHANGES : List Exchange) (P : Provider) (now : ℤ) (s : State),
      fetchAll EXCHANGES P now [makeKey "AAPL" "XNAS"] s
        = ([(fetchPriceGBP EXCHANGES P now "AAPL" "XNAS" s).1],
           (fetchPriceGBP EXCHANGES P now "AAPL" "XNAS" s).2))) :=
  ⟨by decide!, key_round_trip "AAPL" "XNAS" (by decide!) (by decide!)⟩

/-- C28. The defaults handler changes nothing but `defaultPrice`: for every stored
holdings list, provider, clock and cache state, the list written has the same length and
order, and the ticker, the exchange and all other properties (name, shares, any extra
one) of each holding are those of the input. -/
theorem refreshDefaults_frame (EXCHANGES : List Exchange) (P : Provider) (now : ℤ) (s : State)
    (current : List StoredHolding) :
    (refreshDefaults EXCHANGES P now s current).1.length = current.length ∧
    (refreshDefaults EXCHANGES P now s current).1.map (fun h => (h.ticker, h.exchange, h.others))
      = current.map (fun h => (h.ticker, h.exchange, h.others)) ∧
    ∀ (i : Nat) (h : StoredHolding), current[i]? = some h →
      ∃ o, (refreshDefaults EXCHANGES P now s current).1[i]? = some o ∧
        o.ticker = h.ticker ∧ o.exchange = h.exchange ∧ o.others = h.others := by
  refine ⟨?_, ?_, ?_⟩
  · simp [refreshDefaults, refreshDefaultsWith]
  · unfold refreshDefaults refreshDefaultsWith
    simp only [List.map_map]
    apply List.map_congr_left
    intro h _
    obtain ⟨h1, h2, h3⟩ := updateDefault_fields
      (fillPriceMap (defaultsKeys current)
        (fetchAll EXCHANGES P now (defaultsKeys current) s).1 []) h
    simp only [Function.comp, h1, h2, h3]
  · intro i h hget
    refine ⟨_, refreshDefaultsWith_getElem _ current i h hget, ?_⟩
    exact updateDefault_fields _ h

/-- Witness for C28: three stored holdings, Acme carrying an extra property. -/
theorem refreshDefaults_frame_witness :
    (refreshDefaults defaultExchanges sampleProvider 0 State.empty storedHoldings).1.length = 3 ∧
    ∃ o, (refreshDefaults defaultExchanges sampleProvider 0 State.empty storedHoldings).1[2]?
        = some o ∧
      o.ticker = "ACME" ∧ o.exchange = "XNAS" ∧
      o.others = [("name", "\"Acme\""), ("shares", "3"), ("note", "\"watch\"")] :=
  ⟨(refreshDefaults_frame defaultExchanges sampleProvider 0 State.empty storedHoldings).1,
   (refreshDefaults_frame defaultExchanges sampleProvider 0 State.empty storedHoldings).2.2 2
     { ticker := "ACME", exchange := "XNAS", defaultPrice := .number 42,
       others := [("name", "\"Acme\""), ("shares", "3"), ("note", "\"watch\"")] }
     (by decide!)⟩

/-- C29. In every state reachable from the fresh process state by calls of `fetchFxRates`
and `fetchPriceGBP`, the cached FX pair has both components non-zero and every pair that
`fetchFxRates` returns has both components non-zero; so the divisor `rates.usdEur` of the
EUR branch of `convertToGBP` is never zero for rates obtained from `fetchFxRates`, and the
branch yields `round2(p * usdGbp / usdEur)` for every price `p > 0`. -/
theorem fetchFxRates_never_zero (EXCHANGES : List Exchange) (s : State)
    (hreach : FxReachable EXCHANGES s) :
    fxOk s ∧
    ∀ (P : Provider) (now : ℤ),
      (fetchFxRates P now s).1.usdGbp ≠ 0 ∧ (fetchFxRates P now s).1.usdEur ≠ 0 ∧
      fxOk (fetchFxRates P now s).2 ∧
      ∀ (code : String) (p : ℚ), 0 < p → currencyOf EXCHANGES code = "EUR" →
        convertToGBP EXCHANGES (.fin p) code (fetchFxRates P now s).1
          = some (round2 (p * (fetchFxRates P now s).1.usdGbp
              / (fetchFxRates P now s).1.usdEur)) := by
  have hok : fxOk s := by
    induction hreach with
    | init =>
      intro c hc
      cases hc
    | rates s0 P now _ ih => exact (fetchFxRates_nonzero P now s0 ih).2
    | price s0 P now ticker exchangeCode _ ih =>
      exact fetchPriceGBP_fxOk EXCHANGES P now ticker exchangeCode s0 ih
  refine ⟨hok, ?_⟩
  intro P now
  obtain ⟨⟨h1, h2⟩, h3⟩ := fetchFxRates_nonzero P now s hok
  refine ⟨h1, h2, h3, ?_⟩
  intro code p hp hcur
  have hgbx : ¬ currencyOf EXCHANGES code = "GBX" := by
    rw [hcur]
    decide
  rw [convertToGBP_pos _ _ _ _ hp]
  simp [hcur, hgbx]

/-- Witness for C29: the state after a lookup answered from candle closes, then a
conversion of 200 EUR on XETRA. -/
theorem fetchFxRates_never_zero_witness :
    (fetchFxRates spotProvider 0 State.empty).1 = { usdGbp := 4 / 5, usdEur := 10 / 11 } ∧
    (fxOk (fetchFxRates spotProvider 0 State.empty).2 ∧
    ∀ (P : Provider) (now : ℤ),
      (fetchFxRates P now (fetchFxRates spotProvider 0 State.empty).2).1.usdGbp ≠ 0 ∧
      (fetchFxRates P now (fetchFxRates spotProvider 0 State.empty).2).1.usdEur ≠ 0 ∧
      fxOk (fetchFxRates P now (fetchFxRates spotProvider 0 State.empty).2).2 ∧
      ∀ (code : String) (p : ℚ), 0 < p → currencyOf defaultExchanges code = "EUR" →
        convertToGBP defaultExchanges (.fin p) code
            (fetchFxRates P now (fetchFxRates spotProvider 0 State.empty).2).1
          = some (round2 (p
              * (fetchFxRates P now (fetchFxRates spotProvider 0 State.empty).2).1.usdGbp
              / (fetchFxRates P now (fetchFxRates spotProvider 0 State.empty).2).1.usdEur))) :=
  ⟨by decide!,
   fetchFxRates_never_zero defaultExchanges _
     (FxReachable.rates State.empty spotProvider 0 FxReachable.init)⟩

/-- C30 (counterexample). Lloyds at 0.29 with 50 shares and Vodafone at 0.3 with 5 shares,
both without a server value: the client values them at 14 and 2. For Lloyds, `0.29 * 50`
is 14.5 and rounds to 15; for Vodafone the price is the double just below 0.3, whose
exact product with 5 is below 1.5 and rounds to 1, while the double product is 1.5 and
`Math.round` gives 2. -/
theorem computeEffectiveHoldings64_ties :
    computeEffectiveHoldings64 [] pennyCalc
      = [ { name := "Lloyds", ticker := "LLOY", shares := .fin 50,
            pricePerShare := some (toDouble 0.29), value := some (.fin 14) },
          { name := "Vodafone", ticker := "VOD", shares := .fin 5,
            pricePerShare := some (toDouble 0.3), value := some (.fin 2) } ] ∧
    nameHasCash "Lloyds" = false ∧ nameHasCash "Vodafone" = false ∧
    mathRound (0.29 * 50) = 15 ∧
    toDouble 0.3 = .fin (5404319552844595 / 18014398509481984) ∧
    mathRound ((5404319552844595 / 18014398509481984) * 5) = 1 := by
  decide!

/-- C30 (amended). In `computeEffectiveHoldings`, a holding whose name contains "cash"
(case-insensitively) is valued as cash whatever its ticker, value and price, just as a
holding whose ticker is `CASH`: its `pricePerShare` is 1 and its value is the rounded
share count of the base holding stored under the same upper-cased, trimmed ticker, or 0
when there is none. Every other holding, one that is not valued as cash, with a null
value and an available price `p`, the server price or else the base `defaultPrice`, gets
the value `Math.round(p * shares)`, the product rounded to a double. -/
theorem computeEffectiveHoldings64_spec (base : List BaseHolding)
    (calcHoldings : List CalcHolding) (i : Nat) (h : CalcHolding)
    (hget : calcHoldings[i]? = some h) :
    ∃ o, (computeEffectiveHoldings64 base calcHoldings)[i]? = some o ∧
      (nameHasCash h.name = true ∨ upperTrim h.ticker = "CASH" →
        o.pricePerShare = some (.fin 1) ∧
        (∀ b, mapGet (baseMapOf base) (upperTrim h.ticker) = some b →
          o.value = some (mathRound64 (ofJSNumber b.shares).orZero)) ∧
        (mapGet (baseMapOf base) (upperTrim h.ticker) = none → o.value = some (.fin 0))) ∧
      (nameHasCash h.name = false → upperTrim h.ticker ≠ "CASH" → h.value = none →
        (∀ p, h.pricePerShare = some p →
          o.value = some (mathRound64 ((toDouble p).mul (ofJSNumber h.shares).orZero)) ∧
          o.pricePerShare = some (toDouble p)) ∧
        (∀ p b, h.pricePerShare = none →
          mapGet (baseMapOf base) (upperTrim h.ticker) = some b → b.defaultPrice = some p →
          o.value = some (mathRound64 ((toDouble p).mul (ofJSNumber h.shares).orZero)) ∧
          o.pricePerShare = some (toDouble p))) ∧
      (∀ b, mapGet (baseMapOf base) (upperTrim h.ticker) = some b →
        b ∈ base ∧ upperTrim b.ticker = upperTrim h.ticker) ∧
      (mapGet (baseMapOf base) (upperTrim h.ticker) = none ↔
        ∀ b ∈ base, upperTrim b.ticker ≠ upperTrim h.ticker) := by
  have hrow : (computeEffectiveHoldings64 base calcHoldings)[i]?
      = some (effectiveHolding64 (baseMapOf base) h) := by
    unfold computeEffectiveHoldings64
    simp [List.getElem?_map, hget]
  refine ⟨_, hrow, ?_, ?_, ?_, ?_⟩
  · intro hcash
    have hc : (decide (upperTrim h.ticker = "CASH") || nameHasCash h.name) = true := by
      rcases hcash with h1 | h1
      · simp [h1]
      · simp [h1]
    unfold effectiveHolding64
    simp only [hc, if_true]
    refine ⟨trivial, ?_, ?_⟩
    · intro b hb
      simp only [hb]
    · intro hb
      simp only [hb, mathRound64, mathRound_zero]
  · intro hcash ht hv
    have hdec : decide (upperTrim h.ticker = "CASH") = false := by simp [ht]
    constructor
    · intro p hp
      unfold effectiveHolding64
      simp [hcash, hdec, hv, hp]
    · intro p b hp hb hd
      unfold effectiveHolding64
      simp [hcash, hdec, hv, hp, hb, hd]
  · intro b hb
    unfold baseMapOf at hb
    rcases foldl_mapSet_get_some base [] _ b hb with h1 | h1
    · exact h1
    · simp [mapGet] at h1
  · unfold baseMapOf
    rw [foldl_mapSet_get_none]
    simp [mapGet]

/-- Witness for C30: "Petty Cash" held under the ticker GBP and priced by the server, and
Acme valued from its base default price. -/
theorem computeEffectiveHoldings64_spec_witness :
    computeEffectiveHoldings64 sampleBase sampleCalc
      = [ { name := "Petty Cash", ticker := "GBP", shares := .fin 4,
            pricePerShare := some (.fin 1), value := some (.fin 250) },
          { name := "Acme", ticker := "ACME", shares := .fin 3,
            pricePerShare := some (.fin 42), value := some (.fin 126) } ] ∧
    nameHasCash "Petty Cash" = true ∧
    ∃ o, (computeEffectiveHoldings64 sampleBase sampleCalc)[0]? = some o ∧
      (nameHasCash "Petty Cash" = true ∨ upperTrim "GBP" = "CASH" →
        o.pricePerShare = some (.fin 1) ∧
        (∀ b, mapGet (baseMapOf sampleBase) (upperTrim "GBP") = some b →
          o.value = some (mathRound64 (ofJSNumber b.shares).orZero)) ∧
        (mapGet (baseMapOf sampleBase) (upperTrim "GBP") = none → o.value = some (.fin 0))) ∧
      (nameHasCash "Petty Cash" = false → upperTrim "GBP" ≠ "CASH" →
        (some 999 : Option ℚ) = none →
        (∀ p, (some 3 : Option ℚ) = some p →
          o.value = some (mathRound64 ((toDouble p).mul (ofJSNumber (JSNumber.fin 4)).orZero)) ∧
          o.pricePerShare = some (toDouble p)) ∧
        (∀ p b, (some 3 : Option ℚ) = none →
          mapGet (baseMapOf sampleBase) (upperTrim "GBP") = some b → b.defaultPrice = some p →
          o.value = some (mathRound64 ((toDouble p).mul (ofJSNumber (JSNumber.fin 4)).orZero)) ∧
          o.pricePerShare = some (toDouble p))) ∧
      (∀ b, mapGet (baseMapOf sampleBase) (upperTrim "GBP") = some b →
        b ∈ sampleBase ∧ upperTrim b.ticker = upperTrim "GBP") ∧
      (mapGet (baseMapOf sampleBase) (upperTrim "GBP") = none ↔
        ∀ b ∈ sampleBase, upperTrim b.ticker ≠ upperTrim "GBP") :=
  ⟨by decide!, by decide!,
   computeEffectiveHoldings64_spec sampleBase sampleCalc 0
     { name := "Petty Cash", ticker := "GBP", shares := .fin 4, value := some 999,
       pricePerShare := some 3 } (by decide!)⟩

end InvestmentClub
